import Mathlib

/-!
# Verification of the co-doku Sudoku engine core

A shallow embedding of the TypeScript Sudoku engine (board model, solver,
generator, grader, hint engine, validator) together with proofs checking the
natural-language specification against it.

Boards are flat 81-element integer lists, value 0 meaning an empty cell,
exactly as in the source (`types.ts`).  JavaScript array reads `board[i]`
are modelled with `List.get?` so that out-of-range reads (which yield
`undefined !== 0` in JavaScript, i.e. behave like a filled cell) are
reproduced faithfully: the test "cell i is empty" is `b.get? i = some 0`
and the test "cell p holds value v" is `b.get? p = some v`.

`Math.random()` is modelled as an injectable source of natural numbers,
following the specification's requirement that randomness be an injectable
pseudo-random source; each draw is reduced with `%` where the source code
applies `Math.floor(Math.random() * n)`.  All theorems quantify over every
possible source.
-/

namespace Codoku

/-- A board: flat list of cell values, row-major; 0 = empty (`types.ts`). -/
abbrev Board := List Nat

/-- `idx(row, col)` from `utils.ts`. -/
def idx (row col : Nat) : Nat := row * 9 + col

/-- `rowOf` from `utils.ts`. -/
def rowOf (i : Nat) : Nat := i / 9

/-- `colOf` from `utils.ts`. -/
def colOf (i : Nat) : Nat := i % 9

/-- `boxOf` from `utils.ts`. -/
def boxOf (i : Nat) : Nat := (rowOf i / 3) * 3 + colOf i / 3

/-- `ROWS` from `utils.ts`: the 81 cell indices grouped by row. -/
def ROWS : List (List Nat) :=
  (List.range 9).map (fun r => (List.range 9).map (fun c => idx r c))

/-- `COLS` from `utils.ts`: the 81 cell indices grouped by column. -/
def COLS : List (List Nat) :=
  (List.range 9).map (fun c => (List.range 9).map (fun r => idx r c))

/-- `BOXES` from `utils.ts`: the 81 cell indices grouped by 3x3 box. -/
def BOXES : List (List Nat) :=
  (List.range 9).map (fun b =>
    let br := b / 3 * 3
    let bc := b % 3 * 3
    (List.range 3).flatMap (fun dr => (List.range 3).map (fun dc => idx (br + dr) (bc + dc))))

/-- `PEERS` from `utils.ts`, computed exactly as in the source: for each cell,
the union (in first-insertion order, as a JavaScript `Set`) of its row, column
and box, with the cell itself removed. -/
def PEERScomputed : List (List Nat) :=
  (List.range 81).map (fun i =>
    ((ROWS.getD (rowOf i) [] ++ COLS.getD (colOf i) [] ++ BOXES.getD (boxOf i) []).eraseDups).filter
      (fun j => j != i))

/-- The peer table as a pre-evaluated literal (proved equal to `PEERScomputed`
in `PEERS_eq`); the literal form keeps kernel evaluation of the solver cheap. -/
def PEERS : List (List Nat) :=
  [
    [1,2,3,4,5,6,7,8,9,18,27,36,45,54,63,72,10,11,19,20],
    [0,2,3,4,5,6,7,8,10,19,28,37,46,55,64,73,9,11,18,20],
    [0,1,3,4,5,6,7,8,11,20,29,38,47,56,65,74,9,10,18,19],
    [0,1,2,4,5,6,7,8,12,21,30,39,48,57,66,75,13,14,22,23],
    [0,1,2,3,5,6,7,8,13,22,31,40,49,58,67,76,12,14,21,23],
    [0,1,2,3,4,6,7,8,14,23,32,41,50,59,68,77,12,13,21,22],
    [0,1,2,3,4,5,7,8,15,24,33,42,51,60,69,78,16,17,25,26],
    [0,1,2,3,4,5,6,8,16,25,34,43,52,61,70,79,15,17,24,26],
    [0,1,2,3,4,5,6,7,17,26,35,44,53,62,71,80,15,16,24,25],
    [10,11,12,13,14,15,16,17,0,18,27,36,45,54,63,72,1,2,19,20],
    [9,11,12,13,14,15,16,17,1,19,28,37,46,55,64,73,0,2,18,20],
    [9,10,12,13,14,15,16,17,2,20,29,38,47,56,65,74,0,1,18,19],
    [9,10,11,13,14,15,16,17,3,21,30,39,48,57,66,75,4,5,22,23],
    [9,10,11,12,14,15,16,17,4,22,31,40,49,58,67,76,3,5,21,23],
    [9,10,11,12,13,15,16,17,5,23,32,41,50,59,68,77,3,4,21,22],
    [9,10,11,12,13,14,16,17,6,24,33,42,51,60,69,78,7,8,25,26],
    [9,10,11,12,13,14,15,17,7,25,34,43,52,61,70,79,6,8,24,26],
    [9,10,11,12,13,14,15,16,8,26,35,44,53,62,71,80,6,7,24,25],
    [19,20,21,22,23,24,25,26,0,9,27,36,45,54,63,72,1,2,10,11],
    [18,20,21,22,23,24,25,26,1,10,28,37,46,55,64,73,0,2,9,11],
    [18,19,21,22,23,24,25,26,2,11,29,38,47,56,65,74,0,1,9,10],
    [18,19,20,22,23,24,25,26,3,12,30,39,48,57,66,75,4,5,13,14],
    [18,19,20,21,23,24,25,26,4,13,31,40,49,58,67,76,3,5,12,14],
    [18,19,20,21,22,24,25,26,5,14,32,41,50,59,68,77,3,4,12,13],
    [18,19,20,21,22,23,25,26,6,15,33,42,51,60,69,78,7,8,16,17],
    [18,19,20,21,22,23,24,26,7,16,34,43,52,61,70,79,6,8,15,17],
    [18,19,20,21,22,23,24,25,8,17,35,44,53,62,71,80,6,7,15,16],
    [28,29,30,31,32,33,34,35,0,9,18,36,45,54,63,72,37,38,46,47],
    [27,29,30,31,32,33,34,35,1,10,19,37,46,55,64,73,36,38,45,47],
    [27,28,30,31,32,33,34,35,2,11,20,38,47,56,65,74,36,37,45,46],
    [27,28,29,31,32,33,34,35,3,12,21,39,48,57,66,75,40,41,49,50],
    [27,28,29,30,32,33,34,35,4,13,22,40,49,58,67,76,39,41,48,50],
    [27,28,29,30,31,33,34,35,5,14,23,41,50,59,68,77,39,40,48,49],
    [27,28,29,30,31,32,34,35,6,15,24,42,51,60,69,78,43,44,52,53],
    [27,28,29,30,31,32,33,35,7,16,25,43,52,61,70,79,42,44,51,53],
    [27,28,29,30,31,32,33,34,8,17,26,44,53,62,71,80,42,43,51,52],
    [37,38,39,40,41,42,43,44,0,9,18,27,45,54,63,72,28,29,46,47],
    [36,38,39,40,41,42,43,44,1,10,19,28,46,55,64,73,27,29,45,47],
    [36,37,39,40,41,42,43,44,2,11,20,29,47,56,65,74,27,28,45,46],
    [36,37,38,40,41,42,43,44,3,12,21,30,48,57,66,75,31,32,49,50],
    [36,37,38,39,41,42,43,44,4,13,22,31,49,58,67,76,30,32,48,50],
    [36,37,38,39,40,42,43,44,5,14,23,32,50,59,68,77,30,31,48,49],
    [36,37,38,39,40,41,43,44,6,15,24,33,51,60,69,78,34,35,52,53],
    [36,37,38,39,40,41,42,44,7,16,25,34,52,61,70,79,33,35,51,53],
    [36,37,38,39,40,41,42,43,8,17,26,35,53,62,71,80,33,34,51,52],
    [46,47,48,49,50,51,52,53,0,9,18,27,36,54,63,72,28,29,37,38],
    [45,47,48,49,50,51,52,53,1,10,19,28,37,55,64,73,27,29,36,38],
    [45,46,48,49,50,51,52,53,2,11,20,29,38,56,65,74,27,28,36,37],
    [45,46,47,49,50,51,52,53,3,12,21,30,39,57,66,75,31,32,40,41],
    [45,46,47,48,50,51,52,53,4,13,22,31,40,58,67,76,30,32,39,41],
    [45,46,47,48,49,51,52,53,5,14,23,32,41,59,68,77,30,31,39,40],
    [45,46,47,48,49,50,52,53,6,15,24,33,42,60,69,78,34,35,43,44],
    [45,46,47,48,49,50,51,53,7,16,25,34,43,61,70,79,33,35,42,44],
    [45,46,47,48,49,50,51,52,8,17,26,35,44,62,71,80,33,34,42,43],
    [55,56,57,58,59,60,61,62,0,9,18,27,36,45,63,72,64,65,73,74],
    [54,56,57,58,59,60,61,62,1,10,19,28,37,46,64,73,63,65,72,74],
    [54,55,57,58,59,60,61,62,2,11,20,29,38,47,65,74,63,64,72,73],
    [54,55,56,58,59,60,61,62,3,12,21,30,39,48,66,75,67,68,76,77],
    [54,55,56,57,59,60,61,62,4,13,22,31,40,49,67,76,66,68,75,77],
    [54,55,56,57,58,60,61,62,5,14,23,32,41,50,68,77,66,67,75,76],
    [54,55,56,57,58,59,61,62,6,15,24,33,42,51,69,78,70,71,79,80],
    [54,55,56,57,58,59,60,62,7,16,25,34,43,52,70,79,69,71,78,80],
    [54,55,56,57,58,59,60,61,8,17,26,35,44,53,71,80,69,70,78,79],
    [64,65,66,67,68,69,70,71,0,9,18,27,36,45,54,72,55,56,73,74],
    [63,65,66,67,68,69,70,71,1,10,19,28,37,46,55,73,54,56,72,74],
    [63,64,66,67,68,69,70,71,2,11,20,29,38,47,56,74,54,55,72,73],
    [63,64,65,67,68,69,70,71,3,12,21,30,39,48,57,75,58,59,76,77],
    [63,64,65,66,68,69,70,71,4,13,22,31,40,49,58,76,57,59,75,77],
    [63,64,65,66,67,69,70,71,5,14,23,32,41,50,59,77,57,58,75,76],
    [63,64,65,66,67,68,70,71,6,15,24,33,42,51,60,78,61,62,79,80],
    [63,64,65,66,67,68,69,71,7,16,25,34,43,52,61,79,60,62,78,80],
    [63,64,65,66,67,68,69,70,8,17,26,35,44,53,62,80,60,61,78,79],
    [73,74,75,76,77,78,79,80,0,9,18,27,36,45,54,63,55,56,64,65],
    [72,74,75,76,77,78,79,80,1,10,19,28,37,46,55,64,54,56,63,65],
    [72,73,75,76,77,78,79,80,2,11,20,29,38,47,56,65,54,55,63,64],
    [72,73,74,76,77,78,79,80,3,12,21,30,39,48,57,66,58,59,67,68],
    [72,73,74,75,77,78,79,80,4,13,22,31,40,49,58,67,57,59,66,68],
    [72,73,74,75,76,78,79,80,5,14,23,32,41,50,59,68,57,58,66,67],
    [72,73,74,75,76,77,79,80,6,15,24,33,42,51,60,69,61,62,70,71],
    [72,73,74,75,76,77,78,80,7,16,25,34,43,52,61,70,60,62,69,71],
    [72,73,74,75,76,77,78,79,8,17,26,35,44,53,62,71,60,61,69,70]
  ]

/-- The literal peer table is exactly the peer table computed as in the source. -/
theorem PEERS_eq : PEERS = PEERScomputed := by decide

/-- Peers of cell `i` (row/column/box companions, 20 cells for `i < 81`). -/
def peersOf (i : Nat) : List Nat := PEERS.getD i []

/-- `emptyBoard` from `utils.ts`. -/
def emptyBoard : Board := List.replicate 81 0

/-- `candidates` from `utils.ts`: values 1-9 that no peer of `i` currently
holds; empty list when cell `i` is not an empty in-range cell (JavaScript:
`board[i] !== 0`, which also holds for `undefined`). -/
def candidates (b : Board) (i : Nat) : List Nat :=
  if b.get? i != some 0 then []
  else
    let used := (peersOf i).filterMap (fun p =>
      match b.get? p with
      | some v => if v != 0 then some v else none
      | none => none)
    (List.range' 1 9).filter (fun v => !(used.contains v))

/-- `allCandidates` from `utils.ts`: candidate map over every empty cell,
keyed in ascending cell order (JavaScript `Map` keeps insertion order). -/
def allCandidates (b : Board) : List (Nat × List Nat) :=
  (List.range 81).filterMap (fun i =>
    if b.get? i == some 0 then some (i, candidates b i) else none)

/-- `isValidPlacement` from `utils.ts`: no peer of `i` holds `v`. -/
def isValidPlacement (b : Board) (i v : Nat) : Bool :=
  (peersOf i).all (fun p => b.get? p != some v)

/-- `isFilled` from `utils.ts`. -/
def isFilled (b : Board) : Bool := b.all (fun v => v != 0)

/-- `boardsEqual` from `utils.ts`. -/
def boardsEqual (a b : Board) : Bool :=
  (List.range a.length).all (fun i => a.get? i == b.get? i)

/-- Number of empty in-range cells; the measure that shrinks at every
recursive step of the backtracking search. -/
def zerosCount (b : Board) : Nat :=
  ((List.range 81).filter (fun i => b.get? i == some 0)).length

/-- Result of the MRV scan at the top of `backtrack` / `countBacktrack`
(`solver.ts`): a dead end (some empty cell has no candidates), a completely
filled board (`target === -1`), or the chosen branching cell. -/
inductive ScanResult where
  | deadEnd : ScanResult
  | allFilled : ScanResult
  | target : Nat → ScanResult
deriving DecidableEq

/-- The scan loop of the solver (`solver.ts` lines 29-38 and 78-87): find the
empty cell with fewest candidates, breaking early on a 1-candidate cell,
returning `deadEnd` as soon as an empty cell has no candidates.  The loop
counter `i` runs from 0 to 80; `rem` (= `81 - i`) makes the recursion
structural so that the definition evaluates by reduction. -/
def mrvGo (b : Board) : Nat → Nat → Nat → Option Nat → ScanResult
  | 0, _, _, best =>
    match best with
    | some t => .target t
    | none => .allFilled
  | rem + 1, i, minCand, best =>
    if b.get? i != some 0 then mrvGo b rem (i + 1) minCand best
    else
      let cs := candidates b i
      if cs.length = 0 then .deadEnd
      else if cs.length < minCand then
        if cs.length = 1 then .target i
        else mrvGo b rem (i + 1) cs.length (some i)
      else mrvGo b rem (i + 1) minCand best

/-- The full MRV scan with the source's initial accumulator values
(`minCandCount = 10`, `target = -1`). -/
def mrvScan (b : Board) : ScanResult := mrvGo b 81 0 10 none

/-- `solve`'s result record (`solver.ts`). -/
structure SolveResult where
  solved : Bool
  board : Board
deriving DecidableEq

/-- The `for (const v of cands)` loop of `backtrack` (`solver.ts`): place
`v`, run the recursive search `f`, and on failure restore `board[target] = 0`
(the failing search hands back the board it mutated; `backtrack_restore`
below proves that restoring yields the board the loop started from). -/
def backtrackGo (f : Board → Bool × Board) : Board → Nat → List Nat → Bool × Board
  | b, _, [] => (false, b)
  | b, t, v :: rest =>
    let r := f (b.set t v)
    if r.1 then (true, r.2)
    else backtrackGo f (r.2.set t 0) t rest

/-- `backtrack` from `solver.ts`: MRV scan, then try the target cell's
candidates in ascending order.  Recursion depth is bounded by the number of
empty cells (the spec notes depth is at most 81), so the explicit `fuel`
argument, 82 at the top level, never reaches 0 on a real run; a run out of
fuel reports failure with the board unchanged, matching the failure shape. -/
def backtrack : Nat → Board → Bool × Board
  | 0, b => (false, b)
  | fuel + 1, b =>
    match mrvScan b with
    | .deadEnd => (false, b)
    | .allFilled => (true, b)
    | .target t => backtrackGo (backtrack fuel) b t (candidates b t)

/-- `solve` from `solver.ts`: clone the board (implicit in the functional
model), run `backtrack`, report the flag and the final board. -/
def solve (b : Board) : SolveResult :=
  let r := backtrack 82 b
  { solved := r.1, board := r.2 }

/-- The `for (const v of cands)` loop of `countBacktrack` (`solver.ts`),
including its early `count.value >= limit` exit; `f` is the recursive search,
threading the shared counter. -/
def countGoVals (f : Board → Nat → Nat) (b : Board) (limit t : Nat) : List Nat → Nat → Nat
  | [], k => k
  | v :: rest, k =>
    if limit ≤ k then k
    else countGoVals f b limit t rest (f (b.set t v) k)

/-- `countBacktrack` from `solver.ts`: same MRV search as `backtrack`,
threading the shared counter `count.value` (the board mutations of the source
cancel out inside every call, so only the counter is threaded). -/
def countBacktrack : Nat → Board → Nat → Nat → Nat
  | 0, _, _, k => k
  | fuel + 1, b, limit, k =>
    if limit ≤ k then k
    else
      match mrvScan b with
      | .deadEnd => k
      | .allFilled => k + 1
      | .target t => countGoVals (countBacktrack fuel · limit ·) b limit t (candidates b t) k

/-- `countSolutions` from `solver.ts` (`limit` defaults to 2 at call sites). -/
def countSolutions (b : Board) (limit : Nat) : Nat :=
  countBacktrack 82 b limit 0

/-- `hasUniqueSolution` from `solver.ts`. -/
def hasUniqueSolution (b : Board) : Bool := countSolutions b 2 == 1

/-- `getUniqueSolution` from `solver.ts`. -/
def getUniqueSolution (b : Board) : Option Board :=
  if !hasUniqueSolution b then none
  else
    let r := solve b
    if r.solved then some r.board else none

/-! ## Difficulty grader (`grader.ts`)

The grader simulates a human solver over one shared candidate map.  The
JavaScript `Map<number, Set<CellValue>>` is modelled as an association list
with unique keys in insertion order; a `Set` of digits is a duplicate-free
list in insertion order.  Iteration over a live `Set`/`Map` under deletion
visits exactly the elements still present, which the model reproduces by
re-checking presence before acting. -/

/-- Candidate map: cell index to its candidate digits (`Map` in the source). -/
abbrev CMap := List (Nat × List Nat)

/-- Difficulty tiers (`types.ts`). -/
inductive Difficulty where
  | easy | medium | hard | expert
deriving DecidableEq

/-- Solving techniques (`types.ts`). -/
inductive SolvingTechnique where
  | naked_single | hidden_single | naked_pair | naked_triple | hidden_pair | hidden_triple
  | pointing_pair | box_line_reduction | x_wing | swordfish | brute_force
deriving DecidableEq

/-- `cands.get(i)?.has(v)`. -/
def candHas (m : CMap) (i v : Nat) : Bool :=
  match List.lookup i m with
  | some cs => cs.contains v
  | none => false

/-- `cands.delete(i)`: drop the entry for cell `i`. -/
def cdeleteKey (m : CMap) (i : Nat) : CMap := m.filter (fun e => e.1 != i)

/-- `cands.get(i)?.delete(v)`: remove candidate `v` from cell `i`, reporting
whether anything was actually removed (the JavaScript return value). -/
def cremove (m : CMap) (i v : Nat) : CMap × Bool :=
  if candHas m i v then
    (m.map (fun e => if e.1 == i then (e.1, e.2.erase v) else e), true)
  else (m, false)

/-- Total number of (cell, candidate) pairs in the map; the measure that
every successful technique application strictly decreases. -/
def totalCands (m : CMap) : Nat := (m.map (fun e => e.2.length)).sum

/-- `placeValue` from `grader.ts`: write the value, remove the cell from the
map, prune the value from all peers. -/
def placeValue (b : Board) (m : CMap) (i v : Nat) : Board × CMap :=
  (b.set i v, (peersOf i).foldl (fun acc p => (cremove acc p v).1) (cdeleteKey m i))

/-- Fold a state-and-change-flag step over a list, or-ing the flags: the shape
of every `for` loop in `grader.ts` that accumulates a `changed` flag. -/
def chFold (f : α → σ → σ × Bool) : List α → σ → σ × Bool
  | [], s => (s, false)
  | a :: rest, s =>
    let r1 := f a s
    let r2 := chFold f rest r1.1
    (r2.1, r1.2 || r2.2)

/-- All 27 units in the order `[...ROWS, ...COLS, ...BOXES]` used throughout
`grader.ts` and `hints.ts`. -/
def unitsAll : List (List Nat) := ROWS ++ COLS ++ BOXES

/-- One step of `applyNakedSingles`: at cell `k` (looked up live), place the
single candidate if the set has exactly one. -/
def nakedSingleStep (k : Nat) (s : Board × CMap) : (Board × CMap) × Bool :=
  match List.lookup k s.2 with
  | some cs => if cs.length == 1 then (placeValue s.1 s.2 k (cs.headD 0), true) else (s, false)
  | none => (s, false)

/-- `applyNakedSingles` from `grader.ts`: iterate over the map's entries (in
insertion order), placing every cell whose live candidate set is a singleton. -/
def applyNakedSingles (b : Board) (m : CMap) : (Board × CMap) × Bool :=
  chFold nakedSingleStep (m.map (fun e => e.1)) (b, m)

/-- Inner step of `applyHiddenSingles` for one unit and digit. -/
def hiddenSingleDigit (unit : List Nat) (v : Nat) (s : Board × CMap) : (Board × CMap) × Bool :=
  let cells := unit.filter (fun i => candHas s.2 i v)
  if cells.length == 1 then (placeValue s.1 s.2 (cells.headD 0) v, true) else (s, false)

/-- `applyHiddenSingles` from `grader.ts`. -/
def applyHiddenSingles (b : Board) (m : CMap) : (Board × CMap) × Bool :=
  chFold (fun unit s => chFold (hiddenSingleDigit unit) (List.range' 1 9) s) unitsAll (b, m)

/-- Inner step of `applyPointingPairs` for one box and digit. -/
def pointingDigit (box : List Nat) (v : Nat) (m : CMap) : CMap × Bool :=
  let cells := box.filter (fun i => candHas m i v)
  if cells.length < 2 || 3 < cells.length then (m, false)
  else
    let rows := (cells.map rowOf).eraseDups
    let cols := (cells.map colOf).eraseDups
    if rows.length == 1 then
      chFold (fun i mm => if box.contains i then (mm, false) else cremove mm i v)
        (ROWS.getD (rows.headD 0) []) m
    else if cols.length == 1 then
      chFold (fun i mm => if box.contains i then (mm, false) else cremove mm i v)
        (COLS.getD (cols.headD 0) []) m
    else (m, false)

/-- `applyPointingPairs` from `grader.ts`. -/
def applyPointingPairs (m : CMap) : CMap × Bool :=
  chFold (fun box mm => chFold (pointingDigit box) (List.range' 1 9) mm) BOXES m

/-- Inner step of `applyBoxLineReduction` for one line and digit. -/
def boxLineDigit (line : List Nat) (v : Nat) (m : CMap) : CMap × Bool :=
  let cells := line.filter (fun i => candHas m i v)
  if cells.length < 2 then (m, false)
  else
    let boxes := (cells.map boxOf).eraseDups
    if boxes.length != 1 then (m, false)
    else
      chFold (fun i mm => if line.contains i then (mm, false) else cremove mm i v)
        (BOXES.getD (boxes.headD 0) []) m

/-- `applyBoxLineReduction` from `grader.ts`. -/
def applyBoxLineReduction (m : CMap) : CMap × Bool :=
  chFold (fun line mm => chFold (boxLineDigit line) (List.range' 1 9) mm) (ROWS ++ COLS) m

/-- `combinations` from `grader.ts`. -/
def combinations : List α → Nat → List (List α)
  | _, 0 => [[]]
  | arr, size + 1 =>
    if arr.length < size + 1 then []
    else
      match arr with
      | [] => []
      | first :: rest =>
        ((combinations rest size).map (fun c => first :: c)) ++ combinations rest (size + 1)

/-- `applyNakedSubset` from `grader.ts`, for one unit. -/
def nakedSubsetUnit (size : Nat) (unit : List Nat) (m : CMap) : CMap × Bool :=
  let emptyCells := unit.filter (fun i => (List.lookup i m).isSome)
  let subsets := combinations emptyCells size
  chFold (fun subset mm =>
    let union := (subset.flatMap (fun i => (List.lookup i mm).getD [])).eraseDups
    if union.length != size then (mm, false)
    else
      chFold (fun i m2 =>
        if subset.contains i then (m2, false)
        else
          match List.lookup i m2 with
          | none => (m2, false)
          | some _ => chFold (fun v m3 => cremove m3 i v) union m2)
        unit mm)
    subsets m

/-- `applyNakedSubset` from `grader.ts`. -/
def applyNakedSubset (m : CMap) (size : Nat) : CMap × Bool :=
  chFold (nakedSubsetUnit size) unitsAll m

/-- `applyHiddenSubset` from `grader.ts`, for one unit.  The source iterates
over the live candidate set and unconditionally deletes every candidate that
is not part of the hidden subset; iterating a snapshot and re-checking
presence reproduces live-`Set` iteration under deletion. -/
def hiddenSubsetUnit (size : Nat) (unit : List Nat) (m : CMap) : CMap × Bool :=
  let digitCells := (List.range' 1 9).filterMap (fun v =>
    let cells := unit.filter (fun i => candHas m i v)
    if 2 ≤ cells.length && cells.length ≤ size then some (v, cells) else none)
  let digits := digitCells.map (fun e => e.1)
  let digitSubsets := combinations digits size
  chFold (fun dSubset mm =>
    let cellUnion := (dSubset.flatMap (fun v => (List.lookup v digitCells).getD [])).eraseDups
    if cellUnion.length != size then (mm, false)
    else
      chFold (fun i m2 =>
        match List.lookup i m2 with
        | none => (m2, false)
        | some cell =>
          chFold (fun v m3 =>
            if !(dSubset.contains v) && candHas m3 i v then cremove m3 i v
            else (m3, false))
            cell m2)
        cellUnion mm)
    digitSubsets m

/-- `applyHiddenSubset` from `grader.ts`. -/
def applyHiddenSubset (m : CMap) (size : Nat) : CMap × Bool :=
  chFold (hiddenSubsetUnit size) unitsAll m

/-- `fishPass` from `grader.ts`: one X-Wing/Swordfish pass over a family of
base units, eliminating along the cover units. -/
def fishPass (baseUnits coverUnits : List (List Nat)) (v size : Nat) (m : CMap) : CMap × Bool :=
  let qualifying := baseUnits.filterMap (fun unit =>
    let positions := unit.filter (fun i => candHas m i v)
    if 2 ≤ positions.length && positions.length ≤ size then some (unit, positions) else none)
  let qSubsets := combinations qualifying size
  chFold (fun subset mm =>
    let coverIndices := ((subset.flatMap (fun q => q.2)).filterMap (fun i =>
      (List.range 9).find? (fun ci => (coverUnits.getD ci []).contains i))).eraseDups
    if coverIndices.length != size then (mm, false)
    else
      let baseSet := subset.flatMap (fun q => q.2)
      chFold (fun ci m2 =>
        chFold (fun i m3 =>
          if baseSet.contains i then (m3, false) else cremove m3 i v)
          (coverUnits.getD ci []) m2)
        coverIndices mm)
    qSubsets m

/-- `applyFish` from `grader.ts`: rows-to-columns then columns-to-rows pass
for every digit. -/
def applyFish (m : CMap) (size : Nat) : CMap × Bool :=
  chFold (fun v mm =>
    let r1 := fishPass ROWS COLS v size mm
    let r2 := fishPass COLS ROWS v size r1.1
    (r2.1, r1.2 || r2.2))
    (List.range' 1 9) m

/-- Dispatch one technique application (`grader.ts`: the `fn` closures of the
`steps` table; `brute_force` is never in the table and is a no-op here). -/
def applyTechnique (t : SolvingTechnique) (b : Board) (m : CMap) : (Board × CMap) × Bool :=
  match t with
  | .naked_single => applyNakedSingles b m
  | .hidden_single => applyHiddenSingles b m
  | .pointing_pair => let r := applyPointingPairs m; ((b, r.1), r.2)
  | .box_line_reduction => let r := applyBoxLineReduction m; ((b, r.1), r.2)
  | .naked_pair => let r := applyNakedSubset m 2; ((b, r.1), r.2)
  | .hidden_pair => let r := applyHiddenSubset m 2; ((b, r.1), r.2)
  | .naked_triple => let r := applyNakedSubset m 3; ((b, r.1), r.2)
  | .hidden_triple => let r := applyHiddenSubset m 3; ((b, r.1), r.2)
  | .x_wing => let r := applyFish m 2; ((b, r.1), r.2)
  | .swordfish => let r := applyFish m 3; ((b, r.1), r.2)
  | .brute_force => ((b, m), false)

/-- The `steps` table of `simulateSolve` (`grader.ts` lines 64-75), in the
source's order, with the source's point values. -/
def gradeSteps : List (SolvingTechnique × Nat) :=
  [(.naked_single, 1), (.hidden_single, 2), (.pointing_pair, 5), (.box_line_reduction, 5),
   (.naked_pair, 6), (.hidden_pair, 8), (.naked_triple, 8), (.hidden_triple, 10),
   (.x_wing, 15), (.swordfish, 20)]

/-- The `for (const step of steps)` loop of `simulateSolve`: apply the steps
in order, stopping at (and reporting) the first one that makes progress. -/
def tryTechniques : List (SolvingTechnique × Nat) → Board → CMap →
    Option (SolvingTechnique × Nat × Board × CMap)
  | [], _, _ => none
  | (name, pts) :: rest, b, m =>
    let r := applyTechnique name b m
    if r.2 then some (name, pts, r.1.1, r.1.2)
    else tryTechniques rest r.1.1 r.1.2

/-- The `while (cands.size > 0 && progress)` loop of `simulateSolve`.  Each
successful step strictly decreases `totalCands` (see the C9 theorem), so the
fuel `totalCands m + 1` supplied by `simulateSolve` never runs out. -/
def simLoop : Nat → Board → CMap → Nat → List SolvingTechnique →
    CMap × Nat × List SolvingTechnique
  | 0, _, m, score, techs => (m, score, techs)
  | fuel + 1, b, m, score, techs =>
    if m.isEmpty then (m, score, techs)
    else
      match tryTechniques gradeSteps b m with
      | none => (m, score, techs)
      | some (name, pts, b2, m2) => simLoop fuel b2 m2 (score + pts) (techs ++ [name])

/-- `simulateSolve` from `grader.ts`: run the technique loop on a fresh
candidate map, then score any remaining cells as `brute_force` at 50 each. -/
def simulateSolve (puzzle : Board) : Nat × List SolvingTechnique :=
  let m := allCandidates puzzle
  let r := simLoop (totalCands m + 1) puzzle m 0 []
  let remaining := r.1.length
  if 0 < remaining then (r.2.1 + remaining * 50, r.2.2 ++ [.brute_force])
  else (r.2.1, r.2.2)

/-- `scoreToDifficulty` from `grader.ts`. -/
def scoreToDifficulty (score : Nat) : Difficulty :=
  if score ≤ 20 then .easy
  else if score ≤ 45 then .medium
  else if score ≤ 80 then .hard
  else .expert

/-- `gradeDifficulty`'s result record (`grader.ts`). -/
structure GradeResult where
  difficulty : Difficulty
  score : Nat
  techniques : List SolvingTechnique
deriving DecidableEq

/-- `gradeDifficulty` from `grader.ts` (`[...new Set(...)]` de-duplicates the
technique list keeping first occurrences). -/
def gradeDifficulty (puzzle : Board) : GradeResult :=
  let r := simulateSolve puzzle
  { difficulty := scoreToDifficulty r.1, score := r.1, techniques := r.2.eraseDups }

/-! ## Generator (`generator.ts`)

`Math.random()` is modelled as an injectable tape of natural numbers: a
source function together with a position.  `Math.floor(Math.random() * n)`
becomes `draw % n`, which reaches every value in `[0, n)`, so quantifying
over all sources covers every possible sequence of draws. -/

/-- An injected randomness source: an infinite tape of naturals and the
position of the next draw. -/
structure RState where
  src : Nat → Nat
  pos : Nat

/-- Draw the next raw value from the tape. -/
def draw (r : RState) : Nat × RState := (r.src r.pos, { r with pos := r.pos + 1 })

/-- `randInt(min, max)` from `generator.ts`: uniform integer in `[min, max]`. -/
def randInt (mn mx : Nat) (r : RState) : Nat × RState :=
  let d := draw r
  (d.1 % (mx - mn + 1) + mn, d.2)

/-- Swap two positions of a list (the destructuring swap in `shuffle`). -/
def swapL (l : List Nat) (i j : Nat) : List Nat :=
  (l.set i (l.getD j 0)).set j (l.getD i 0)

/-- The Fisher-Yates loop of `shuffle` (`generator.ts`): `i` runs from
`a.length - 1` down to 1, drawing `j` uniformly from `[0, i]`; the pattern
argument is the current loop index. -/
def shuffleGo : Nat → List Nat → RState → List Nat × RState
  | 0, l, r => (l, r)
  | i + 1, l, r =>
    let d := draw r
    let j := d.1 % (i + 2)
    shuffleGo i (swapL l (i + 1) j) d.2

/-- `shuffle` from `generator.ts`. -/
def shuffle (l : List Nat) (r : RState) : List Nat × RState :=
  shuffleGo (l.length - 1) l r

/-- `GIVEN_RANGES` from `generator.ts`: inclusive target given-count ranges. -/
def GIVEN_RANGES : Difficulty → Nat × Nat
  | .easy => (36, 46)
  | .medium => (27, 35)
  | .hard => (22, 26)
  | .expert => (17, 21)

/-- The `for (let i = 0; i < 81; i++) ... continue` head of `fillBoard`:
index of the first empty cell, if any (`rem` = cells left to inspect). -/
def firstEmptyGo (b : Board) : Nat → Nat → Option Nat
  | 0, _ => none
  | rem + 1, i => if b.get? i != some 0 then firstEmptyGo b rem (i + 1) else some i

/-- First empty cell of the board in index order. -/
def firstEmpty (b : Board) : Option Nat := firstEmptyGo b 81 0

/-- The `for (const v of values)` loop of `fillBoard`: try each shuffled value
at cell `i`, recursing with `f`; a failed recursive call has restored the
board it mutated (its net effect is nil), after which `board[i] = 0` restores
the loop's own write, so the next try starts again from `b`. -/
def fillVals (f : Board → RState → Option Board × RState) (b : Board) (i : Nat) :
    List Nat → RState → Option Board × RState
  | [], r => (none, r)
  | v :: rest, r =>
    if isValidPlacement b i v then
      match f (b.set i v) r with
      | (some b2, r2) => (some b2, r2)
      | (none, r2) => fillVals f b i rest r2
    else fillVals f b i rest r

/-- `fillBoard` from `generator.ts`: fill the first empty cell (index order)
with a randomly shuffled value that passes `isValidPlacement`, backtracking on
dead ends.  Depth is bounded by the number of empty cells, so fuel 82 never
runs out at the `generateSolution` call site. -/
def fillBoard : Nat → Board → RState → Option Board × RState
  | 0, _, r => (none, r)
  | fuel + 1, b, r =>
    match firstEmpty b with
    | none => (some b, r)
    | some i =>
      let sh := shuffle [1, 2, 3, 4, 5, 6, 7, 8, 9] r
      fillVals (fillBoard fuel) b i sh.1 sh.2

/-- `generateSolution` from `generator.ts`: run `fillBoard` on an empty board;
the source ignores the returned flag, so on failure the (empty) board is
returned unchanged. -/
def generateSolution (r : RState) : Board × RState :=
  match fillBoard 82 emptyBoard r with
  | (some b, r2) => (b, r2)
  | (none, r2) => (emptyBoard, r2)

/-- `puzzle.filter(v => v !== 0).length`. -/
def countGivens (b : Board) : Nat := (b.filter (fun v => v != 0)).length

/-- The `for (const i of order)` loop of `digHoles`: stop when the given count
has reached the target; otherwise zero the cell and undo the removal if
uniqueness breaks. -/
def digGo (target : Nat) : Board → List Nat → Board
  | puzzle, [] => puzzle
  | puzzle, i :: rest =>
    if countGivens puzzle ≤ target then puzzle
    else
      let backup := puzzle.getD i 0
      let p2 := puzzle.set i 0
      if hasUniqueSolution p2 then digGo target p2 rest
      else digGo target (p2.set i backup) rest

/-- `digHoles` from `generator.ts`: draw a target given count in the tier's
range, remove cells in a random order keeping uniqueness, fail if the final
count is more than 3 away from the target. -/
def digHoles (solution : Board) (difficulty : Difficulty) (r : RState) :
    Option Board × RState :=
  let range := GIVEN_RANGES difficulty
  let t := randInt range.1 range.2 r
  let sh := shuffle (List.range 81) t.2
  let puzzle := digGo t.1 solution sh.1
  let givenCount := countGivens puzzle
  if 3 < max givenCount t.1 - min givenCount t.1 then (none, sh.2)
  else (some puzzle, sh.2)

/-- `DIFFICULTY_ORDER` from `generator.ts`. -/
def DIFFICULTY_ORDER : List Difficulty := [.easy, .medium, .hard, .expert]

/-- `isAcceptableDifficulty` from `generator.ts`: graded tier within one step
of the requested tier. -/
def isAcceptableDifficulty (actual requested : Difficulty) : Bool :=
  let ai := DIFFICULTY_ORDER.indexOf actual
  let ri := DIFFICULTY_ORDER.indexOf requested
  max ai ri - min ai ri ≤ 1

/-- `GeneratorOptions` from `generator.ts` with its source defaults. -/
structure GeneratorOptions where
  difficulty : Difficulty := .medium
  maxAttempts : Nat := 100

/-- `Puzzle` from `types.ts`. -/
structure Puzzle where
  board : Board
  solution : Board
  difficulty : Difficulty
  difficultyScore : Nat
  givenCount : Nat
  techniques : List SolvingTechnique
deriving DecidableEq

/-- The `for (let attempt = 0; ...)` loop of `generatePuzzle`: build a
solution, dig holes, grade, accept within one tier of the requested tier;
`none` models the `GenerationExhausted` throw. -/
def genLoop : Nat → Difficulty → RState → Option Puzzle × RState
  | 0, _, r => (none, r)
  | attempts + 1, difficulty, r =>
    let gs := generateSolution r
    match digHoles gs.1 difficulty gs.2 with
    | (none, r2) => genLoop attempts difficulty r2
    | (some puzzle, r2) =>
      let grade := gradeDifficulty puzzle
      if isAcceptableDifficulty grade.difficulty difficulty then
        (some { board := puzzle, solution := gs.1, difficulty := grade.difficulty,
                difficultyScore := grade.score, givenCount := countGivens puzzle,
                techniques := grade.techniques }, r2)
      else genLoop attempts difficulty r2

/-- `generatePuzzle` from `generator.ts`. -/
def generatePuzzle (options : GeneratorOptions) (r : RState) : Option Puzzle × RState :=
  genLoop options.maxAttempts options.difficulty r

/-! ## Validator (`validator.ts`) -/

/-- `ValidationResult` from `types.ts`. -/
structure ValidationResult where
  valid : Bool
  conflicts : List Nat
  complete : Bool
deriving DecidableEq

/-- `conflicts.add(x)`: JavaScript `Set` insertion (no duplicates, insertion
order preserved). -/
def addConf (l : List Nat) (x : Nat) : List Nat :=
  if l.contains x then l else l ++ [x]

/-- The per-unit loop of `validateBoard`: `seen` maps a cell value (the raw
JavaScript read, hence `Option Nat` to model `undefined`) to the first cell
index holding it; on a repeat both the current cell and the first holder are
added to the conflict set. -/
def scanUnit (b : Board) : List Nat → List (Option Nat × Nat) → List Nat → List Nat
  | [], _, conf => conf
  | i :: rest, seen, conf =>
    let v := b.get? i
    if v == some 0 then scanUnit b rest seen conf
    else
      match List.lookup v seen with
      | some j => scanUnit b rest seen (addConf (addConf conf i) j)
      | none => scanUnit b rest ((v, i) :: seen) conf

/-- `validateBoard` from `validator.ts`. -/
def validateBoard (b : Board) : ValidationResult :=
  let conflicts := unitsAll.foldl (fun conf unit => scanUnit b unit [] conf) []
  { valid := conflicts.isEmpty
    conflicts := conflicts
    complete := conflicts.isEmpty && b.all (fun v => v != 0) }

/-- `validateCell` from `validator.ts`. -/
def validateCell (b : Board) (cellIndex v : Nat) : List Nat :=
  if v == 0 then []
  else (peersOf cellIndex).filter (fun p => b.get? p == some v)

/-- `verifySolution` from `validator.ts`. -/
def verifySolution (playerBoard solution : Board) : Bool :=
  if playerBoard.length != 81 || solution.length != 81 then false
  else (List.range 81).all (fun i => playerBoard.get? i == solution.get? i)

/-- `validateGivens` from `validator.ts`. -/
def validateGivens (playerBoard originalPuzzle : Board) : List Nat :=
  (List.range 81).filter (fun i =>
    originalPuzzle.get? i != some 0 && playerBoard.get? i != originalPuzzle.get? i)

/-! ## Hint engine (`hints.ts`) -/

/-- `Hint` from `types.ts` (`value = none` models `value: null`). -/
structure Hint where
  cellIndex : Nat
  row : Nat
  col : Nat
  box : Nat
  value : Option Nat
  technique : SolvingTechnique
  explanation : String
  relatedCells : List Nat
deriving DecidableEq

/-- `peersWithValue` from `hints.ts`. -/
def peersWithValue (b : Board) (i v : Nat) : List Nat :=
  (ROWS.getD (rowOf i) []).filter (fun x => x != i && b.get? x == some v) ++
  (COLS.getD (colOf i) []).filter (fun x => x != i && b.get? x == some v) ++
  (BOXES.getD (boxOf i) []).filter (fun x => x != i && b.get? x == some v)

/-- `findNakedSingle` from `hints.ts`: first map entry whose candidate set is
a singleton. -/
def findNakedSingle (b : Board) : CMap → Bool → Option Hint
  | [], _ => none
  | (i, cs) :: rest, reveal =>
    if cs.length == 1 then
      let value := cs.headD 0
      some { cellIndex := i, row := rowOf i, col := colOf i, box := boxOf i,
             value := if reveal then some value else none,
             technique := .naked_single,
             explanation := "Cell R" ++ toString (rowOf i + 1) ++ "C" ++ toString (colOf i + 1) ++
               " has only one possible candidate: " ++ toString value ++
               ". All other digits are already present in its row, column, or box.",
             relatedCells := peersWithValue b i value }
    else findNakedSingle b rest reveal

/-- The named unit list of `findHiddenSingle` (`hints.ts`): rows, columns then
boxes, each with its display name and kind. -/
def namedUnits : List (List Nat × String × String) :=
  ((List.range 9).map (fun i => (ROWS.getD i [], "Row " ++ toString (i + 1), "row"))) ++
  ((List.range 9).map (fun i => (COLS.getD i [], "Column " ++ toString (i + 1), "col"))) ++
  ((List.range 9).map (fun i => (BOXES.getD i [], "Box " ++ toString (i + 1), "box")))

/-- Inner digit loop of `findHiddenSingle` for one named unit. -/
def hiddenSingleInUnit (cands : CMap) (reveal : Bool) (unit : List Nat × String × String) :
    List Nat → Option Hint
  | [] => none
  | v :: vs =>
    let cells := unit.1.filter (fun i => candHas cands i v)
    if cells.length == 1 then
      let i := cells.headD 0
      some { cellIndex := i, row := rowOf i, col := colOf i, box := boxOf i,
             value := if reveal then some v else none,
             technique := .hidden_single,
             explanation := "In " ++ unit.2.1 ++ ", the digit " ++ toString v ++
               " can only go in R" ++ toString (rowOf i + 1) ++ "C" ++ toString (colOf i + 1) ++
               ". Every other cell in the " ++ unit.2.2 ++ " already contains " ++ toString v ++
               " or cannot hold it.",
             relatedCells := unit.1.filter (fun x => x != i) }
    else hiddenSingleInUnit cands reveal unit vs

/-- `findHiddenSingle` from `hints.ts`. -/
def findHiddenSingle (cands : CMap) (reveal : Bool) : List (List Nat × String × String) → Option Hint
  | [] => none
  | unit :: rest =>
    match hiddenSingleInUnit cands reveal unit (List.range' 1 9) with
    | some h => some h
    | none => findHiddenSingle cands reveal rest

/-- Digit loop of `findPointingPair` for one box (`hints.ts`). -/
def pointingInBox (cands : CMap) (bIdx : Nat) : List Nat → Option Hint
  | [] => none
  | v :: vs =>
    let box := BOXES.getD bIdx []
    let cells := box.filter (fun i => candHas cands i v)
    if cells.length < 2 || 3 < cells.length then pointingInBox cands bIdx vs
    else
      let rows := (cells.map rowOf).eraseDups
      let cols := (cells.map colOf).eraseDups
      if rows.length == 1 then
        let rowCells := (ROWS.getD (rows.headD 0) []).filter (fun i => !(box.contains i))
        let affected := rowCells.filter (fun i => candHas cands i v)
        match affected with
        | [] => pointingInBox cands bIdx vs
        | i :: _ =>
          some { cellIndex := i, row := rowOf i, col := colOf i, box := boxOf i,
                 value := none,
                 technique := .pointing_pair,
                 explanation := "In Box " ++ toString (bIdx + 1) ++ ", the digit " ++ toString v ++
                   " can only appear in Row " ++ toString (rows.headD 0 + 1) ++
                   ". Therefore, " ++ toString v ++
                   " can be eliminated from all other cells in Row " ++
                   toString (rows.headD 0 + 1) ++ " outside the box.",
                 relatedCells := cells ++ affected }
      else if cols.length == 1 then
        let colCells := (COLS.getD (cols.headD 0) []).filter (fun i => !(box.contains i))
        let affected := colCells.filter (fun i => candHas cands i v)
        match affected with
        | [] => pointingInBox cands bIdx vs
        | i :: _ =>
          some { cellIndex := i, row := rowOf i, col := colOf i, box := boxOf i,
                 value := none,
                 technique := .pointing_pair,
                 explanation := "In Box " ++ toString (bIdx + 1) ++ ", the digit " ++ toString v ++
                   " can only appear in Column " ++ toString (cols.headD 0 + 1) ++
                   ". Therefore, " ++ toString v ++
                   " can be eliminated from all other cells in Column " ++
                   toString (cols.headD 0 + 1) ++ " outside the box.",
                 relatedCells := cells ++ affected }
      else pointingInBox cands bIdx vs

/-- `findPointingPair` from `hints.ts`: boxes in order, digits 1-9 in order. -/
def findPointingPair (cands : CMap) : List Nat → Option Hint
  | [] => none
  | bIdx :: rest =>
    match pointingInBox cands bIdx (List.range' 1 9) with
    | some h => some h
    | none => findPointingPair cands rest

/-- The double loop over index pairs `a < b` of `findNakedPair` within one
unit (`hints.ts`): `a` fixed, the partner running through the tail. -/
def nakedPairWith (cands : CMap) (unit : List Nat) (a : Nat) : List Nat → Option Hint
  | [] => none
  | c :: cs =>
    let ca := (List.lookup a cands).getD []
    let cb := (List.lookup c cands).getD []
    if ca.length != 2 || cb.length != 2 then nakedPairWith cands unit a cs
    else
      let union := (ca ++ cb).eraseDups
      if union.length != 2 then nakedPairWith cands unit a cs
      else
        let pair := [a, c]
        let affected := unit.filter (fun i =>
          !(pair.contains i) && union.any (fun v => candHas cands i v))
        match affected with
        | [] => nakedPairWith cands unit a cs
        | i :: _ =>
          some { cellIndex := i, row := rowOf i, col := colOf i, box := boxOf i,
                 value := none,
                 technique := .naked_pair,
                 explanation := "Cells R" ++ toString (rowOf a + 1) ++ "C" ++ toString (colOf a + 1) ++
                   " and R" ++ toString (rowOf c + 1) ++ "C" ++ toString (colOf c + 1) ++
                   " can only contain " ++ String.intercalate " and " (union.map toString) ++
                   ". These digits can be eliminated from all other cells in the same unit.",
                 relatedCells := pair ++ affected }

/-- The outer pair loop of `findNakedPair` within one unit. -/
def nakedPairPairs (cands : CMap) (unit : List Nat) : List Nat → Option Hint
  | [] => none
  | a :: rest =>
    match nakedPairWith cands unit a rest with
    | some h => some h
    | none => nakedPairPairs cands unit rest

/-- `findNakedPair` from `hints.ts`. -/
def findNakedPair (cands : CMap) : List (List Nat) → Option Hint
  | [] => none
  | unit :: rest =>
    let emptyCells := unit.filter (fun i => (List.lookup i cands).isSome)
    match nakedPairPairs cands unit emptyCells with
    | some h => some h
    | none => findNakedPair cands rest

/-- Digit-pair loop of `findHiddenPair` for one unit: `digitCells` lists each
digit confined to exactly two cells of the unit. -/
def hiddenPairWith (cands : CMap) (digitCells : List (Nat × List Nat)) (a : Nat) :
    List Nat → Option Hint
  | [] => none
  | c :: cs =>
    let ca := (List.lookup a digitCells).getD []
    let cb := (List.lookup c digitCells).getD []
    if ca != cb then hiddenPairWith cands digitCells a cs
    else
      let pair := ca
      let pairDigits := [a, c]
      let hasExtra := pair.any (fun i =>
        ((List.lookup i cands).getD []).any (fun v => !(pairDigits.contains v)))
      if !hasExtra then hiddenPairWith cands digitCells a cs
      else
        let p0 := pair.headD 0
        let p1 := (pair.drop 1).headD 0
        some { cellIndex := p0, row := rowOf p0, col := colOf p0, box := boxOf p0,
               value := none,
               technique := .hidden_pair,
               explanation := "Digits " ++ toString a ++ " and " ++ toString c ++
                 " can only appear in cells R" ++ toString (rowOf p0 + 1) ++ "C" ++
                 toString (colOf p0 + 1) ++ " and R" ++ toString (rowOf p1 + 1) ++ "C" ++
                 toString (colOf p1 + 1) ++
                 " within this unit. All other candidates can be eliminated from those two cells.",
               relatedCells := pair }

/-- Outer digit loop of `findHiddenPair` for one unit. -/
def hiddenPairDigits (cands : CMap) (digitCells : List (Nat × List Nat)) :
    List Nat → Option Hint
  | [] => none
  | a :: rest =>
    match hiddenPairWith cands digitCells a rest with
    | some h => some h
    | none => hiddenPairDigits cands digitCells rest

/-- `findHiddenPair` from `hints.ts`. -/
def findHiddenPair (cands : CMap) : List (List Nat) → Option Hint
  | [] => none
  | unit :: rest =>
    let digitCells := (List.range' 1 9).filterMap (fun v =>
      let cells := unit.filter (fun i => candHas cands i v)
      if cells.length == 2 then some (v, cells) else none)
    match hiddenPairDigits cands (digitCells) (digitCells.map (fun e => e.1)) with
    | some h => some h
    | none => findHiddenPair cands rest

/-- Row-pair loop of `findXWing` for one digit: qualifying rows carry the two
column indices where the digit is a candidate. -/
def xwingWith (cands : CMap) (v : Nat) (ra : Nat × List Nat) :
    List (Nat × List Nat) → Option Hint
  | [] => none
  | rb :: rest =>
    if ra.2 != rb.2 then xwingWith cands v ra rest
    else
      let xCols := ra.2
      let baseRows := [ra.1, rb.1]
      let affected := xCols.flatMap (fun c =>
        (COLS.getD c []).filter (fun i => !(baseRows.contains (rowOf i)) && candHas cands i v))
      match affected with
      | [] => xwingWith cands v ra rest
      | i :: _ =>
        some { cellIndex := i, row := rowOf i, col := colOf i, box := boxOf i,
               value := none,
               technique := .x_wing,
               explanation := "X-Wing pattern for digit " ++ toString v ++ ": rows " ++
                 toString (ra.1 + 1) ++ " and " ++ toString (rb.1 + 1) ++
                 " each have candidates only in columns " ++ toString (xCols.headD 0 + 1) ++
                 " and " ++ toString ((xCols.drop 1).headD 0 + 1) ++
                 ". Digit " ++ toString v ++
                 " can be eliminated from all other cells in those columns.",
               relatedCells := xCols.map (fun c => idx ra.1 c) ++ xCols.map (fun c => idx rb.1 c)
                 ++ affected }

/-- Outer row loop of `findXWing` for one digit. -/
def xwingRows (cands : CMap) (v : Nat) : List (Nat × List Nat) → Option Hint
  | [] => none
  | ra :: rest =>
    match xwingWith cands v ra rest with
    | some h => some h
    | none => xwingRows cands v rest

/-- `findXWing` from `hints.ts`: for each digit, rows with exactly two
candidate columns, then pairs of such rows sharing both columns. -/
def findXWing (cands : CMap) : List Nat → Option Hint
  | [] => none
  | v :: vs =>
    let qualRows := (List.range 9).filterMap (fun r =>
      let cols := ((ROWS.getD r []).filter (fun i => candHas cands i v)).map colOf
      if cols.length == 2 then some (r, cols) else none)
    match xwingRows cands v qualRows with
    | some h => some h
    | none => findXWing cands vs

/-- The minimum scan of `fallbackHint`: first cell (in map order) with
strictly fewest candidates, starting from `minSize = 10`. -/
def fbScan : CMap → Nat → Option Nat → Nat × Option Nat
  | [], minSize, target => (minSize, target)
  | (i, cs) :: rest, minSize, target =>
    if cs.length < minSize then fbScan rest cs.length (some i)
    else fbScan rest minSize target

/-- `fallbackHint` from `hints.ts`. -/
def fallbackHint (cands : CMap) : Option Hint :=
  let r := fbScan cands 10 none
  match r.2 with
  | none => none
  | some target =>
    some { cellIndex := target, row := rowOf target, col := colOf target, box := boxOf target,
           value := none,
           technique := .brute_force,
           explanation := "This puzzle may require trial and error. R" ++
             toString (rowOf target + 1) ++ "C" ++ toString (colOf target + 1) ++
             " has the fewest candidates (" ++ toString r.1 ++ ") - try starting there.",
           relatedCells := [] }

/-- `HintOptions` from `hints.ts` (`reveal` defaults to `true`). -/
structure HintOptions where
  reveal : Bool := true

/-- `getHint` from `hints.ts`: build a fresh candidate map; `none` when the
board has no empty cell; otherwise the first applicable technique in the
chain naked single, hidden single, pointing pair, naked pair, hidden pair,
x-wing, and finally the brute-force fallback. -/
def getHint (board : Board) (options : HintOptions) : Option Hint :=
  let reveal := options.reveal
  let cands := allCandidates board
  if cands.isEmpty then none
  else
    match findNakedSingle board cands reveal with
    | some h => some h
    | none =>
      match findHiddenSingle cands reveal namedUnits with
      | some h => some h
      | none =>
        match findPointingPair cands (List.range 9) with
        | some h => some h
        | none =>
          match findNakedPair cands unitsAll with
          | some h => some h
          | none =>
            match findHiddenPair cands unitsAll with
            | some h => some h
            | none =>
              match findXWing cands (List.range' 1 9) with
              | some h => some h
              | none => fallbackHint cands

/-! ## Reference predicates and concrete boards for the claims -/

/-- A well-formed board value: 81 cells, each in `[0, 9]` (the `Board` data
model of `types.ts`). -/
def BoardWF (b : Board) : Prop := b.length = 81 ∧ ∀ v ∈ b, v ≤ 9

instance : DecidablePred BoardWF := fun b =>
  decidable_of_iff (b.length = 81 ∧ ∀ v ∈ b, v ≤ 9) Iff.rfl

/-- No two filled cells sharing a unit hold the same digit (the partial-board
Sudoku constraint). -/
def PartialOk (b : Board) : Prop :=
  ∀ i < 81, b.getD i 0 ≠ 0 → ∀ p ∈ peersOf i, b.getD p 0 ≠ b.getD i 0

instance : DecidablePred PartialOk := fun _ => Nat.decidableBallLT _ _

/-- A completion of `b`: a full conflict-free grid that agrees with every
given of `b` (the specification's notion of a solution of the puzzle). -/
def IsCompletion (b c : Board) : Prop :=
  c.length = 81 ∧
  (∀ i < 81, b.getD i 0 ≠ 0 → c.getD i 0 = b.getD i 0) ∧
  (∀ i < 81, 1 ≤ c.getD i 0 ∧ c.getD i 0 ≤ 9) ∧
  (∀ i < 81, ∀ p ∈ peersOf i, c.getD p 0 ≠ c.getD i 0)

instance : ∀ b c, Decidable (IsCompletion b c) := fun _ _ =>
  instDecidableAnd

/-- Fully filled, as a Boolean over the 81 cells. -/
def filledB (b : Board) : Bool := (List.range 81).all (fun i => b.getD i 0 != 0)

/-- Conflict freedom of a fully filled board, as a Boolean. -/
def noConflictsB (b : Board) : Bool :=
  (List.range 81).all (fun i => (peersOf i).all (fun p => b.getD p 0 != b.getD i 0))

/-- Reference enumerator of the completions of a board (used only to state
what `countSolutions` computes, not part of the source): branch on the first
empty cell, keeping placements that are valid against the filled cells, and
keep a full board exactly when it is conflict-free. -/
def allSols : Nat → Board → List Board
  | 0, _ => []
  | fuel + 1, b =>
    match firstEmpty b with
    | none => if noConflictsB b then [b] else []
    | some i =>
      (List.range' 1 9).flatMap (fun v =>
        if isValidPlacement b i v then allSols fuel (b.set i v) else [])

/-- The number of completions of a board (82 units of fuel always suffice:
the recursion fills one cell per level and there are at most 81). -/
def completionsCount (b : Board) : Nat := (allSols 82 b).length

/-- The invariant claimed for every generated puzzle (C1): boards of length
81, givens matching the solution, a fully filled conflict-free solution, a
unique completion as counted by `countSolutions`, and a given count within 3
of a target drawn from the requested tier's range. -/
def PuzzleInv (requested : Difficulty) (p : Puzzle) : Prop :=
  p.board.length = 81 ∧ p.solution.length = 81 ∧
  (∀ i < 81, p.board.getD i 0 ≠ 0 → p.board.getD i 0 = p.solution.getD i 0) ∧
  (∀ i < 81, 1 ≤ p.solution.getD i 0 ∧ p.solution.getD i 0 ≤ 9) ∧
  (∀ i < 81, ∀ q ∈ peersOf i, p.solution.getD q 0 ≠ p.solution.getD i 0) ∧
  countSolutions p.board 2 = 1 ∧
  p.givenCount = countGivens p.board ∧
  (∃ t, (GIVEN_RANGES requested).1 ≤ t ∧ t ≤ (GIVEN_RANGES requested).2 ∧
    p.givenCount ≤ t + 3 ∧ t ≤ p.givenCount + 3)

/-- C1, stated over the generator's result: whatever the random source does,
a returned puzzle satisfies `PuzzleInv`; a reported failure makes no claim. -/
def GeneratedPuzzleOk (options : GeneratorOptions) (r : RState) : Prop :=
  match generatePuzzle options r with
  | (some p, _) => PuzzleInv options.difficulty p
  | (none, _) => True

/-- C10, first half: when `digHoles` returns a board and its input was fully
filled (as in the generator pipeline), the given count is at least the drawn
target. -/
def DigKeepsTarget (solution : Board) (difficulty : Difficulty) (r : RState) : Prop :=
  match digHoles solution difficulty r with
  | (some p, _) =>
    if filledB solution then
      (randInt (GIVEN_RANGES difficulty).1 (GIVEN_RANGES difficulty).2 r).1 ≤ countGivens p
    else True
  | (none, _) => True

/-- C10, second half: every puzzle `generatePuzzle` returns has at least the
requested tier's minimum number of givens. -/
def GeneratedMinGivens (options : GeneratorOptions) (r : RState) : Prop :=
  match generatePuzzle options r with
  | (some p, _) => (GIVEN_RANGES options.difficulty).1 ≤ p.givenCount
  | (none, _) => True

/-- The known 30-given puzzle of the repository's test suite (`tests.ts`). -/
def EASY_PUZZLE : Board := [
  5,3,0, 0,7,0, 0,0,0,
  6,0,0, 1,9,5, 0,0,0,
  0,9,8, 0,0,0, 0,6,0,
  8,0,0, 0,6,0, 0,0,3,
  4,0,0, 8,0,3, 0,0,1,
  7,0,0, 0,2,0, 0,0,6,
  0,6,0, 0,0,0, 2,8,0,
  0,0,0, 4,1,9, 0,0,5,
  0,0,0, 0,8,0, 0,7,9]

/-- Its stored solution (`tests.ts`). -/
def EASY_SOLUTION : Board := [
  5,3,4, 6,7,8, 9,1,2,
  6,7,2, 1,9,5, 3,4,8,
  1,9,8, 3,4,2, 5,6,7,
  8,5,9, 7,6,1, 4,2,3,
  4,2,6, 8,5,3, 7,9,1,
  7,1,3, 9,2,4, 8,5,6,
  9,6,1, 5,3,7, 2,8,4,
  2,8,7, 4,1,9, 6,3,5,
  3,4,5, 2,8,6, 1,7,9]

/-- `EASY_SOLUTION` with digits 1 and 2 exchanged: a second full conflict-free
grid, witnessing that the empty board has more than one completion. -/
def EASY_SOLUTION_SWAP : Board :=
  EASY_SOLUTION.map (fun v => if v == 1 then 2 else if v == 2 then 1 else v)

/-- An unsolvable board: cell 0 is empty while its peers hold all of 1-9. -/
def DEAD_BOARD : Board := [0,1,2,3,4,5,6,7,8,9] ++ List.replicate 71 0

/-- A randomness tape whose Fisher-Yates draws leave every 9-element shuffle
unchanged, so `fillBoard` tries candidate values in ascending order, exactly
as `solve` does. -/
def idSrc : RState := { src := fun p => 8 - (p % 8), pos := 0 }

/-- A full grid (counterexample data for C3). -/
def C3_GRID : Board := [
  3,1,5, 9,2,7, 6,8,4,
  6,2,8, 1,5,4, 3,7,9,
  9,7,4, 3,6,8, 1,2,5,
  5,3,7, 2,1,6, 4,9,8,
  2,8,1, 5,4,9, 7,3,6,
  4,6,9, 7,8,3, 5,1,2,
  7,5,2, 6,9,1, 8,4,3,
  8,9,3, 4,7,5, 2,6,1,
  1,4,6, 8,3,2, 9,5,7]

/-- `C3_GRID` with ten cells blanked; the resulting puzzle has several
completions, and the ascending-order first-empty search of `fillBoard` and
the ascending-order MRV search of `solve` find different ones. -/
def C3_BOARD : Board := [
  0,1,5, 0,2,7, 0,8,4,
  0,2,8, 1,5,4, 0,7,9,
  0,7,0, 0,6,8, 1,2,5,
  5,3,7, 2,1,6, 4,9,8,
  2,8,1, 5,4,9, 7,3,6,
  0,6,0, 7,8,3, 5,1,2,
  7,5,2, 6,9,1, 8,4,3,
  8,9,3, 4,7,5, 2,6,1,
  1,4,6, 8,3,2, 9,5,7]

/-- What `fillBoard` produces on `C3_BOARD` under the identity-shuffle tape. -/
def C3_FILL_RESULT : Board := [
  3,1,5, 9,2,7, 6,8,4,
  6,2,8, 1,5,4, 3,7,9,
  4,7,9, 3,6,8, 1,2,5,
  5,3,7, 2,1,6, 4,9,8,
  2,8,1, 5,4,9, 7,3,6,
  9,6,4, 7,8,3, 5,1,2,
  7,5,2, 6,9,1, 8,4,3,
  8,9,3, 4,7,5, 2,6,1,
  1,4,6, 8,3,2, 9,5,7]

/-- What `solve` produces on `C3_BOARD`. -/
def C3_SOLVE_RESULT : Board := [
  9,1,5, 3,2,7, 6,8,4,
  6,2,8, 1,5,4, 3,7,9,
  3,7,4, 9,6,8, 1,2,5,
  5,3,7, 2,1,6, 4,9,8,
  2,8,1, 5,4,9, 7,3,6,
  4,6,9, 7,8,3, 5,1,2,
  7,5,2, 6,9,1, 8,4,3,
  8,9,3, 4,7,5, 2,6,1,
  1,4,6, 8,3,2, 9,5,7]

/-- The test suite's conflict board: `EASY_PUZZLE` with a second 5 at index 8
(same row as the 5 at index 0). -/
def CONFLICT_BOARD : Board := EASY_PUZZLE.set 8 5

/-- A cell of `u` in conflict: it holds a nonzero digit also held by another
cell of `u`. -/
def UnitDup (b : Board) (u : List Nat) (x : Nat) : Prop :=
  x ∈ u ∧ b.get? x ≠ some 0 ∧ ∃ c ∈ u, c ≠ x ∧ b.get? c = b.get? x

/-- What C8 claims of `validateBoard`: `conflicts` contains exactly the cells
sharing a unit with another cell of the same nonzero digit, `valid` holds iff
there are no conflicts, and `complete` additionally requires all 81 cells
nonzero. -/
def ValidateSpec (b : Board) : Prop :=
  (∀ x, x ∈ (validateBoard b).conflicts ↔
    ∃ u ∈ unitsAll, x ∈ u ∧ b.getD x 0 ≠ 0 ∧
      ∃ j ∈ u, j ≠ x ∧ b.getD j 0 = b.getD x 0) ∧
  ((validateBoard b).valid = true ↔ (validateBoard b).conflicts = []) ∧
  ((validateBoard b).complete = true ↔
    (validateBoard b).conflicts = [] ∧ ∀ i < 81, b.getD i 0 ≠ 0)

/-- Board for the C7 witness: the known solved grid with its first cell
cleared. -/
def C7_BOARD : Board := EASY_SOLUTION.set 0 0

/-- The hint `getHint` returns on `C7_BOARD`: the naked single at cell 0. -/
def C7_HINT : Hint :=
  { cellIndex := 0, row := 0, col := 0, box := 0, value := some 5,
    technique := .naked_single,
    explanation := "Cell R1C1 has only one possible candidate: 5. All other digits are already present in its row, column, or box.",
    relatedCells := [] }

/-! ## Basic lemmas: board reads and writes, empty-cell count, the MRV scan -/

/-- A candidate value is always one of 1-9. -/
theorem cand_bounds {b : Board} {i v : Nat} (h : v ∈ candidates b i) :
    1 ≤ v ∧ v ≤ 9 := by
  unfold candidates at h
  split at h
  · exact absurd h (List.not_mem_nil v)
  · simp only [List.mem_filter] at h
    have := List.mem_range'_1.mp h.1
    omega

/-- Writing the value a cell already holds changes nothing. -/
theorem set_getD_self : ∀ (b : Board) (t : Nat), b.set t (b.getD t 0) = b := by
  intro b
  induction b with
  | nil => intro t; rfl
  | cons a l ih =>
    intro t
    cases t with
    | zero => rfl
    | succ n => simp only [List.set, List.getD, List.get?, List.cons.injEq, true_and]; exact ih n

/-- Writing 0 to a cell that reads `some 0` changes nothing. -/
theorem set_zero_self {b : Board} {t : Nat} (ht : b.get? t = some 0) : b.set t 0 = b := by
  have : b.getD t 0 = 0 := by rw [List.getD_eq_get?, ht]; rfl
  calc b.set t 0 = b.set t (b.getD t 0) := by rw [this]
  _ = b := set_getD_self b t

theorem zerosCount_eq_countP (b : Board) :
    zerosCount b = (List.range 81).countP (fun i => b.get? i == some 0) := by
  rw [zerosCount, List.countP_eq_length_filter]

theorem countP_lt_of {l : List Nat} {p q : Nat → Bool}
    (h : ∀ x ∈ l, q x = true → p x = true) {t : Nat} (ht : t ∈ l)
    (hpt : p t = true) (hqt : q t = false) : l.countP q < l.countP p := by
  induction l with
  | nil => cases ht
  | cons a l ih =>
    rw [List.countP_cons, List.countP_cons]
    have hmono : l.countP q ≤ l.countP p :=
      List.countP_mono_left (fun x hx => h x (List.mem_cons_of_mem a hx))
    rcases List.mem_cons.mp ht with rfl | hmem
    · rw [hpt, hqt]; simp; omega
    · have hstrict := ih (fun x hx => h x (List.mem_cons_of_mem a hx)) hmem
      have hle : (if q a = true then 1 else 0) ≤ (if p a = true then 1 else 0) := by
        by_cases hq : q a = true
        · rw [h a (List.mem_cons_self a l) hq, if_pos hq]; simp
        · rw [if_neg hq]; omega
      omega

/-- Setting a nonzero value into an empty in-range cell strictly decreases
the number of empty cells. -/
theorem zeros_set_lt {b : Board} {t v : Nat} (ht : b.get? t = some 0) (ht81 : t < 81)
    (hv : 1 ≤ v) : zerosCount (b.set t v) < zerosCount b := by
  rw [zerosCount_eq_countP, zerosCount_eq_countP]
  have htlen : t < b.length := by
    rcases List.get?_eq_some.mp ht with ⟨hlt, _⟩; exact hlt
  refine countP_lt_of (t := t) ?_ (List.mem_range.mpr ht81) ?_ ?_
  · intro x _ hq
    by_cases hxt : t = x
    · subst hxt
      exfalso
      have hx : (b.set t v).get? t = some v := by
        rw [List.get?_set, if_pos rfl, ht]; rfl
      rw [hx] at hq
      have : v = 0 := by simpa using hq
      omega
    · rw [List.get?_set, if_neg hxt] at hq; exact hq
  · show (b.get? t == some 0) = true
    rw [ht]; rfl
  · have hx : (b.set t v).get? t = some v := by
      rw [List.get?_set, if_pos rfl, ht]; rfl
    simp only [hx]
    simpa using fun h => by omega

/-- The MRV scan only designates empty in-range cells as branch targets. -/
theorem mrvGo_target {b : Board} :
    ∀ rem i minC best t, (∀ j, best = some j → b.get? j = some 0 ∧ j < 81) →
      i + rem ≤ 81 →
      mrvGo b rem i minC best = .target t → b.get? t = some 0 ∧ t < 81 := by
  intro rem
  induction rem with
  | zero =>
    intro i minC best t hbest _ h
    unfold mrvGo at h
    cases best with
    | none => cases h
    | some j =>
      have hj : j = t := by injection h
      subst hj
      exact hbest j rfl
  | succ n ih =>
    intro i minC best t hbest hle h
    unfold mrvGo at h
    by_cases hemp : (b.get? i != some 0) = true
    · rw [if_pos hemp] at h
      exact ih (i + 1) minC best t hbest (by omega) h
    · rw [if_neg hemp] at h
      have hi0 : b.get? i = some 0 := by
        simpa using hemp
      dsimp only at h
      split at h
      · cases h
      · split at h
        · split at h
          · cases h; exact ⟨hi0, by omega⟩
          · exact ih (i + 1) _ (some i) t
              (fun j hj => by cases hj; exact ⟨hi0, by omega⟩) (by omega) h
        · exact ih (i + 1) minC best t hbest (by omega) h

/-- The target of the top-level MRV scan is an empty in-range cell. -/
theorem mrvScan_target {b : Board} {t : Nat} (h : mrvScan b = .target t) :
    b.get? t = some 0 ∧ t < 81 :=
  mrvGo_target 81 0 10 none t (fun j hj => Option.noConfusion hj) (by omega) h

/-! ## C6: `solve` is total, and failure hands back the board unchanged -/

theorem backtrackGo_restore {f : Board → Bool × Board}
    (hf : ∀ b', (f b').1 = false → (f b').2 = b') :
    ∀ (vs : List Nat) (b : Board) t, b.get? t = some 0 →
      (backtrackGo f b t vs).1 = false → (backtrackGo f b t vs).2 = b := by
  intro vs
  induction vs with
  | nil => intro b t _ _; rfl
  | cons v rest ih =>
    intro b t ht h
    unfold backtrackGo at h ⊢
    by_cases hr : (f (b.set t v)).1 = true
    · rw [if_pos hr] at h; cases h
    · have hrf : (f (b.set t v)).1 = false := Bool.not_eq_true _ ▸ eq_false_of_ne_true hr
      rw [if_neg hr] at h ⊢
      have hrb : (f (b.set t v)).2 = b.set t v := hf _ hrf
      have hback : ((f (b.set t v)).2).set t 0 = b := by
        rw [hrb, List.set_set]; exact set_zero_self ht
      rw [hback] at h ⊢
      exact ih b t ht h

theorem backtrack_restore : ∀ (fuel : Nat) (b : Board),
    (backtrack fuel b).1 = false → (backtrack fuel b).2 = b := by
  intro fuel
  induction fuel with
  | zero => intro b _; rfl
  | succ n ih =>
    intro b h
    unfold backtrack at h ⊢
    cases hscan : mrvScan b with
    | deadEnd => rfl
    | allFilled => rw [hscan] at h
    | target t =>
      rw [hscan] at h
      exact backtrackGo_restore ih (candidates b t) b t (mrvScan_target hscan).1 h

/-- Claim C6: `solve` never raises an error for any input board - it is a
total function returning a success flag plus a final board - and whenever the
flag is false the returned board equals the input board, cell for cell. -/
theorem claim_C6 (b : Board) (h : (solve b).solved = false) : (solve b).board = b :=
  backtrack_restore 82 b h

set_option maxRecDepth 100000 in
/-- Witness for C6 at a concrete unsolvable board (cell 0 is empty and its
peers hold all of 1-9). -/
theorem claim_C6_witness :
    (solve DEAD_BOARD).solved = false ∧ (solve DEAD_BOARD).board = DEAD_BOARD :=
  ⟨by decide, claim_C6 DEAD_BOARD (by decide)⟩

/-! ## C2: no public entry point validates its board argument -/

set_option maxRecDepth 100000 in
/-- Claim C2 fails on the code (code bug relative to the specification's
error-handling design): no public entry point checks board length or value
range.  `solve` on the empty (length-0) board reports success with the
malformed board unchanged, `countSolutions` counts one solution for it, and
`validateBoard` silently accepts a board carrying the out-of-range value 42
instead of failing fast. -/
theorem claim_C2 :
    solve [] = { solved := true, board := [] } ∧
    countSolutions [] 2 = 1 ∧
    (validateBoard (emptyBoard.set 0 42)).valid = true := by
  refine ⟨by decide, by decide, by decide⟩

/-! ## C3: the generator search is not the solver's MRV search -/

set_option maxRecDepth 1000000 in
/-- Claim C3 is false on the code.  Under a randomness tape for which every
9-element Fisher-Yates shuffle performed during the run is the identity (so
`fillBoard`'s candidate trial order is ascending, exactly the Solver's), the
claim "`generateSolution` fills ... via the same MRV backtracking search,
differing from solve only in the shuffled trial order" would force
`fillBoard` and `solve` to reach the same grid; on `C3_BOARD` (a board with
several completions) they reach different grids, because `fillBoard` branches
on the first empty cell in index order instead of the fewest-candidates cell. -/
theorem claim_C3_counterexample :
    (∀ k < 10,
      (shuffle [1, 2, 3, 4, 5, 6, 7, 8, 9] { src := idSrc.src, pos := 8 * k }).1 =
        [1, 2, 3, 4, 5, 6, 7, 8, 9]) ∧
    (fillBoard 82 C3_BOARD idSrc).2.pos = 80 ∧
    (solve C3_BOARD).solved = true ∧
    (solve C3_BOARD).board = C3_SOLVE_RESULT ∧
    (fillBoard 82 C3_BOARD idSrc).1 = some C3_FILL_RESULT ∧
    C3_FILL_RESULT ≠ C3_SOLVE_RESULT :=
  ⟨by decide, by decide, by decide, by decide, by decide, by decide⟩

/-! ## Geometry facts (established once by evaluation of the peer table) -/

theorem peers_bound : ∀ i < 81, ∀ p ∈ peersOf i, p < 81 := by decide

theorem peers_irrefl : ∀ i < 81, i ∉ peersOf i := by decide

theorem peers_symm : ∀ i < 81, ∀ p ∈ peersOf i, i ∈ peersOf p := by decide

/-! ## Reads, writes and their interaction -/

theorem getD_of_get? {b : Board} {i v : Nat} (h : b.get? i = some v) : b.getD i 0 = v := by
  rw [List.getD_eq_get?, h]; rfl

theorem get?_of_lt {b : Board} {i : Nat} (h : i < b.length) :
    b.get? i = some (b.getD i 0) := by
  have h1 := List.get?_eq_get (l := b) h
  rw [h1, List.getD_eq_get?, h1]
  rfl

theorem getD_set_ne {b : Board} {i x : Nat} (v : Nat) (h : i ≠ x) :
    (b.set i v).getD x 0 = b.getD x 0 := by
  rw [List.getD_eq_get?, List.getD_eq_get?, List.get?_set_ne v b h]

theorem getD_set_self {b : Board} {i : Nat} (v : Nat) (h : i < b.length) :
    (b.set i v).getD i 0 = v := by
  rw [List.getD_eq_get?, List.get?_set, if_pos rfl, List.get?_eq_get h]; rfl

/-! ## The first-empty scan of `fillBoard` -/

theorem firstEmptyGo_some {b : Board} :
    ∀ rem i t, firstEmptyGo b rem i = some t → b.get? t = some 0 ∧ i ≤ t ∧ t < i + rem := by
  intro rem
  induction rem with
  | zero => intro i t h; cases h
  | succ n ih =>
    intro i t h
    unfold firstEmptyGo at h
    by_cases he : (b.get? i != some 0) = true
    · rw [if_pos he] at h
      rcases ih (i + 1) t h with ⟨h0, hle, hlt⟩
      exact ⟨h0, by omega, by omega⟩
    · rw [if_neg he] at h
      have hit : i = t := by injection h
      subst hit
      have h0 : b.get? i = some 0 := by simpa using he
      exact ⟨h0, Nat.le_refl i, by omega⟩

theorem firstEmpty_some {b : Board} {t : Nat} (h : firstEmpty b = some t) :
    b.get? t = some 0 ∧ t < 81 := by
  rcases firstEmptyGo_some 81 0 t h with ⟨h0, _, hlt⟩
  exact ⟨h0, by omega⟩

theorem firstEmptyGo_none {b : Board} :
    ∀ rem i, firstEmptyGo b rem i = none → ∀ j, i ≤ j → j < i + rem → b.get? j ≠ some 0 := by
  intro rem
  induction rem with
  | zero => intro i _ j _ hj; omega
  | succ n ih =>
    intro i h j hij hj
    unfold firstEmptyGo at h
    by_cases he : (b.get? i != some 0) = true
    · rw [if_pos he] at h
      by_cases hji : j = i
      · subst hji; simpa using he
      · exact ih (i + 1) h j (by omega) (by omega)
    · rw [if_neg he] at h; cases h

theorem firstEmpty_none {b : Board} (h : firstEmpty b = none) :
    ∀ j < 81, b.get? j ≠ some 0 := fun j hj =>
  firstEmptyGo_none 81 0 h j (Nat.zero_le j) (by omega)

/-! ## The Fisher-Yates shuffle only rearranges its input -/

theorem getD_mem {l : List Nat} {i : Nat} (h : i < l.length) : l.getD i 0 ∈ l := by
  rw [List.getD_eq_get?, List.get?_eq_get h]
  exact List.get_mem l i h

theorem swapL_length (l : List Nat) (i j : Nat) : (swapL l i j).length = l.length := by
  unfold swapL; rw [List.length_set, List.length_set]

theorem swapL_sub {l : List Nat} {i j : Nat} (hi : i < l.length) (hj : j < l.length) :
    ∀ x ∈ swapL l i j, x ∈ l := by
  intro x hx
  unfold swapL at hx
  rcases List.mem_or_eq_of_mem_set hx with hx1 | rfl
  · rcases List.mem_or_eq_of_mem_set hx1 with hx2 | rfl
    · exact hx2
    · exact getD_mem hj
  · exact getD_mem hi

theorem shuffleGo_sub : ∀ (n : Nat) (l : List Nat) (r : RState), n < l.length →
    (shuffleGo n l r).1.length = l.length ∧ ∀ x ∈ (shuffleGo n l r).1, x ∈ l := by
  intro n
  induction n with
  | zero => intro l r _; exact ⟨rfl, fun x hx => hx⟩
  | succ m ih =>
    intro l r hlt
    have hj : (draw r).1 % (m + 2) < l.length :=
      lt_of_lt_of_le (Nat.mod_lt _ (by omega)) (by omega)
    have hswlen : (swapL l (m + 1) ((draw r).1 % (m + 2))).length = l.length :=
      swapL_length l (m + 1) ((draw r).1 % (m + 2))
    have hrec := ih (swapL l (m + 1) ((draw r).1 % (m + 2))) (draw r).2 (by omega)
    refine ⟨by rw [show shuffleGo (m + 1) l r =
      shuffleGo m (swapL l (m + 1) ((draw r).1 % (m + 2))) (draw r).2 from rfl,
      hrec.1, hswlen], ?_⟩
    intro x hx
    exact swapL_sub hlt hj x (hrec.2 x hx)

theorem shuffle_sub {l : List Nat} (r : RState) (hl : 0 < l.length) :
    (shuffle l r).1.length = l.length ∧ ∀ x ∈ (shuffle l r).1, x ∈ l :=
  shuffleGo_sub (l.length - 1) l r (by omega)

/-! ## `fillBoard` postcondition: any returned grid is a completion -/

/-- Placing a valid value in an empty cell keeps the board conflict-free. -/
theorem partialOk_set {b : Board} {i v : Nat} (hb : b.length = 81) (hP : PartialOk b)
    (hi : b.get? i = some 0) (hv : 1 ≤ v) (hval : isValidPlacement b i v = true) :
    PartialOk (b.set i v) := by
  have hi81 : i < 81 := by
    rcases List.get?_eq_some.mp hi with ⟨hlt, _⟩; omega
  have hilen : i < b.length := by omega
  have hpeer : ∀ p ∈ peersOf i, b.get? p ≠ some v := by
    intro p hp
    have := List.all_eq_true.mp hval p hp
    simpa using this
  intro j hj hj0 p hp
  by_cases hji : j = i
  · subst hji
    have hpne : p ≠ j := fun h => peers_irrefl j hj (h ▸ hp)
    rw [getD_set_ne v (fun h => hpne h.symm)]
    rw [getD_set_self v hilen]
    intro heq
    have hp81 : p < 81 := peers_bound j hj p hp
    have : b.get? p = some v := by
      rw [get?_of_lt (show p < b.length by omega), heq]
    exact hpeer p hp this
  · rw [getD_set_ne v (fun h => hji h.symm)] at hj0 ⊢
    by_cases hpi : p = i
    · subst hpi
      rw [getD_set_self v hilen]
      intro heq
      have hjp : j ∈ peersOf p := peers_symm j hj p hp
      have : b.get? j = some v := by
        rw [get?_of_lt (show j < b.length by omega), ← heq]
      exact hpeer j hjp this
    · rw [getD_set_ne v (fun h => hpi h.symm)]
      exact hP j hj hj0 p hp

/-- Setting an empty cell preserves every given. -/
theorem extends_set {b : Board} {i v : Nat} (hi : b.get? i = some 0) :
    ∀ j < 81, b.getD j 0 ≠ 0 → (b.set i v).getD j 0 = b.getD j 0 := by
  intro j _ hj0
  by_cases hji : i = j
  · subst hji
    exact absurd (getD_of_get? hi) hj0
  · exact getD_set_ne v hji

theorem fillVals_post
    (f : Board → RState → Option Board × RState)
    (hf : ∀ b r b2 r2, b.length = 81 → (∀ v ∈ b, v ≤ 9) → PartialOk b →
      f b r = (some b2, r2) → IsCompletion b b2) :
    ∀ (vs : List Nat) (b : Board) (i : Nat) (r : RState) (b2 : Board) (r2 : RState),
      b.length = 81 → (∀ v ∈ b, v ≤ 9) → PartialOk b → b.get? i = some 0 →
      (∀ v ∈ vs, 1 ≤ v ∧ v ≤ 9) →
      fillVals f b i vs r = (some b2, r2) → IsCompletion b b2 := by
  intro vs
  induction vs with
  | nil => intro b i r b2 r2 _ _ _ _ _ h; cases h
  | cons v rest ih =>
    intro b i r b2 r2 hlen hvals hok hi hvs h
    unfold fillVals at h
    have hv9 := hvs v (List.mem_cons_self v rest)
    by_cases hvalid : isValidPlacement b i v = true
    · rw [if_pos hvalid] at h
      have hilen : i < b.length := by
        rcases List.get?_eq_some.mp hi with ⟨hlt, _⟩; exact hlt
      cases hrec : f (b.set i v) r with
      | mk ob rr =>
        cases ob with
        | some b3 =>
          rw [hrec] at h
          have hb2 : b3 = b2 := by
            have h1 := congrArg Prod.fst h
            exact Option.some.inj (by simpa using h1)
          subst hb2
          have hcomp : IsCompletion (b.set i v) b3 := by
            refine hf (b.set i v) r b3 rr ?_ ?_ ?_ hrec
            · rw [List.length_set]; exact hlen
            · intro x hx
              rcases List.mem_or_eq_of_mem_set hx with hx1 | rfl
              · exact hvals x hx1
              · exact hv9.2
            · exact partialOk_set hlen hok hi hv9.1 hvalid
          rcases hcomp with ⟨hc1, hc2, hc3, hc4⟩
          refine ⟨hc1, ?_, hc3, hc4⟩
          intro j hj hj0
          rw [← extends_set hi j hj hj0]
          exact hc2 j hj (by rw [extends_set hi j hj hj0]; exact hj0)
        | none =>
          rw [hrec] at h
          exact ih b i rr b2 r2 hlen hvals hok hi
            (fun x hx => hvs x (List.mem_cons_of_mem v hx)) h
    · rw [if_neg hvalid] at h
      exact ih b i r b2 r2 hlen hvals hok hi
        (fun x hx => hvs x (List.mem_cons_of_mem v hx)) h

theorem fillBoard_post : ∀ (fuel : Nat) (b : Board) (r : RState) (b2 : Board) (r2 : RState),
    b.length = 81 → (∀ v ∈ b, v ≤ 9) → PartialOk b →
    fillBoard fuel b r = (some b2, r2) → IsCompletion b b2 := by
  intro fuel
  induction fuel with
  | zero => intro b r b2 r2 _ _ _ h; cases h
  | succ n ih =>
    intro b r b2 r2 hlen hvals hok h
    unfold fillBoard at h
    cases hfe : firstEmpty b with
    | none =>
      rw [hfe] at h
      cases h
      have hfill : ∀ i < 81, 1 ≤ b.getD i 0 ∧ b.getD i 0 ≤ 9 := by
        intro i hi
        have hne := firstEmpty_none hfe i hi
        have hget := get?_of_lt (show i < b.length by omega)
        constructor
        · rcases Nat.eq_zero_or_pos (b.getD i 0) with h0 | h1
          · exact absurd (by rw [hget, h0]) hne
          · exact h1
        · exact hvals (b.getD i 0) (getD_mem (show i < b.length by omega))
      refine ⟨hlen, fun j _ _ => rfl, hfill, ?_⟩
      intro i hi p hp
      exact hok i hi (by have := (hfill i hi).1; omega) p hp
    | some i =>
      rw [hfe] at h
      have hi0 := (firstEmpty_some hfe).1
      have hsub := shuffle_sub (l := [1,2,3,4,5,6,7,8,9]) r (by decide)
      refine fillVals_post (fillBoard n) ih (shuffle [1,2,3,4,5,6,7,8,9] r).1 b i
        (shuffle [1,2,3,4,5,6,7,8,9] r).2 b2 r2 hlen hvals hok hi0 ?_ h
      intro v hv
      have hmem := hsub.2 v hv
      simp at hmem
      omega

/-- Claim C3 as amended: `generateSolution`'s search branches on the first
empty cell in index order - not on the fewest-candidates (MRV) cell - trying
the values 1-9 in randomly shuffled order filtered by `isValidPlacement`, and
still backtracks on dead ends; whenever it returns a grid, that grid is a
complete, conflict-free completion of its input. -/
theorem claim_C3 :
    (∀ (fuel : Nat) (b : Board) (r : RState),
      fillBoard (fuel + 1) b r =
        match firstEmpty b with
        | none => (some b, r)
        | some i =>
          let sh := shuffle [1, 2, 3, 4, 5, 6, 7, 8, 9] r
          fillVals (fillBoard fuel) b i sh.1 sh.2) ∧
    (∀ (fuel : Nat) (b : Board) (r : RState) (b2 : Board) (r2 : RState),
      b.length = 81 → (∀ v ∈ b, v ≤ 9) → PartialOk b →
      fillBoard fuel b r = (some b2, r2) → IsCompletion b b2) :=
  ⟨fun _ _ _ => rfl, fillBoard_post⟩

set_option maxRecDepth 1000000 in
/-- Witness for the amended C3 at the concrete board `C3_BOARD`. -/
theorem claim_C3_witness :
    C3_BOARD.length = 81 ∧ (∀ v ∈ C3_BOARD, v ≤ 9) ∧ PartialOk C3_BOARD ∧
    IsCompletion C3_BOARD C3_FILL_RESULT := by
  have hfst : (fillBoard 82 C3_BOARD idSrc).1 = some C3_FILL_RESULT := by decide
  have heq : fillBoard 82 C3_BOARD idSrc =
      (some C3_FILL_RESULT, (fillBoard 82 C3_BOARD idSrc).2) := by
    rw [← hfst]
  exact ⟨by decide, by decide, by decide,
    claim_C3.2 82 C3_BOARD idSrc C3_FILL_RESULT (fillBoard 82 C3_BOARD idSrc).2
      (by decide) (by decide) (by decide) heq⟩

/-! ## C8: characterisation of `validateBoard` -/

theorem units_nodup : ∀ u ∈ unitsAll, u.Nodup := by decide

theorem units_bound : ∀ u ∈ unitsAll, ∀ i ∈ u, i < 81 := by decide

theorem mem_addConf {l : List Nat} {y x : Nat} : x ∈ addConf l y ↔ x ∈ l ∨ x = y := by
  unfold addConf
  split
  · rename_i hcon
    have hy : y ∈ l := by simpa using hcon
    constructor
    · exact Or.inl
    · rintro (h | rfl)
      · exact h
      · exact hy
  · simp [List.mem_append]

theorem lookup_some_mem {seen : List (Option Nat × Nat)} {v : Option Nat} {j : Nat}
    (h : List.lookup v seen = some j) : (v, j) ∈ seen := by
  induction seen with
  | nil => cases h
  | cons a rest ih =>
    cases a with
    | mk k w =>
      rw [List.lookup_cons] at h
      by_cases hv : (v == k) = true
      · simp only [hv] at h
        have hvk : v = k := by simpa using hv
        have hw : w = j := by injection h
        subst hvk; subst hw
        exact List.mem_cons_self _ _
      · simp only [Bool.not_eq_true] at hv
        simp only [hv] at h
        exact List.mem_cons_of_mem _ (ih h)

theorem lookup_none_not_mem {seen : List (Option Nat × Nat)} {v : Option Nat}
    (h : List.lookup v seen = none) : ∀ j, (v, j) ∉ seen := by
  induction seen with
  | nil => simp
  | cons a rest ih =>
    cases a with
    | mk k w =>
      rw [List.lookup_cons] at h
      by_cases hv : (v == k) = true
      · simp only [hv] at h
        cases h
      · simp only [Bool.not_eq_true] at hv
        simp only [hv] at h
        intro j hj
        rcases List.mem_cons.mp hj with heq | hmem
        · have : v = k := congrArg Prod.fst heq
          subst this
          simp at hv
        · exact ih h j hmem

theorem mem_lookup_of_keysNodup {seen : List (Option Nat × Nat)}
    (hnd : (seen.map Prod.fst).Nodup) {v : Option Nat} {j : Nat}
    (hm : (v, j) ∈ seen) : List.lookup v seen = some j := by
  induction seen with
  | nil => cases hm
  | cons a rest ih =>
    cases a with
    | mk k w =>
      rw [List.map_cons] at hnd
      rcases List.mem_cons.mp hm with heq | hmem
      · have hv : v = k := congrArg Prod.fst heq
        have hw : j = w := congrArg Prod.snd heq
        subst hv; subst hw
        rw [List.lookup_cons]
        simp
      · have hkv : ¬(v == k) = true := by
          intro hvk
          have : v = k := by simpa using hvk
          subst this
          exact (List.nodup_cons.mp hnd).1 (List.mem_map.mpr ⟨(v, j), hmem, rfl⟩)
        rw [List.lookup_cons]
        simp only [Bool.not_eq_true] at hkv
        simp only [hkv]
        exact ih (List.nodup_cons.mp hnd).2 hmem

/-- The conflicts accumulated so far, plus the duplications still detectable
from the remaining cells and the value-to-first-cell map: invariant shape of
one unit scan. -/
def scanBad (b : Board) (cells : List Nat) (seen : List (Option Nat × Nat)) (x : Nat) : Prop :=
  (∃ c ∈ cells, b.get? c ≠ some 0 ∧ (b.get? c, x) ∈ seen) ∨
  (x ∈ cells ∧ b.get? x ≠ some 0 ∧
    ((∃ j, (b.get? x, j) ∈ seen) ∨ ∃ c ∈ cells, c ≠ x ∧ b.get? c = b.get? x))

theorem scanUnit_mem {b : Board} :
    ∀ (cells : List Nat) (seen : List (Option Nat × Nat)) (conf : List Nat) (x : Nat),
      cells.Nodup → (seen.map Prod.fst).Nodup →
      (x ∈ scanUnit b cells seen conf ↔ x ∈ conf ∨ scanBad b cells seen x) := by
  intro cells
  induction cells with
  | nil =>
    intro seen conf x _ _
    simp [scanUnit, scanBad]
  | cons c rest ih =>
    intro seen conf x hnd hsnd
    have hcrest : c ∉ rest := (List.nodup_cons.mp hnd).1
    have hrestnd : rest.Nodup := (List.nodup_cons.mp hnd).2
    unfold scanUnit
    by_cases hv0 : (b.get? c == some 0) = true
    · have hc0 : b.get? c = some 0 := by simpa using hv0
      rw [if_pos hv0]
      rw [ih seen conf x hrestnd hsnd]
      constructor
      · rintro (hc | hbad)
        · exact Or.inl hc
        · refine Or.inr ?_
          rcases hbad with ⟨d, hd, hd0, hds⟩ | ⟨hx, hx0, hrest⟩
          · exact Or.inl ⟨d, List.mem_cons_of_mem c hd, hd0, hds⟩
          · refine Or.inr ⟨List.mem_cons_of_mem c hx, hx0, ?_⟩
            rcases hrest with hseen | ⟨d, hd, hdx, hdv⟩
            · exact Or.inl hseen
            · exact Or.inr ⟨d, List.mem_cons_of_mem c hd, hdx, hdv⟩
      · rintro (hc | hbad)
        · exact Or.inl hc
        · refine Or.inr ?_
          rcases hbad with ⟨d, hd, hd0, hds⟩ | ⟨hx, hx0, hrest⟩
          · rcases List.mem_cons.mp hd with heq | hd'
            · exact absurd (heq ▸ hc0) hd0
            · exact Or.inl ⟨d, hd', hd0, hds⟩
          · rcases List.mem_cons.mp hx with heq | hx'
            · exact absurd (heq ▸ hc0) hx0
            · refine Or.inr ⟨hx', hx0, ?_⟩
              rcases hrest with hseen | ⟨d, hd, hdx, hdv⟩
              · exact Or.inl hseen
              · rcases List.mem_cons.mp hd with heq | hd'
                · exact absurd ((heq ▸ hdv : b.get? c = b.get? x).symm.trans hc0).symm
                    (fun h => hx0 h.symm)
                · exact Or.inr ⟨d, hd', hdx, hdv⟩
    · have hc0 : b.get? c ≠ some 0 := by simpa using hv0
      rw [if_neg hv0]
      cases hlk : List.lookup (b.get? c) seen with
      | some j =>
        rw [ih seen (addConf (addConf conf c) j) x hrestnd hsnd]
        have hjmem : (b.get? c, j) ∈ seen := lookup_some_mem hlk
        constructor
        · rintro (hc | hbad)
          · rcases mem_addConf.mp hc with hc' | hxj
            · rcases mem_addConf.mp hc' with hc'' | hxc
              · exact Or.inl hc''
              · subst hxc
                exact Or.inr (Or.inr ⟨List.mem_cons_self x rest, hc0,
                  Or.inl ⟨j, hjmem⟩⟩)
            · subst hxj
              exact Or.inr (Or.inl ⟨c, List.mem_cons_self c rest, hc0, hjmem⟩)
          · refine Or.inr ?_
            rcases hbad with ⟨d, hd, hd0, hds⟩ | ⟨hx, hx0, hrest⟩
            · exact Or.inl ⟨d, List.mem_cons_of_mem c hd, hd0, hds⟩
            · refine Or.inr ⟨List.mem_cons_of_mem c hx, hx0, ?_⟩
              rcases hrest with hseen | ⟨d, hd, hdx, hdv⟩
              · exact Or.inl hseen
              · exact Or.inr ⟨d, List.mem_cons_of_mem c hd, hdx, hdv⟩
        · rintro (hc | hbad)
          · exact Or.inl (mem_addConf.mpr (Or.inl (mem_addConf.mpr (Or.inl hc))))
          · rcases hbad with ⟨d, hd, hd0, hds⟩ | ⟨hx, hx0, hrest⟩
            · rcases List.mem_cons.mp hd with heq | hd'
              · have hds' : (b.get? c, x) ∈ seen := heq ▸ hds
                have := mem_lookup_of_keysNodup hsnd hds'
                rw [hlk] at this
                have hxj : x = j := by
                  injection this with h1
                  exact h1.symm
                exact Or.inl (mem_addConf.mpr (Or.inr hxj))
              · exact Or.inr (Or.inl ⟨d, hd', hd0, hds⟩)
            · rcases List.mem_cons.mp hx with heq | hx'
              · exact Or.inl (mem_addConf.mpr (Or.inl (mem_addConf.mpr (Or.inr heq))))
              · refine Or.inr (Or.inr ⟨hx', hx0, ?_⟩)
                rcases hrest with hseen | ⟨d, hd, hdx, hdv⟩
                · exact Or.inl hseen
                · rcases List.mem_cons.mp hd with heq | hd'
                  · refine Or.inl ⟨j, ?_⟩
                    have hcv : b.get? c = b.get? x := heq ▸ hdv
                    exact hcv ▸ hjmem
                  · exact Or.inr ⟨d, hd', hdx, hdv⟩
      | none =>
        have hsnd' : (((b.get? c, c) :: seen).map Prod.fst).Nodup := by
          rw [List.map_cons]
          refine List.nodup_cons.mpr ⟨?_, hsnd⟩
          intro hmem
          rcases List.mem_map.mp hmem with ⟨⟨v', j'⟩, hvj, hfst⟩
          have : v' = b.get? c := hfst
          subst this
          exact lookup_none_not_mem hlk j' hvj
        rw [ih ((b.get? c, c) :: seen) conf x hrestnd hsnd']
        constructor
        · rintro (hc | hbad)
          · exact Or.inl hc
          · refine Or.inr ?_
            rcases hbad with ⟨d, hd, hd0, hds⟩ | ⟨hx, hx0, hrest⟩
            · rcases List.mem_cons.mp hds with heq | hds'
              · have hdv : b.get? d = b.get? c := congrArg Prod.fst heq
                have hxc : x = c := congrArg Prod.snd heq
                subst hxc
                refine Or.inr ⟨List.mem_cons_self x rest, hdv ▸ hd0, ?_⟩
                refine Or.inr ⟨d, List.mem_cons_of_mem x hd,
                  fun h => hcrest (h ▸ hd), hdv⟩
              · exact Or.inl ⟨d, List.mem_cons_of_mem c hd, hd0, hds'⟩
            · refine Or.inr ⟨List.mem_cons_of_mem c hx, hx0, ?_⟩
              rcases hrest with ⟨j', hj'⟩ | ⟨d, hd, hdx, hdv⟩
              · rcases List.mem_cons.mp hj' with heq | hj''
                · have hxv : b.get? x = b.get? c := congrArg Prod.fst heq
                  refine Or.inr ⟨c, List.mem_cons_self c rest, ?_, hxv.symm⟩
                  intro h
                  exact hcrest (h ▸ hx)
                · exact Or.inl ⟨j', hj''⟩
              · exact Or.inr ⟨d, List.mem_cons_of_mem c hd, hdx, hdv⟩
        · rintro (hc | hbad)
          · exact Or.inl hc
          · refine Or.inr ?_
            rcases hbad with ⟨d, hd, hd0, hds⟩ | ⟨hx, hx0, hrest⟩
            · rcases List.mem_cons.mp hd with heq | hd'
              · exact absurd (heq ▸ hds) (lookup_none_not_mem hlk x)
              · exact Or.inl ⟨d, hd', hd0, List.mem_cons_of_mem _ hds⟩
            · rcases List.mem_cons.mp hx with heq | hx'
              · rcases hrest with ⟨j', hj'⟩ | ⟨d, hd, hdx, hdv⟩
                · exact absurd (heq ▸ hj') (lookup_none_not_mem hlk j')
                · rcases List.mem_cons.mp hd with heq2 | hd'
                  · exact absurd (heq2.trans heq.symm) hdx
                  · refine Or.inl ⟨d, hd', fun h0 => hx0 (hdv.symm.trans h0), ?_⟩
                    have h1 : b.get? d = b.get? c := by rw [hdv, heq]
                    rw [h1, heq]
                    exact List.mem_cons_self _ _
              · refine Or.inr ⟨hx', hx0, ?_⟩
                rcases hrest with ⟨j', hj'⟩ | ⟨d, hd, hdx, hdv⟩
                · exact Or.inl ⟨j', List.mem_cons_of_mem _ hj'⟩
                · rcases List.mem_cons.mp hd with heq | hd'
                  · refine Or.inl ⟨c, ?_⟩
                    have : b.get? d = b.get? c := by rw [heq]
                    rw [← hdv, this]
                    exact List.mem_cons_self _ _
                  · exact Or.inr ⟨d, hd', hdx, hdv⟩

theorem scanUnit_empty_mem {b : Board} {u : List Nat} {conf : List Nat} {x : Nat}
    (hnd : u.Nodup) :
    x ∈ scanUnit b u [] conf ↔ x ∈ conf ∨ UnitDup b u x := by
  rw [scanUnit_mem u [] conf x hnd (by simp)]
  unfold scanBad UnitDup
  simp

theorem foldl_scan_mem {b : Board} :
    ∀ (units : List (List Nat)) (conf : List Nat) (x : Nat),
      (∀ u ∈ units, u.Nodup) →
      (x ∈ units.foldl (fun cf u => scanUnit b u [] cf) conf ↔
        x ∈ conf ∨ ∃ u ∈ units, UnitDup b u x) := by
  intro units
  induction units with
  | nil => intro conf x _; simp
  | cons u rest ih =>
    intro conf x hnd
    rw [List.foldl_cons]
    rw [ih (scanUnit b u [] conf) x (fun w hw => hnd w (List.mem_cons_of_mem u hw))]
    rw [scanUnit_empty_mem (hnd u (List.mem_cons_self u rest))]
    constructor
    · rintro ((hc | hdup) | ⟨w, hw, hd⟩)
      · exact Or.inl hc
      · exact Or.inr ⟨u, List.mem_cons_self u rest, hdup⟩
      · exact Or.inr ⟨w, List.mem_cons_of_mem u hw, hd⟩
    · rintro (hc | ⟨w, hw, hd⟩)
      · exact Or.inl (Or.inl hc)
      · rcases List.mem_cons.mp hw with heq | hw'
        · exact Or.inl (Or.inr (heq ▸ hd))
        · exact Or.inr ⟨w, hw', hd⟩

theorem validateBoard_conflicts_mem {b : Board} {x : Nat} :
    x ∈ (validateBoard b).conflicts ↔ ∃ u ∈ unitsAll, UnitDup b u x := by
  have h := foldl_scan_mem (b := b) unitsAll [] x units_nodup
  simp only [List.not_mem_nil, false_or] at h
  exact h

theorem all_ne_zero_iff {b : Board} (hlen : b.length = 81) :
    (b.all (fun v => v != 0) = true) ↔ ∀ i < 81, b.getD i 0 ≠ 0 := by
  rw [List.all_eq_true]
  constructor
  · intro h i hi
    have hmem := getD_mem (l := b) (i := i) (by omega)
    have := h (b.getD i 0) hmem
    simpa using this
  · intro h v hv
    rcases List.mem_iff_get.mp hv with ⟨⟨i, hilt⟩, hget⟩
    have hgd : b.getD i 0 = v := by
      rw [List.getD_eq_get?, List.get?_eq_get hilt, hget]; rfl
    have := h i (by omega)
    rw [hgd] at this
    simpa using this

/-- Claim C8: `validateBoard` flags as conflicts exactly the cells sharing a
unit with another cell holding the same nonzero digit (every participant of a
duplicate), `valid` holds iff there are no conflicts, and `complete` holds
iff there are no conflicts and all 81 cells are nonzero. -/
theorem claim_C8 (b : Board) (hlen : b.length = 81) : ValidateSpec b := by
  have hconv : ∀ x, (∃ u ∈ unitsAll, UnitDup b u x) ↔
      ∃ u ∈ unitsAll, x ∈ u ∧ b.getD x 0 ≠ 0 ∧
        ∃ j ∈ u, j ≠ x ∧ b.getD j 0 = b.getD x 0 := by
    intro x
    constructor
    · rintro ⟨u, hu, hxu, hx0, c, hc, hcx, hcv⟩
      have hx81 : x < 81 := units_bound u hu x hxu
      have hc81 : c < 81 := units_bound u hu c hc
      have hgx := get?_of_lt (b := b) (i := x) (by omega)
      have hgc := get?_of_lt (b := b) (i := c) (by omega)
      refine ⟨u, hu, hxu, ?_, c, hc, hcx, ?_⟩
      · intro h0
        exact hx0 (by rw [hgx, h0])
      · rw [hgc, hgx] at hcv
        exact Option.some.inj hcv
    · rintro ⟨u, hu, hxu, hx0, c, hc, hcx, hcv⟩
      have hx81 : x < 81 := units_bound u hu x hxu
      have hc81 : c < 81 := units_bound u hu c hc
      have hgx := get?_of_lt (b := b) (i := x) (by omega)
      have hgc := get?_of_lt (b := b) (i := c) (by omega)
      refine ⟨u, hu, hxu, ?_, c, hc, hcx, ?_⟩
      · rw [hgx]
        intro heq
        exact hx0 (Option.some.inj heq)
      · rw [hgc, hgx, hcv]
  refine ⟨?_, ?_, ?_⟩
  · intro x
    rw [validateBoard_conflicts_mem]
    exact hconv x
  · exact ⟨fun h => List.isEmpty_iff.mp h, fun h => List.isEmpty_iff.mpr h⟩
  · show ((validateBoard b).conflicts.isEmpty && b.all (fun v => v != 0)) = true ↔ _
    rw [Bool.and_eq_true, all_ne_zero_iff hlen]
    constructor
    · rintro ⟨h1, h2⟩
      exact ⟨List.isEmpty_iff.mp h1, h2⟩
    · rintro ⟨h1, h2⟩
      exact ⟨List.isEmpty_iff.mpr h1, h2⟩

set_option maxRecDepth 1000000 in
/-- Witness for C8 at the test suite's conflict board (a 5 at indices 0 and
8 of row 0): the characterisation holds and the computed conflict set is
exactly the three cells participating in duplicates. -/
theorem claim_C8_witness :
    CONFLICT_BOARD.length = 81 ∧ ValidateSpec CONFLICT_BOARD ∧
    (validateBoard CONFLICT_BOARD).conflicts = [8, 0, 71] ∧
    (validateBoard CONFLICT_BOARD).valid = false :=
  ⟨by decide, claim_C8 CONFLICT_BOARD (by decide), by decide, by decide⟩

/-! ## C9: every successful technique application shrinks the candidate map -/

theorem chFold_meas_le {σ α : Type} (meas : σ → Nat) (f : α → σ → σ × Bool)
    (hf : ∀ a s, meas (f a s).1 ≤ meas s) :
    ∀ (l : List α) (s : σ), meas ((chFold f l s).1) ≤ meas s := by
  intro l
  induction l with
  | nil => intro s; exact Nat.le_refl _
  | cons a rest ih =>
    intro s
    exact le_trans (ih (f a s).1) (hf a s)

theorem chFold_meas_lt {σ α : Type} (meas : σ → Nat) (f : α → σ → σ × Bool)
    (hle : ∀ a s, meas (f a s).1 ≤ meas s)
    (hlt : ∀ a s, (f a s).2 = true → meas (f a s).1 < meas s) :
    ∀ (l : List α) (s : σ), (chFold f l s).2 = true → meas ((chFold f l s).1) < meas s := by
  intro l
  induction l with
  | nil => intro s h; cases h
  | cons a rest ih =>
    intro s h
    by_cases h1 : (f a s).2 = true
    · exact lt_of_le_of_lt (chFold_meas_le meas f hle rest (f a s).1) (hlt a s h1)
    · have h2 : (chFold f rest (f a s).1).2 = true := by
        have hor : ((f a s).2 || (chFold f rest (f a s).1).2) = true := h
        rcases Bool.or_eq_true_iff.mp hor with hx | hx
        · exact absurd hx h1
        · exact hx
      exact lt_of_lt_of_le (ih (f a s).1 h2) (hle a s)

theorem totalCands_map_erase_le (m : CMap) (i v : Nat) :
    totalCands (m.map (fun e => if e.1 == i then (e.1, e.2.erase v) else e)) ≤ totalCands m := by
  induction m with
  | nil => exact Nat.le_refl _
  | cons e rest ih =>
    show ((if e.1 == i then (e.1, e.2.erase v) else e).2.length +
      totalCands (rest.map _)) ≤ e.2.length + totalCands rest
    have herase : (e.2.erase v).length ≤ e.2.length :=
      List.Sublist.length_le (List.erase_sublist v e.2)
    by_cases hi : (e.1 == i) = true
    · rw [if_pos hi]; exact Nat.add_le_add herase ih
    · rw [if_neg hi]; exact Nat.add_le_add (Nat.le_refl _) ih

theorem totalCands_cremove_le (m : CMap) (i v : Nat) :
    totalCands (cremove m i v).1 ≤ totalCands m := by
  unfold cremove
  split
  · exact totalCands_map_erase_le m i v
  · exact Nat.le_refl _

theorem totalCands_cremove_lt {m : CMap} {i v : Nat} (h : (cremove m i v).2 = true) :
    totalCands (cremove m i v).1 < totalCands m := by
  have hhas : candHas m i v = true := by
    unfold cremove at h
    by_cases hc : candHas m i v = true
    · exact hc
    · rw [if_neg hc] at h; cases h
  unfold cremove
  rw [if_pos hhas]
  show totalCands (m.map _) < totalCands m
  clear h
  induction m with
  | nil => cases hhas
  | cons e rest ih =>
    unfold candHas at hhas
    rw [List.lookup_cons] at hhas
    by_cases hi : (e.1 == i) = true
    · have hi' : (i == e.1) = true := by
        have : e.1 = i := by simpa using hi
        simp [this]
      simp only [hi'] at hhas
      have hvmem : v ∈ e.2 := by simpa using hhas
      show ((if e.1 == i then (e.1, e.2.erase v) else e).2.length +
        totalCands (rest.map _)) < e.2.length + totalCands rest
      rw [if_pos hi]
      have h1 : (e.2.erase v).length < e.2.length := by
        rw [List.length_erase_of_mem hvmem]
        have : 0 < e.2.length := List.length_pos.mpr (List.ne_nil_of_mem hvmem)
        omega
      exact Nat.add_lt_add_of_lt_of_le h1 (totalCands_map_erase_le rest i v)
    · have hi' : ¬(i == e.1) = true := by
        intro hc
        exact hi (by have : i = e.1 := by simpa using hc
                     simp [this])
      simp only [Bool.not_eq_true] at hi'
      simp only [hi'] at hhas
      have ihh := ih (by unfold candHas; exact hhas)
      show ((if e.1 == i then (e.1, e.2.erase v) else e).2.length +
        totalCands (rest.map _)) < e.2.length + totalCands rest
      rw [if_neg hi]
      exact Nat.add_lt_add_left ihh _

theorem totalCands_cdeleteKey_le (m : CMap) (i : Nat) :
    totalCands (cdeleteKey m i) ≤ totalCands m := by
  induction m with
  | nil => exact Nat.le_refl _
  | cons e rest ih =>
    unfold cdeleteKey at ih ⊢
    by_cases hi : (e.1 != i) = true
    · rw [List.filter_cons, if_pos hi]
      show e.2.length + totalCands (rest.filter _) ≤ e.2.length + totalCands rest
      omega
    · rw [List.filter_cons, if_neg hi]
      show totalCands (rest.filter _) ≤ e.2.length + totalCands rest
      omega

theorem totalCands_cdeleteKey_lt {m : CMap} {i : Nat} {cs : List Nat}
    (h : List.lookup i m = some cs) (hcs : cs ≠ []) :
    totalCands (cdeleteKey m i) < totalCands m := by
  induction m with
  | nil => cases h
  | cons e rest ih =>
    rw [List.lookup_cons] at h
    unfold cdeleteKey at ih ⊢
    by_cases hi : (i == e.1) = true
    · simp only [hi] at h
      have hcseq : e.2 = cs := by injection h
      have hne : ¬(e.1 != i) = true := by
        have : i = e.1 := by simpa using hi
        simp [this]
      rw [List.filter_cons, if_neg hne]
      have h1 : totalCands (rest.filter _) ≤ totalCands rest := totalCands_cdeleteKey_le rest i
      have h2 : 0 < e.2.length := by
        rw [hcseq]
        exact List.length_pos.mpr hcs
      show totalCands (rest.filter _) < e.2.length + totalCands rest
      omega
    · simp only [Bool.not_eq_true] at hi
      simp only [hi] at h
      have hne : (e.1 != i) = true := by
        have : ¬(i = e.1) := by
          intro hc
          rw [hc] at hi
          simp at hi
        simp only [bne_iff_ne, ne_eq]
        intro hc
        exact this hc.symm
      rw [List.filter_cons, if_pos hne]
      have := ih h
      show e.2.length + totalCands (rest.filter _) < e.2.length + totalCands rest
      omega

theorem totalCands_fold_cremove_le (ps : List Nat) (v : Nat) :
    ∀ m : CMap, totalCands (ps.foldl (fun acc p => (cremove acc p v).1) m) ≤ totalCands m := by
  induction ps with
  | nil => intro m; exact Nat.le_refl _
  | cons p rest ih =>
    intro m
    rw [List.foldl_cons]
    exact le_trans (ih (cremove m p v).1) (totalCands_cremove_le m p v)

theorem totalCands_placeValue_le (b : Board) (m : CMap) (i v : Nat) :
    totalCands (placeValue b m i v).2 ≤ totalCands m := by
  unfold placeValue
  exact le_trans (totalCands_fold_cremove_le (peersOf i) v (cdeleteKey m i))
    (totalCands_cdeleteKey_le m i)

theorem totalCands_placeValue_lt {b : Board} {m : CMap} {i v : Nat} {cs : List Nat}
    (h : List.lookup i m = some cs) (hcs : cs ≠ []) :
    totalCands (placeValue b m i v).2 < totalCands m := by
  unfold placeValue
  exact lt_of_le_of_lt (totalCands_fold_cremove_le (peersOf i) v (cdeleteKey m i))
    (totalCands_cdeleteKey_lt h hcs)

theorem headD_mem_of_length_one {l : List Nat} (h : l.length = 1) : l.headD 0 ∈ l := by
  cases l with
  | nil => cases h
  | cons a rest => exact List.mem_cons_self a rest

theorem candHas_lookup {m : CMap} {i v : Nat} (h : candHas m i v = true) :
    ∃ cs, List.lookup i m = some cs ∧ v ∈ cs := by
  unfold candHas at h
  cases hlk : List.lookup i m with
  | none => rw [hlk] at h; cases h
  | some cs =>
    rw [hlk] at h
    exact ⟨cs, rfl, by simpa using h⟩

/-- Measure on the grader's placing-technique state. -/
def bmMeas (s : Board × CMap) : Nat := totalCands s.2

theorem nakedSingleStep_le (k : Nat) (s : Board × CMap) :
    bmMeas (nakedSingleStep k s).1 ≤ bmMeas s := by
  unfold nakedSingleStep
  cases hlk : List.lookup k s.2 with
  | none => exact Nat.le_refl _
  | some cs =>
    simp only
    by_cases hl : (cs.length == 1) = true
    · rw [if_pos hl]
      exact totalCands_placeValue_le s.1 s.2 k (cs.headD 0)
    · rw [if_neg hl]

theorem nakedSingleStep_lt (k : Nat) (s : Board × CMap)
    (h : (nakedSingleStep k s).2 = true) : bmMeas (nakedSingleStep k s).1 < bmMeas s := by
  unfold nakedSingleStep at h ⊢
  cases hlk : List.lookup k s.2 with
  | none => rw [hlk] at h; cases h
  | some cs =>
    rw [hlk] at h
    simp only at h ⊢
    by_cases hl : (cs.length == 1) = true
    · rw [if_pos hl]
      have hne : cs ≠ [] := by
        intro hnil
        rw [hnil] at hl
        cases hl
      exact totalCands_placeValue_lt hlk hne
    · rw [if_neg hl] at h; cases h

theorem applyNakedSingles_le (b : Board) (m : CMap) :
    totalCands (applyNakedSingles b m).1.2 ≤ totalCands m := by
  unfold applyNakedSingles
  exact chFold_meas_le bmMeas nakedSingleStep nakedSingleStep_le (m.map (fun e => e.1)) (b, m)

theorem applyNakedSingles_lt {b : Board} {m : CMap} (h : (applyNakedSingles b m).2 = true) :
    totalCands (applyNakedSingles b m).1.2 < totalCands m := by
  unfold applyNakedSingles at h ⊢
  exact chFold_meas_lt bmMeas nakedSingleStep nakedSingleStep_le nakedSingleStep_lt
    (m.map (fun e => e.1)) (b, m) h

theorem hiddenSingleDigit_le (unit : List Nat) (v : Nat) (s : Board × CMap) :
    bmMeas (hiddenSingleDigit unit v s).1 ≤ bmMeas s := by
  unfold hiddenSingleDigit
  dsimp only
  split
  · exact totalCands_placeValue_le s.1 s.2 _ v
  · exact Nat.le_refl _

theorem hiddenSingleDigit_lt (unit : List Nat) (v : Nat) (s : Board × CMap)
    (h : (hiddenSingleDigit unit v s).2 = true) :
    bmMeas (hiddenSingleDigit unit v s).1 < bmMeas s := by
  unfold hiddenSingleDigit at h ⊢
  by_cases hl : ((unit.filter (fun i => candHas s.2 i v)).length == 1) = true
  · rw [if_pos hl]
    have hmem := headD_mem_of_length_one (l := unit.filter (fun i => candHas s.2 i v))
      (by simpa using hl)
    have hhas : candHas s.2 ((unit.filter (fun i => candHas s.2 i v)).headD 0) v = true :=
      (List.mem_filter.mp hmem).2
    rcases candHas_lookup hhas with ⟨cs, hlk, hv2⟩
    exact totalCands_placeValue_lt hlk (List.ne_nil_of_mem hv2)
  · rw [if_neg hl] at h; cases h

theorem applyHiddenSingles_le (b : Board) (m : CMap) :
    totalCands (applyHiddenSingles b m).1.2 ≤ totalCands m := by
  unfold applyHiddenSingles
  exact chFold_meas_le bmMeas
    (fun unit s => chFold (hiddenSingleDigit unit) (List.range' 1 9) s)
    (fun unit s => chFold_meas_le bmMeas (hiddenSingleDigit unit)
      (hiddenSingleDigit_le unit) (List.range' 1 9) s)
    unitsAll (b, m)

theorem applyHiddenSingles_lt {b : Board} {m : CMap} (h : (applyHiddenSingles b m).2 = true) :
    totalCands (applyHiddenSingles b m).1.2 < totalCands m := by
  unfold applyHiddenSingles at h ⊢
  exact chFold_meas_lt bmMeas
    (fun unit s => chFold (hiddenSingleDigit unit) (List.range' 1 9) s)
    (fun unit s => chFold_meas_le bmMeas (hiddenSingleDigit unit)
      (hiddenSingleDigit_le unit) (List.range' 1 9) s)
    (fun unit s hh => chFold_meas_lt bmMeas (hiddenSingleDigit unit)
      (hiddenSingleDigit_le unit) (hiddenSingleDigit_lt unit) (List.range' 1 9) s hh)
    unitsAll (b, m) h

/-- Elimination step used by the line-based techniques. -/
theorem elimStep_le (cond : Nat → Bool) (v : Nat) (i : Nat) (m : CMap) :
    totalCands (if cond i then (m, false) else cremove m i v).1 ≤ totalCands m := by
  split
  · exact Nat.le_refl _
  · exact totalCands_cremove_le m i v

theorem elimStep_lt (cond : Nat → Bool) (v : Nat) (i : Nat) (m : CMap)
    (h : (if cond i then (m, false) else cremove m i v).2 = true) :
    totalCands (if cond i then (m, false) else cremove m i v).1 < totalCands m := by
  split at h
  · cases h
  · rename_i hc
    rw [if_neg hc]
    exact totalCands_cremove_lt h

theorem elimFold_le (cond : Nat → Bool) (v : Nat) (line : List Nat) (m : CMap) :
    totalCands
      (chFold (fun i mm => if cond i then (mm, false) else cremove mm i v) line m).1 ≤
    totalCands m :=
  chFold_meas_le totalCands _ (fun i mm => elimStep_le cond v i mm) line m

theorem elimFold_lt (cond : Nat → Bool) (v : Nat) (line : List Nat) (m : CMap)
    (h : (chFold (fun i mm => if cond i then (mm, false) else cremove mm i v) line m).2 = true) :
    totalCands
      (chFold (fun i mm => if cond i then (mm, false) else cremove mm i v) line m).1 <
    totalCands m :=
  chFold_meas_lt totalCands _ (fun i mm => elimStep_le cond v i mm)
    (fun i mm hh => elimStep_lt cond v i mm hh) line m h

theorem pointingDigit_le (box : List Nat) (v : Nat) (m : CMap) :
    totalCands (pointingDigit box v m).1 ≤ totalCands m := by
  unfold pointingDigit
  dsimp only
  split
  · exact Nat.le_refl _
  · split
    · exact elimFold_le (box.contains ·) v _ m
    · split
      · exact elimFold_le (box.contains ·) v _ m
      · exact Nat.le_refl _

theorem pointingDigit_lt (box : List Nat) (v : Nat) (m : CMap)
    (h : (pointingDigit box v m).2 = true) :
    totalCands (pointingDigit box v m).1 < totalCands m := by
  unfold pointingDigit at h ⊢
  dsimp only at h ⊢
  split at h
  · cases h
  · split at h
    · rename_i h1 h2
      rw [if_neg h1, if_pos h2]
      exact elimFold_lt (box.contains ·) v _ m h
    · split at h
      · rename_i h1 h2 h3
        rw [if_neg h1, if_neg h2, if_pos h3]
        exact elimFold_lt (box.contains ·) v _ m h
      · cases h

theorem applyPointingPairs_le (m : CMap) : totalCands (applyPointingPairs m).1 ≤ totalCands m := by
  unfold applyPointingPairs
  exact chFold_meas_le totalCands
    (fun box mm => chFold (pointingDigit box) (List.range' 1 9) mm)
    (fun box mm => chFold_meas_le totalCands (pointingDigit box) (pointingDigit_le box)
      (List.range' 1 9) mm)
    BOXES m

theorem applyPointingPairs_lt {m : CMap} (h : (applyPointingPairs m).2 = true) :
    totalCands (applyPointingPairs m).1 < totalCands m := by
  unfold applyPointingPairs at h ⊢
  exact chFold_meas_lt totalCands
    (fun box mm => chFold (pointingDigit box) (List.range' 1 9) mm)
    (fun box mm => chFold_meas_le totalCands (pointingDigit box) (pointingDigit_le box)
      (List.range' 1 9) mm)
    (fun box mm hh => chFold_meas_lt totalCands (pointingDigit box) (pointingDigit_le box)
      (pointingDigit_lt box) (List.range' 1 9) mm hh)
    BOXES m h

theorem boxLineDigit_le (line : List Nat) (v : Nat) (m : CMap) :
    totalCands (boxLineDigit line v m).1 ≤ totalCands m := by
  unfold boxLineDigit
  dsimp only
  split
  · exact Nat.le_refl _
  · split
    · exact Nat.le_refl _
    · exact elimFold_le (line.contains ·) v _ m

theorem boxLineDigit_lt (line : List Nat) (v : Nat) (m : CMap)
    (h : (boxLineDigit line v m).2 = true) :
    totalCands (boxLineDigit line v m).1 < totalCands m := by
  unfold boxLineDigit at h ⊢
  dsimp only at h ⊢
  split at h
  · cases h
  · split at h
    · cases h
    · rename_i h1 h2
      rw [if_neg h1, if_neg h2]
      exact elimFold_lt (line.contains ·) v _ m h

theorem applyBoxLineReduction_le (m : CMap) :
    totalCands (applyBoxLineReduction m).1 ≤ totalCands m := by
  unfold applyBoxLineReduction
  exact chFold_meas_le totalCands
    (fun line mm => chFold (boxLineDigit line) (List.range' 1 9) mm)
    (fun line mm => chFold_meas_le totalCands (boxLineDigit line) (boxLineDigit_le line)
      (List.range' 1 9) mm)
    (ROWS ++ COLS) m

theorem applyBoxLineReduction_lt {m : CMap} (h : (applyBoxLineReduction m).2 = true) :
    totalCands (applyBoxLineReduction m).1 < totalCands m := by
  unfold applyBoxLineReduction at h ⊢
  exact chFold_meas_lt totalCands
    (fun line mm => chFold (boxLineDigit line) (List.range' 1 9) mm)
    (fun line mm => chFold_meas_le totalCands (boxLineDigit line) (boxLineDigit_le line)
      (List.range' 1 9) mm)
    (fun line mm hh => chFold_meas_lt totalCands (boxLineDigit line) (boxLineDigit_le line)
      (boxLineDigit_lt line) (List.range' 1 9) mm hh)
    (ROWS ++ COLS) m h

theorem cremoveFold_le (i : Nat) (vs : List Nat) (m : CMap) :
    totalCands (chFold (fun v m3 => cremove m3 i v) vs m).1 ≤ totalCands m :=
  chFold_meas_le totalCands _ (fun v m3 => totalCands_cremove_le m3 i v) vs m

theorem cremoveFold_lt (i : Nat) (vs : List Nat) (m : CMap)
    (h : (chFold (fun v m3 => cremove m3 i v) vs m).2 = true) :
    totalCands (chFold (fun v m3 => cremove m3 i v) vs m).1 < totalCands m :=
  chFold_meas_lt totalCands _ (fun v m3 => totalCands_cremove_le m3 i v)
    (fun v m3 hh => totalCands_cremove_lt hh) vs m h

theorem nsCell_le (subset : List Nat) (union : List Nat) (i : Nat) (m2 : CMap) :
    totalCands
      (if subset.contains i then (m2, false)
       else
         match List.lookup i m2 with
         | none => (m2, false)
         | some _ => chFold (fun v m3 => cremove m3 i v) union m2).1 ≤ totalCands m2 := by
  split
  · exact Nat.le_refl _
  · cases List.lookup i m2 with
    | none => exact Nat.le_refl _
    | some cs => exact cremoveFold_le i union m2

theorem nsCell_lt (subset : List Nat) (union : List Nat) (i : Nat) (m2 : CMap)
    (h : (if subset.contains i then (m2, false)
          else
            match List.lookup i m2 with
            | none => (m2, false)
            | some _ => chFold (fun v m3 => cremove m3 i v) union m2).2 = true) :
    totalCands
      (if subset.contains i then (m2, false)
       else
         match List.lookup i m2 with
         | none => (m2, false)
         | some _ => chFold (fun v m3 => cremove m3 i v) union m2).1 < totalCands m2 := by
  split at h
  · cases h
  · rename_i hc
    rw [if_neg hc]
    cases hlk : List.lookup i m2 with
    | none => rw [hlk] at h; cases h
    | some cs => rw [hlk] at h; exact cremoveFold_lt i union m2 h

theorem nakedSubsetUnit_le (size : Nat) (unit : List Nat) (m : CMap) :
    totalCands (nakedSubsetUnit size unit m).1 ≤ totalCands m := by
  unfold nakedSubsetUnit
  dsimp only
  refine chFold_meas_le totalCands _ (fun subset mm => ?hs) _ m
  dsimp only
  split
  · exact Nat.le_refl _
  · exact chFold_meas_le totalCands _ (fun i m2 => nsCell_le subset _ i m2) unit mm

theorem nakedSubsetUnit_lt (size : Nat) (unit : List Nat) (m : CMap)
    (h : (nakedSubsetUnit size unit m).2 = true) :
    totalCands (nakedSubsetUnit size unit m).1 < totalCands m := by
  unfold nakedSubsetUnit at h ⊢
  dsimp only at h ⊢
  refine chFold_meas_lt totalCands _ (fun subset mm => ?hs) (fun subset mm hh => ?ht) _ m h
  case hs =>
    dsimp only
    split
    · exact Nat.le_refl _
    · exact chFold_meas_le totalCands _ (fun i m2 => nsCell_le subset _ i m2) unit mm
  case ht =>
    dsimp only at hh ⊢
    split at hh
    · cases hh
    · rename_i hu
      rw [if_neg hu]
      exact chFold_meas_lt totalCands _ (fun i m2 => nsCell_le subset _ i m2)
        (fun i m2 hi => nsCell_lt subset _ i m2 hi) unit mm hh

theorem applyNakedSubset_le (m : CMap) (size : Nat) :
    totalCands (applyNakedSubset m size).1 ≤ totalCands m := by
  unfold applyNakedSubset
  exact chFold_meas_le totalCands (nakedSubsetUnit size) (nakedSubsetUnit_le size) unitsAll m

theorem applyNakedSubset_lt {m : CMap} {size : Nat} (h : (applyNakedSubset m size).2 = true) :
    totalCands (applyNakedSubset m size).1 < totalCands m := by
  unfold applyNakedSubset at h ⊢
  exact chFold_meas_lt totalCands (nakedSubsetUnit size) (nakedSubsetUnit_le size)
    (fun unit mm hh => nakedSubsetUnit_lt size unit mm hh) unitsAll m h

theorem hsDigit_le (dSubset : List Nat) (i v : Nat) (m3 : CMap) :
    totalCands
      (if !(dSubset.contains v) && candHas m3 i v then cremove m3 i v else (m3, false)).1 ≤
    totalCands m3 := by
  split
  · exact totalCands_cremove_le m3 i v
  · exact Nat.le_refl _

theorem hsDigit_lt (dSubset : List Nat) (i v : Nat) (m3 : CMap)
    (h : (if !(dSubset.contains v) && candHas m3 i v then cremove m3 i v
          else (m3, false)).2 = true) :
    totalCands
      (if !(dSubset.contains v) && candHas m3 i v then cremove m3 i v else (m3, false)).1 <
    totalCands m3 := by
  split at h
  · rename_i hc
    rw [if_pos hc]
    exact totalCands_cremove_lt h
  · cases h

theorem hsCell_le (dSubset : List Nat) (i : Nat) (m2 : CMap) :
    totalCands
      (match List.lookup i m2 with
       | none => (m2, false)
       | some cell =>
         chFold (fun v m3 =>
           if !(dSubset.contains v) && candHas m3 i v then cremove m3 i v
           else (m3, false)) cell m2).1 ≤ totalCands m2 := by
  cases List.lookup i m2 with
  | none => exact Nat.le_refl _
  | some cell =>
    exact chFold_meas_le totalCands _ (fun v m3 => hsDigit_le dSubset i v m3) cell m2

theorem hsCell_lt (dSubset : List Nat) (i : Nat) (m2 : CMap)
    (h : (match List.lookup i m2 with
          | none => (m2, false)
          | some cell =>
            chFold (fun v m3 =>
              if !(dSubset.contains v) && candHas m3 i v then cremove m3 i v
              else (m3, false)) cell m2).2 = true) :
    totalCands
      (match List.lookup i m2 with
       | none => (m2, false)
       | some cell =>
         chFold (fun v m3 =>
           if !(dSubset.contains v) && candHas m3 i v then cremove m3 i v
           else (m3, false)) cell m2).1 < totalCands m2 := by
  cases hlk : List.lookup i m2 with
  | none => rw [hlk] at h; cases h
  | some cell =>
    rw [hlk] at h
    exact chFold_meas_lt totalCands _ (fun v m3 => hsDigit_le dSubset i v m3)
      (fun v m3 hh => hsDigit_lt dSubset i v m3 hh) cell m2 h

theorem hiddenSubsetUnit_le (size : Nat) (unit : List Nat) (m : CMap) :
    totalCands (hiddenSubsetUnit size unit m).1 ≤ totalCands m := by
  unfold hiddenSubsetUnit
  dsimp only
  refine chFold_meas_le totalCands _ (fun dSubset mm => ?hs) _ m
  dsimp only
  split
  · exact Nat.le_refl _
  · exact chFold_meas_le totalCands _ (fun i m2 => hsCell_le dSubset i m2) _ mm

theorem hiddenSubsetUnit_lt (size : Nat) (unit : List Nat) (m : CMap)
    (h : (hiddenSubsetUnit size unit m).2 = true) :
    totalCands (hiddenSubsetUnit size unit m).1 < totalCands m := by
  unfold hiddenSubsetUnit at h ⊢
  dsimp only at h ⊢
  refine chFold_meas_lt totalCands _ (fun dSubset mm => ?hs) (fun dSubset mm hh => ?ht) _ m h
  case hs =>
    dsimp only
    split
    · exact Nat.le_refl _
    · exact chFold_meas_le totalCands _ (fun i m2 => hsCell_le dSubset i m2) _ mm
  case ht =>
    dsimp only at hh ⊢
    split at hh
    · cases hh
    · rename_i hu
      rw [if_neg hu]
      exact chFold_meas_lt totalCands _ (fun i m2 => hsCell_le dSubset i m2)
        (fun i m2 hi => hsCell_lt dSubset i m2 hi) _ mm hh

theorem applyHiddenSubset_le (m : CMap) (size : Nat) :
    totalCands (applyHiddenSubset m size).1 ≤ totalCands m := by
  unfold applyHiddenSubset
  exact chFold_meas_le totalCands (hiddenSubsetUnit size) (hiddenSubsetUnit_le size) unitsAll m

theorem applyHiddenSubset_lt {m : CMap} {size : Nat} (h : (applyHiddenSubset m size).2 = true) :
    totalCands (applyHiddenSubset m size).1 < totalCands m := by
  unfold applyHiddenSubset at h ⊢
  exact chFold_meas_lt totalCands (hiddenSubsetUnit size) (hiddenSubsetUnit_le size)
    (fun unit mm hh => hiddenSubsetUnit_lt size unit mm hh) unitsAll m h

theorem fishPass_le (baseUnits coverUnits : List (List Nat)) (v size : Nat) (m : CMap) :
    totalCands (fishPass baseUnits coverUnits v size m).1 ≤ totalCands m := by
  unfold fishPass
  dsimp only
  refine chFold_meas_le totalCands _ (fun subset mm => ?hs) _ m
  dsimp only
  split
  · exact Nat.le_refl _
  · exact chFold_meas_le totalCands _
      (fun ci m2 => chFold_meas_le totalCands _
        (fun i m3 => elimStep_le ((subset.flatMap (fun q => q.2)).contains ·) v i m3)
        (coverUnits.getD ci []) m2) _ mm

theorem fishPass_lt (baseUnits coverUnits : List (List Nat)) (v size : Nat) (m : CMap)
    (h : (fishPass baseUnits coverUnits v size m).2 = true) :
    totalCands (fishPass baseUnits coverUnits v size m).1 < totalCands m := by
  unfold fishPass at h ⊢
  dsimp only at h ⊢
  refine chFold_meas_lt totalCands _ (fun subset mm => ?hs) (fun subset mm hh => ?ht) _ m h
  case hs =>
    dsimp only
    split
    · exact Nat.le_refl _
    · exact chFold_meas_le totalCands _
        (fun ci m2 => chFold_meas_le totalCands _
          (fun i m3 => elimStep_le ((subset.flatMap (fun q => q.2)).contains ·) v i m3)
          (coverUnits.getD ci []) m2) _ mm
  case ht =>
    dsimp only at hh ⊢
    split at hh
    · cases hh
    · rename_i hu
      rw [if_neg hu]
      exact chFold_meas_lt totalCands _
        (fun ci m2 => chFold_meas_le totalCands _
          (fun i m3 => elimStep_le ((subset.flatMap (fun q => q.2)).contains ·) v i m3)
          (coverUnits.getD ci []) m2)
        (fun ci m2 h2 => chFold_meas_lt totalCands _
          (fun i m3 => elimStep_le ((subset.flatMap (fun q => q.2)).contains ·) v i m3)
          (fun i m3 h3 => elimStep_lt ((subset.flatMap (fun q => q.2)).contains ·) v i m3 h3)
          (coverUnits.getD ci []) m2 h2) _ mm hh

theorem applyFish_le (m : CMap) (size : Nat) : totalCands (applyFish m size).1 ≤ totalCands m := by
  unfold applyFish
  refine chFold_meas_le totalCands _ (fun v mm => ?hs) _ m
  dsimp only
  exact le_trans (fishPass_le COLS ROWS v size (fishPass ROWS COLS v size mm).1)
    (fishPass_le ROWS COLS v size mm)

theorem applyFish_lt {m : CMap} {size : Nat} (h : (applyFish m size).2 = true) :
    totalCands (applyFish m size).1 < totalCands m := by
  unfold applyFish at h ⊢
  refine chFold_meas_lt totalCands _ (fun v mm => ?hs) (fun v mm hh => ?ht) _ m h
  case hs =>
    dsimp only
    exact le_trans (fishPass_le COLS ROWS v size (fishPass ROWS COLS v size mm).1)
      (fishPass_le ROWS COLS v size mm)
  case ht =>
    dsimp only at hh ⊢
    rcases Bool.or_eq_true_iff.mp hh with h1 | h2
    · exact lt_of_le_of_lt (fishPass_le COLS ROWS v size (fishPass ROWS COLS v size mm).1)
        (fishPass_lt ROWS COLS v size mm h1)
    · exact lt_of_lt_of_le (fishPass_lt COLS ROWS v size (fishPass ROWS COLS v size mm).1 h2)
        (fishPass_le ROWS COLS v size mm)

theorem applyTechnique_le (t : SolvingTechnique) (b : Board) (m : CMap) :
    totalCands (applyTechnique t b m).1.2 ≤ totalCands m := by
  cases t with
  | naked_single => simp only [applyTechnique]; exact applyNakedSingles_le b m
  | hidden_single => simp only [applyTechnique]; exact applyHiddenSingles_le b m
  | pointing_pair => simp only [applyTechnique]; exact applyPointingPairs_le m
  | box_line_reduction => simp only [applyTechnique]; exact applyBoxLineReduction_le m
  | naked_pair => simp only [applyTechnique]; exact applyNakedSubset_le m 2
  | hidden_pair => simp only [applyTechnique]; exact applyHiddenSubset_le m 2
  | naked_triple => simp only [applyTechnique]; exact applyNakedSubset_le m 3
  | hidden_triple => simp only [applyTechnique]; exact applyHiddenSubset_le m 3
  | x_wing => simp only [applyTechnique]; exact applyFish_le m 2
  | swordfish => simp only [applyTechnique]; exact applyFish_le m 3
  | brute_force => exact Nat.le_refl _

theorem applyTechnique_lt {t : SolvingTechnique} {b : Board} {m : CMap}
    (h : (applyTechnique t b m).2 = true) :
    totalCands (applyTechnique t b m).1.2 < totalCands m := by
  cases t with
  | naked_single => simp only [applyTechnique] at h ⊢; exact applyNakedSingles_lt h
  | hidden_single => simp only [applyTechnique] at h ⊢; exact applyHiddenSingles_lt h
  | pointing_pair => simp only [applyTechnique] at h ⊢; exact applyPointingPairs_lt h
  | box_line_reduction => simp only [applyTechnique] at h ⊢; exact applyBoxLineReduction_lt h
  | naked_pair => simp only [applyTechnique] at h ⊢; exact applyNakedSubset_lt h
  | hidden_pair => simp only [applyTechnique] at h ⊢; exact applyHiddenSubset_lt h
  | naked_triple => simp only [applyTechnique] at h ⊢; exact applyNakedSubset_lt h
  | hidden_triple => simp only [applyTechnique] at h ⊢; exact applyHiddenSubset_lt h
  | x_wing => simp only [applyTechnique] at h ⊢; exact applyFish_lt h
  | swordfish => simp only [applyTechnique] at h ⊢; exact applyFish_lt h
  | brute_force => simp [applyTechnique] at h

theorem tryTechniques_lt (steps : List (SolvingTechnique × Nat)) :
    ∀ (b : Board) (m : CMap) (name : SolvingTechnique) (pts : Nat) (b2 : Board) (m2 : CMap),
      tryTechniques steps b m = some (name, pts, b2, m2) → totalCands m2 < totalCands m := by
  induction steps with
  | nil => intro b m name pts b2 m2 h; cases h
  | cons step rest ih =>
    intro b m name pts b2 m2 h
    obtain ⟨nm, pt⟩ := step
    unfold tryTechniques at h
    dsimp only at h
    by_cases hf : (applyTechnique nm b m).2 = true
    · rw [if_pos hf] at h
      injection h with h1
      have hm : (applyTechnique nm b m).1.2 = m2 := congrArg (fun t => t.2.2.2) h1
      rw [← hm]
      exact applyTechnique_lt hf
    · rw [if_neg hf] at h
      exact lt_of_lt_of_le (ih _ _ _ _ _ _ h) (applyTechnique_le nm b m)

theorem simLoop_fuel : ∀ (fuel fuel' : Nat) (b : Board) (m : CMap) (score : Nat)
    (techs : List SolvingTechnique), totalCands m < fuel → totalCands m < fuel' →
    simLoop fuel b m score techs = simLoop fuel' b m score techs := by
  intro fuel
  induction fuel with
  | zero => intro fuel' b m score techs h1 h2; cases h1
  | succ n ih =>
    intro fuel' b m score techs h1 h2
    cases fuel' with
    | zero => cases h2
    | succ k =>
      show (if m.isEmpty then (m, score, techs)
            else match tryTechniques gradeSteps b m with
              | none => (m, score, techs)
              | some (name, pts, b2, m2) => simLoop n b2 m2 (score + pts) (techs ++ [name])) =
           (if m.isEmpty then (m, score, techs)
            else match tryTechniques gradeSteps b m with
              | none => (m, score, techs)
              | some (name, pts, b2, m2) => simLoop k b2 m2 (score + pts) (techs ++ [name]))
      by_cases he : m.isEmpty = true
      · rw [if_pos he, if_pos he]
      · rw [if_neg he, if_neg he]
        cases htry : tryTechniques gradeSteps b m with
        | none => rfl
        | some r =>
          obtain ⟨name, pts, b2, m2⟩ := r
          have hlt := tryTechniques_lt gradeSteps b m name pts b2 m2 htry
          exact ih k b2 m2 (score + pts) (techs ++ [name])
            (lt_of_lt_of_le hlt (Nat.lt_succ_iff.mp h1))
            (lt_of_lt_of_le hlt (Nat.lt_succ_iff.mp h2))

/-- C9: the grading simulation terminates.  (1) every technique application
that reports progress strictly decreases the total number of
(cell, candidate) entries in the shared candidate map; (2) hence one pass of
the technique list that reports progress strictly decreases that measure;
(3) hence the restart-from-top loop is insensitive to any sufficient fuel
bound — in particular the `totalCands m + 1` bound that `simulateSolve`
supplies never runs out, and the loop exits when the map is empty or a full
pass makes no progress. -/
theorem claim_C9 :
    (∀ (t : SolvingTechnique) (b : Board) (m : CMap), (applyTechnique t b m).2 = true →
       totalCands (applyTechnique t b m).1.2 < totalCands m) ∧
    (∀ (b : Board) (m : CMap) (name : SolvingTechnique) (pts : Nat) (b2 : Board) (m2 : CMap),
       tryTechniques gradeSteps b m = some (name, pts, b2, m2) →
       totalCands m2 < totalCands m) ∧
    (∀ (fuel : Nat) (b : Board) (m : CMap) (score : Nat) (techs : List SolvingTechnique),
       totalCands m < fuel →
       simLoop fuel b m score techs = simLoop (totalCands m + 1) b m score techs) :=
  ⟨fun _ _ _ h => applyTechnique_lt h,
   fun b m name pts b2 m2 h => tryTechniques_lt gradeSteps b m name pts b2 m2 h,
   fun fuel b m score techs h =>
     simLoop_fuel fuel (totalCands m + 1) b m score techs h (Nat.lt_succ_self _)⟩

theorem claim_C9_witness :
    (applyTechnique .naked_single (List.replicate 81 0) [(0, [5])]).2 = true ∧
    totalCands (applyTechnique .naked_single (List.replicate 81 0) [(0, [5])]).1.2 <
      totalCands [(0, [5])] :=
  ⟨by decide, claim_C9.1 .naked_single (List.replicate 81 0) [(0, [5])] (by decide)⟩

/-- C4 counterexample: the grader's `steps` table does not try the techniques
in the order the claim lists — the code interleaves `hidden_pair` between
`naked_pair` and `naked_triple`, whereas the claim puts `naked_triple`
second. -/
theorem claim_C4_counterexample :
    gradeSteps.map (fun e => e.1) ≠
      [SolvingTechnique.naked_single, .hidden_single, .pointing_pair, .box_line_reduction,
       .naked_pair, .naked_triple, .hidden_pair, .hidden_triple, .x_wing, .swordfish] := by
  decide

/-- C4 (amended): the grader tries the ten techniques in the fixed order
naked_single, hidden_single, pointing_pair, box_line_reduction, naked_pair,
hidden_pair, naked_triple, hidden_triple, x_wing, swordfish; each loop
iteration applies them in that order stopping at the first that makes
progress, restarts from the top after progress, and stops when the candidate
map is empty or a full pass makes no progress. -/
theorem claim_C4 :
    gradeSteps.map (fun e => e.1) =
      [SolvingTechnique.naked_single, .hidden_single, .pointing_pair, .box_line_reduction,
       .naked_pair, .hidden_pair, .naked_triple, .hidden_triple, .x_wing, .swordfish] ∧
    (∀ (fuel : Nat) (b : Board) (m : CMap) (score : Nat) (techs : List SolvingTechnique),
      totalCands m < fuel + 1 →
      simLoop (fuel + 1) b m score techs =
        if m.isEmpty then (m, score, techs)
        else
          match tryTechniques gradeSteps b m with
          | none => (m, score, techs)
          | some (name, pts, b2, m2) =>
            simLoop (totalCands m2 + 1) b2 m2 (score + pts) (techs ++ [name])) := by
  refine ⟨rfl, fun fuel b m score techs h => ?hl⟩
  show (if m.isEmpty then (m, score, techs)
        else match tryTechniques gradeSteps b m with
          | none => (m, score, techs)
          | some (name, pts, b2, m2) => simLoop fuel b2 m2 (score + pts) (techs ++ [name])) = _
  by_cases he : m.isEmpty = true
  · rw [if_pos he, if_pos he]
  · rw [if_neg he, if_neg he]
    cases htry : tryTechniques gradeSteps b m with
    | none => rfl
    | some r =>
      obtain ⟨name, pts, b2, m2⟩ := r
      have hlt := tryTechniques_lt gradeSteps b m name pts b2 m2 htry
      exact simLoop_fuel fuel (totalCands m2 + 1) b2 m2 (score + pts) (techs ++ [name])
        (lt_of_lt_of_le hlt (Nat.lt_succ_iff.mp h)) (Nat.lt_succ_self _)

theorem claim_C4_witness :
    simLoop 1 (List.replicate 81 0) [] 0 [] =
      if ([] : CMap).isEmpty then (([] : CMap), 0, ([] : List SolvingTechnique))
      else
        match tryTechniques gradeSteps (List.replicate 81 0) [] with
        | none => ([], 0, [])
        | some (name, pts, b2, m2) =>
          simLoop (totalCands m2 + 1) b2 m2 (0 + pts) ([] ++ [name]) :=
  claim_C4.2 0 (List.replicate 81 0) [] 0 [] (by decide)

theorem getD_of_le {b : Board} {i : Nat} (h : b.length ≤ i) : b.getD i 0 = 0 := by
  rw [List.getD_eq_get?, List.get?_eq_none.mpr h]
  rfl

theorem randInt_bounds (mn mx : Nat) (r : RState) (h : mn ≤ mx) :
    mn ≤ (randInt mn mx r).1 ∧ (randInt mn mx r).1 ≤ mx := by
  unfold randInt
  dsimp only
  have hlt : (draw r).1 % (mx - mn + 1) < mx - mn + 1 :=
    Nat.mod_lt _ (by omega)
  omega

theorem mrvGo_allFilled {b : Board} :
    ∀ (rem i minCand : Nat), (∀ j, i ≤ j → j < i + rem → b.get? j ≠ some 0) →
    mrvGo b rem i minCand none = .allFilled := by
  intro rem
  induction rem with
  | zero => intro i minCand _; rfl
  | succ n ih =>
    intro i minCand h
    unfold mrvGo
    rw [if_pos (by simpa using h i (Nat.le_refl i) (by omega))]
    exact ih (i + 1) minCand (fun j h1 h2 => h j (by omega) (by omega))

theorem mrvScan_allFilled {b : Board} (h : ∀ j < 81, b.get? j ≠ some 0) :
    mrvScan b = .allFilled :=
  mrvGo_allFilled 81 0 10 (fun j _ h2 => h j (by omega))

theorem countSolutions_allFilled {b : Board} (h : mrvScan b = .allFilled) :
    countSolutions b 2 = 1 := by
  show countBacktrack 82 b 2 0 = 1
  unfold countBacktrack
  rw [if_neg (by omega), h]

theorem hasUnique_allFilled {b : Board} (h : mrvScan b = .allFilled) :
    hasUniqueSolution b = true := by
  unfold hasUniqueSolution
  rw [countSolutions_allFilled h]
  rfl

theorem filled_get?_ne {b : Board} (hlen : b.length = 81)
    (hf : ∀ i < 81, 1 ≤ b.getD i 0) : ∀ j < 81, b.get? j ≠ some 0 := by
  intro j hj
  rw [get?_of_lt (show j < b.length by omega)]
  intro heq
  have := hf j hj
  have h0 := Option.some.inj heq
  omega

theorem countGivens_set_zero (b : Board) (i : Nat) :
    countGivens b ≤ countGivens (b.set i 0) + 1 := by
  induction b generalizing i with
  | nil => simp [countGivens]
  | cons x xs ih =>
    cases i with
    | zero =>
      unfold countGivens
      rw [List.set_cons_zero, List.filter_cons, List.filter_cons]
      by_cases hx : (x != 0) = true
      · rw [if_pos hx]
        simp
      · rw [if_neg hx]
        simp
    | succ j =>
      unfold countGivens at ih ⊢
      rw [List.set_cons_succ, List.filter_cons, List.filter_cons]
      by_cases hx : (x != 0) = true
      · rw [if_pos hx, if_pos hx]
        have := ih j
        simpa using this
      · rw [if_neg hx, if_neg hx]
        exact ih j

theorem countGivens_prefix : ∀ (b : Board) (n : Nat), n ≤ b.length →
    (∀ i < n, b.getD i 0 ≠ 0) → n ≤ countGivens b := by
  intro b
  induction b with
  | nil =>
    intro n hn _
    simpa [countGivens] using hn
  | cons x xs ih =>
    intro n hn hnz
    cases n with
    | zero => exact Nat.zero_le _
    | succ m =>
      have hx : x ≠ 0 := by
        have := hnz 0 (Nat.succ_pos m)
        simpa using this
      have hm : m ≤ countGivens xs := by
        refine ih m (by simpa using hn) (fun i hi => ?hz)
        have := hnz (i + 1) (by omega)
        simpa using this
      show m + 1 ≤ countGivens (x :: xs)
      unfold countGivens at hm ⊢
      rw [List.filter_cons, if_pos (by simpa using hx)]
      simp only [List.length_cons]
      omega

theorem filledB_getD {b : Board} (h : filledB b = true) : ∀ i < 81, b.getD i 0 ≠ 0 := by
  intro i hi
  have := List.all_eq_true.mp h i (List.mem_range.mpr hi)
  simpa using this

theorem filledB_length {b : Board} (h : filledB b = true) : 81 ≤ b.length := by
  by_contra hlt
  exact filledB_getD h b.length (by omega) (getD_of_le (Nat.le_refl _))

theorem filledB_countGivens {b : Board} (h : filledB b = true) : 81 ≤ countGivens b :=
  countGivens_prefix b 81 (filledB_length h) (filledB_getD h)

theorem digGo_stop {target : Nat} {p : Board} (h : countGivens p ≤ target) :
    ∀ order, digGo target p order = p := by
  intro order
  cases order with
  | nil => rfl
  | cons i rest =>
    unfold digGo
    rw [if_pos h]

theorem set_set_getD (p : Board) (i : Nat) : (p.set i 0).set i (p.getD i 0) = p := by
  rw [List.set_set]
  exact set_getD_self p i

theorem digGo_length (target : Nat) :
    ∀ (order : List Nat) (p : Board), (digGo target p order).length = p.length := by
  intro order
  induction order with
  | nil => intro p; rfl
  | cons i rest ih =>
    intro p
    unfold digGo
    by_cases hc : countGivens p ≤ target
    · rw [if_pos hc]
    · rw [if_neg hc]
      dsimp only
      by_cases hu : hasUniqueSolution (p.set i 0) = true
      · rw [if_pos hu, ih (p.set i 0), List.length_set]
      · rw [if_neg hu, set_set_getD, ih p]

theorem digGo_agree (target : Nat) :
    ∀ (order : List Nat) (p : Board) (j : Nat),
      (digGo target p order).getD j 0 = p.getD j 0 ∨ (digGo target p order).getD j 0 = 0 := by
  intro order
  induction order with
  | nil => intro p j; exact Or.inl rfl
  | cons i rest ih =>
    intro p j
    unfold digGo
    by_cases hc : countGivens p ≤ target
    · rw [if_pos hc]
      exact Or.inl rfl
    · rw [if_neg hc]
      dsimp only
      by_cases hu : hasUniqueSolution (p.set i 0) = true
      · rw [if_pos hu]
        rcases ih (p.set i 0) j with h1 | h1
        · by_cases hji : i = j
          · subst hji
            rcases Nat.lt_or_ge i p.length with hl | hl
            · rw [getD_set_self 0 hl] at h1
              exact Or.inr h1
            · rw [getD_of_le (show (p.set i 0).length ≤ i by
                rw [List.length_set]; exact hl)] at h1
              exact Or.inr h1
          · rw [getD_set_ne 0 hji] at h1
            exact Or.inl h1
        · exact Or.inr h1
      · rw [if_neg hu, set_set_getD]
        exact ih p j

theorem digGo_count (target : Nat) :
    ∀ (order : List Nat) (p : Board),
      min (countGivens p) target ≤ countGivens (digGo target p order) := by
  intro order
  induction order with
  | nil => intro p; exact Nat.min_le_left _ _
  | cons i rest ih =>
    intro p
    unfold digGo
    by_cases hc : countGivens p ≤ target
    · rw [if_pos hc]
      exact Nat.min_le_left _ _
    · rw [if_neg hc]
      dsimp only
      by_cases hu : hasUniqueSolution (p.set i 0) = true
      · rw [if_pos hu]
        have h1 := ih (p.set i 0)
        have h2 := countGivens_set_zero p i
        omega
      · rw [if_neg hu, set_set_getD]
        exact ih p

theorem digGo_unique (target : Nat) :
    ∀ (order : List Nat) (p : Board), hasUniqueSolution p = true →
      hasUniqueSolution (digGo target p order) = true := by
  intro order
  induction order with
  | nil => intro p hp; exact hp
  | cons i rest ih =>
    intro p hp
    unfold digGo
    by_cases hc : countGivens p ≤ target
    · rw [if_pos hc]
      exact hp
    · rw [if_neg hc]
      dsimp only
      by_cases hu : hasUniqueSolution (p.set i 0) = true
      · rw [if_pos hu]
        exact ih (p.set i 0) hu
      · rw [if_neg hu, set_set_getD]
        exact ih p hp

theorem digHoles_post {solution : Board} {d : Difficulty} {r : RState} {p : Board} {r2 : RState}
    (h : digHoles solution d r = (some p, r2)) :
    p = digGo (randInt (GIVEN_RANGES d).1 (GIVEN_RANGES d).2 r).1 solution
        (shuffle (List.range 81) (randInt (GIVEN_RANGES d).1 (GIVEN_RANGES d).2 r).2).1 ∧
    countGivens p ≤ (randInt (GIVEN_RANGES d).1 (GIVEN_RANGES d).2 r).1 + 3 ∧
    (randInt (GIVEN_RANGES d).1 (GIVEN_RANGES d).2 r).1 ≤ countGivens p + 3 := by
  unfold digHoles at h
  dsimp only at h
  split at h
  · exact absurd (congrArg Prod.fst h) (by simp)
  · rename_i hcheck
    rw [Prod.mk.injEq] at h
    obtain ⟨hps, -⟩ := h
    have hp2 := Option.some.inj hps
    refine ⟨hp2.symm, ?h1, ?h2⟩
    · rw [← hp2]
      omega
    · rw [← hp2]
      omega

theorem digHoles_emptyBoard (d : Difficulty) (r : RState) :
    (digHoles emptyBoard d r).1 = none := by
  unfold digHoles
  dsimp only
  have h0 : countGivens emptyBoard = 0 := by decide
  have hle : countGivens emptyBoard ≤ (randInt (GIVEN_RANGES d).1 (GIVEN_RANGES d).2 r).1 := by
    rw [h0]
    exact Nat.zero_le _
  rw [digGo_stop hle]
  have hmn : 17 ≤ (GIVEN_RANGES d).1 := by cases d <;> decide
  have hb := (randInt_bounds (GIVEN_RANGES d).1 (GIVEN_RANGES d).2 r (by cases d <;> decide)).1
  rw [if_pos (by rw [h0]; omega)]

theorem generateSolution_cases (r : RState) :
    (∃ b r2, fillBoard 82 emptyBoard r = (some b, r2) ∧ generateSolution r = (b, r2)) ∨
    (∃ r2, fillBoard 82 emptyBoard r = (none, r2) ∧ generateSolution r = (emptyBoard, r2)) := by
  unfold generateSolution
  cases hfb : fillBoard 82 emptyBoard r with
  | mk ob r2 =>
    cases ob with
    | some b => exact Or.inl ⟨b, r2, rfl, rfl⟩
    | none => exact Or.inr ⟨r2, rfl, rfl⟩

theorem generateSolution_good {r : RState} {b : Board} {r2 : RState}
    (hfb : fillBoard 82 emptyBoard r = (some b, r2)) :
    b.length = 81 ∧ (∀ i < 81, 1 ≤ b.getD i 0 ∧ b.getD i 0 ≤ 9) ∧
    (∀ i < 81, ∀ q ∈ peersOf i, b.getD q 0 ≠ b.getD i 0) ∧
    hasUniqueSolution b = true ∧ 81 ≤ countGivens b := by
  have hcomp := fillBoard_post 82 emptyBoard r b r2 (by decide) (by decide) (by decide) hfb
  rcases hcomp with ⟨hlen, _, hfill, hconf⟩
  have hu : hasUniqueSolution b = true :=
    hasUnique_allFilled (mrvScan_allFilled (filled_get?_ne hlen (fun i hi => (hfill i hi).1)))
  have hcg : 81 ≤ countGivens b := by
    refine countGivens_prefix b 81 (by omega) (fun i hi => ?hz)
    have := (hfill i hi).1
    omega
  exact ⟨hlen, hfill, hconf, hu, hcg⟩

set_option maxRecDepth 100000 in
theorem genLoop_post : ∀ (attempts : Nat) (d : Difficulty) (r : RState) (p : Puzzle)
    (r2 : RState), genLoop attempts d r = (some p, r2) →
    PuzzleInv d p ∧ (GIVEN_RANGES d).1 ≤ p.givenCount := by
  intro attempts
  induction attempts with
  | zero => intro d r p r2 h; exact Option.noConfusion (congrArg Prod.fst h)
  | succ n ih =>
    intro d r p r2 h
    rw [genLoop] at h
    dsimp only at h
    rcases generateSolution_cases r with ⟨b, rb, hfb, hgs⟩ | ⟨rb, hfb, hgs⟩
    case succ.inr.intro.intro =>
      rw [hgs] at h
      dsimp only at h
      have hnone := digHoles_emptyBoard d rb
      cases hdh : digHoles emptyBoard d rb with
      | mk ob rr =>
        rw [hdh] at hnone
        dsimp only at hnone
        subst hnone
        rw [hdh] at h
        exact ih d rr p r2 h
    case succ.inl.intro.intro.intro =>
      rw [hgs] at h
      dsimp only at h
      cases hdh : digHoles b d rb with
      | mk ob rr =>
        rw [hdh] at h
        cases ob with
        | none => exact ih d rr p r2 h
        | some puzzle =>
          dsimp only at h
          by_cases hacc :
              isAcceptableDifficulty (gradeDifficulty puzzle).difficulty d = true
          · rw [if_pos hacc] at h
            have hps := congrArg Prod.fst h
            simp only at hps
            have hpp := Option.some.inj hps
            subst hpp
            rcases digHoles_post hdh with ⟨hpz, hle1, hle2⟩
            rcases generateSolution_good hfb with ⟨hlen, hfill, hconf, hu, hcg⟩
            have hrange : (GIVEN_RANGES d).1 ≤ (GIVEN_RANGES d).2 := by cases d <;> decide
            have hbnd := randInt_bounds (GIVEN_RANGES d).1 (GIVEN_RANGES d).2 rb hrange
            have h46 : (GIVEN_RANGES d).2 ≤ 46 := by cases d <;> decide
            have hcount := digGo_count (randInt (GIVEN_RANGES d).1 (GIVEN_RANGES d).2 rb).1
              (shuffle (List.range 81) (randInt (GIVEN_RANGES d).1
                (GIVEN_RANGES d).2 rb).2).1 b
            rw [← hpz] at hcount
            constructor
            · refine ⟨?p1, hlen, ?p3, hfill, hconf, ?p6, rfl, ?p8⟩
              · show puzzle.length = 81
                rw [hpz, digGo_length, hlen]
              · show ∀ i < 81, puzzle.getD i 0 ≠ 0 → puzzle.getD i 0 = b.getD i 0
                intro i hi hne
                have hag := digGo_agree (randInt (GIVEN_RANGES d).1 (GIVEN_RANGES d).2 rb).1
                  (shuffle (List.range 81) (randInt (GIVEN_RANGES d).1
                    (GIVEN_RANGES d).2 rb).2).1 b i
                rw [← hpz] at hag
                rcases hag with h1 | h1
                · exact h1
                · exact absurd h1 hne
              · show countSolutions puzzle 2 = 1
                have hup := digGo_unique (randInt (GIVEN_RANGES d).1 (GIVEN_RANGES d).2 rb).1
                  (shuffle (List.range 81) (randInt (GIVEN_RANGES d).1
                    (GIVEN_RANGES d).2 rb).2).1 b hu
                rw [← hpz] at hup
                unfold hasUniqueSolution at hup
                simpa using hup
              · exact ⟨(randInt (GIVEN_RANGES d).1 (GIVEN_RANGES d).2 rb).1,
                  hbnd.1, hbnd.2, hle1, hle2⟩
            · show (GIVEN_RANGES d).1 ≤ countGivens puzzle
              omega
          · rw [if_neg hacc] at h
            exact ih d rr p r2 h

/-- C1: for every difficulty option and every draw of the randomness source,
a Puzzle returned by `generatePuzzle` satisfies the Puzzle invariant — board
and solution of length 81, every nonzero `board[i]` equal to `solution[i]`,
the solution fully filled with no conflicts, `countSolutions(board, 2) = 1`,
and `givenCount` within 3 of a target drawn from the requested tier's range. -/
theorem claim_C1 : ∀ (options : GeneratorOptions) (r : RState),
    GeneratedPuzzleOk options r := by
  intro options r
  unfold GeneratedPuzzleOk generatePuzzle
  cases hg : genLoop options.maxAttempts options.difficulty r with
  | mk ob r2 =>
    cases ob with
    | none => trivial
    | some p => exact (genLoop_post options.maxAttempts options.difficulty r p r2 hg).1

/-- C10: whenever `digHoles` returns a board for a fully filled solution, the
board's given count is at least the randomly drawn target (digging stops at
the target and never undershoots), and every puzzle `generatePuzzle` returns
has at least the requested tier's minimum number of givens. -/
theorem claim_C10 :
    (∀ (solution : Board) (d : Difficulty) (r : RState), DigKeepsTarget solution d r) ∧
    (∀ (options : GeneratorOptions) (r : RState), GeneratedMinGivens options r) := by
  constructor
  · intro solution d r
    unfold DigKeepsTarget
    cases hdh : digHoles solution d r with
    | mk ob r2 =>
      cases ob with
      | none => trivial
      | some p =>
        dsimp only
        by_cases hf : filledB solution = true
        · rw [if_pos hf]
          rcases digHoles_post hdh with ⟨hpz, _, _⟩
          have hcount := digGo_count (randInt (GIVEN_RANGES d).1 (GIVEN_RANGES d).2 r).1
            (shuffle (List.range 81) (randInt (GIVEN_RANGES d).1
              (GIVEN_RANGES d).2 r).2).1 solution
          rw [← hpz] at hcount
          have hcg := filledB_countGivens hf
          have hmx := (randInt_bounds (GIVEN_RANGES d).1 (GIVEN_RANGES d).2 r
            (by cases d <;> decide)).2
          have h46 : (GIVEN_RANGES d).2 ≤ 46 := by cases d <;> decide
          omega
        · rw [if_neg hf]
          trivial
  · intro options r
    unfold GeneratedMinGivens generatePuzzle
    cases hg : genLoop options.maxAttempts options.difficulty r with
    | mk ob r2 =>
      cases ob with
      | none => trivial
      | some p => exact (genLoop_post options.maxAttempts options.difficulty r p r2 hg).2

theorem rows_bound : ∀ u ∈ ROWS, ∀ x ∈ u, x < 81 := fun u hu =>
  units_bound u (by unfold unitsAll; exact List.mem_append.mpr (Or.inl (List.mem_append.mpr (Or.inl hu))))

theorem cols_bound : ∀ u ∈ COLS, ∀ x ∈ u, x < 81 := fun u hu =>
  units_bound u (by unfold unitsAll; exact List.mem_append.mpr (Or.inl (List.mem_append.mpr (Or.inr hu))))

theorem boxes_bound : ∀ u ∈ BOXES, ∀ x ∈ u, x < 81 := fun u hu =>
  units_bound u (by unfold unitsAll; exact List.mem_append.mpr (Or.inr hu))

theorem getD_unit {L : List (List Nat)} (hL : ∀ u ∈ L, ∀ y ∈ u, y < 81) (r : Nat) :
    ∀ x ∈ L.getD r [], x < 81 := by
  intro x hx
  rcases Nat.lt_or_ge r L.length with hr | hr
  · have hmem : L.getD r [] ∈ L := by
      rw [List.getD_eq_get?, List.get?_eq_get hr]
      exact List.get_mem L r hr
    exact hL _ hmem x hx
  · rw [List.getD_eq_get?, List.get?_eq_none.mpr hr] at hx
    cases hx

theorem headD_mem_of_ne_nil {l : List Nat} (h : l ≠ []) : l.headD 0 ∈ l := by
  cases l with
  | nil => exact absurd rfl h
  | cons a rest => exact List.mem_cons_self a rest

theorem lookup_cmap_mem {m : List (Nat × List Nat)} {i : Nat} {cs : List Nat}
    (h : List.lookup i m = some cs) : (i, cs) ∈ m := by
  induction m with
  | nil => cases h
  | cons e rest ih =>
    rw [List.lookup_cons] at h
    by_cases he : (i == e.1) = true
    · rw [he] at h
      have h1 : e.2 = cs := Option.some.inj h
      have h2 : i = e.1 := by simpa using he
      rw [← h1, h2]
      exact List.mem_cons_self e rest
    · have hf : (i == e.1) = false := by simpa using he
      rw [hf] at h
      exact List.mem_cons_of_mem e (ih h)

theorem allCandidates_mem {b : Board} {e : Nat × List Nat} (he : e ∈ allCandidates b) :
    e.1 < 81 ∧ e.2 = candidates b e.1 := by
  unfold allCandidates at he
  rcases List.mem_filterMap.mp he with ⟨i, hi, hf⟩
  by_cases hb : (b.get? i == some 0) = true
  · rw [if_pos hb] at hf
    have h1 := Option.some.inj hf
    rw [← h1]
    exact ⟨List.mem_range.mp hi, rfl⟩
  · rw [if_neg hb] at hf
    cases hf

theorem candidates_length_le (b : Board) (i : Nat) : (candidates b i).length ≤ 9 := by
  unfold candidates
  split
  · exact Nat.zero_le _
  · exact le_trans (List.length_filter_le _ _) (by simp)

theorem fbScan_keep : ∀ (m : CMap) (minSize i : Nat),
    ∃ t, (fbScan m minSize (some i)).2 = some t := by
  intro m
  induction m with
  | nil => intro minSize i; exact ⟨i, rfl⟩
  | cons e rest ih =>
    intro minSize i
    obtain ⟨j, cs⟩ := e
    unfold fbScan
    by_cases hl : cs.length < minSize
    · rw [if_pos hl]
      exact ih cs.length j
    · rw [if_neg hl]
      exact ih minSize i

theorem fbScan_progress : ∀ (m : CMap) (minSize : Nat) (target : Option Nat),
    (∃ e ∈ m, e.2.length < minSize) → ∃ t, (fbScan m minSize target).2 = some t := by
  intro m
  induction m with
  | nil => intro minSize target h; rcases h with ⟨e, he, _⟩; cases he
  | cons e rest ih =>
    intro minSize target h
    obtain ⟨j, cs⟩ := e
    unfold fbScan
    by_cases hl : cs.length < minSize
    · rw [if_pos hl]
      exact fbScan_keep rest cs.length j
    · rw [if_neg hl]
      rcases h with ⟨e2, he2, hlen⟩
      rcases List.mem_cons.mp he2 with heq | hmem
      · rw [heq] at hlen
        exact absurd hlen hl
      · exact ih minSize target ⟨e2, hmem, hlen⟩

theorem fbScan_min : ∀ (m : CMap) (minSize : Nat) (target : Option Nat),
    (fbScan m minSize target).1 ≤ minSize ∧
    (∀ e ∈ m, (fbScan m minSize target).1 ≤ e.2.length) ∧
    (∀ t, (fbScan m minSize target).2 = some t →
      (∃ cs, (t, cs) ∈ m ∧ cs.length = (fbScan m minSize target).1) ∨
      (target = some t ∧ (fbScan m minSize target).1 = minSize)) := by
  intro m
  induction m with
  | nil =>
    intro minSize target
    exact ⟨Nat.le_refl _, fun e he => absurd he (List.not_mem_nil e),
      fun t ht => Or.inr ⟨ht, rfl⟩⟩
  | cons e rest ih =>
    intro minSize target
    obtain ⟨j, cs⟩ := e
    unfold fbScan
    by_cases hl : cs.length < minSize
    · rw [if_pos hl]
      rcases ih cs.length (some j) with ⟨ih1, ih2, ih3⟩
      refine ⟨by omega, ?h2, ?h3⟩
      · intro e2 he2
        rcases List.mem_cons.mp he2 with heq | hmem
        · rw [heq]
          exact ih1
        · exact ih2 e2 hmem
      · intro t ht
        rcases ih3 t ht with ⟨cs2, hmem, hlen⟩ | ⟨hts, hms⟩
        · exact Or.inl ⟨cs2, List.mem_cons_of_mem _ hmem, hlen⟩
        · have htj : j = t := Option.some.inj hts
          exact Or.inl ⟨cs, htj ▸ List.mem_cons_self (j, cs) rest, hms.symm⟩
    · rw [if_neg hl]
      rcases ih minSize target with ⟨ih1, ih2, ih3⟩
      refine ⟨ih1, ?g2, ?g3⟩
      · intro e2 he2
        rcases List.mem_cons.mp he2 with heq | hmem
        · rw [heq]
          dsimp only
          omega
        · exact ih2 e2 hmem
      · intro t ht
        rcases ih3 t ht with ⟨cs2, hmem, hlen⟩ | hr
        · exact Or.inl ⟨cs2, List.mem_cons_of_mem _ hmem, hlen⟩
        · exact Or.inr hr

theorem fallbackHint_post {m : CMap} {h : Hint} (hf : fallbackHint m = some h) :
    h.technique = .brute_force ∧ h.relatedCells = [] ∧
    ∃ cs, (h.cellIndex, cs) ∈ m ∧ ∀ e ∈ m, cs.length ≤ e.2.length := by
  unfold fallbackHint at hf
  dsimp only at hf
  cases hsc : (fbScan m 10 none).2 with
  | none => rw [hsc] at hf; cases hf
  | some target =>
    rw [hsc] at hf
    have hh := Option.some.inj hf
    rcases fbScan_min m 10 none with ⟨_, hmin2, hmin3⟩
    rcases hmin3 target hsc with ⟨cs, hmem, hlen⟩ | ⟨hn, _⟩
    · refine ⟨by rw [← hh], by rw [← hh], cs, ?hcell, ?hmin⟩
      · rw [← hh]
        exact hmem
      · intro e he
        rw [hlen]
        exact hmin2 e he
    · cases hn

theorem fallbackHint_some {m : CMap} (hne : m ≠ []) (hlen : ∀ e ∈ m, e.2.length < 10) :
    ∃ h, fallbackHint m = some h := by
  unfold fallbackHint
  dsimp only
  cases m with
  | nil => exact absurd rfl hne
  | cons e rest =>
    rcases fbScan_progress (e :: rest) 10 none
      ⟨e, List.mem_cons_self e rest, hlen e (List.mem_cons_self e rest)⟩ with ⟨t, ht⟩
    rw [ht]
    exact ⟨_, rfl⟩

theorem allCandidates_nil_iff {b : Board} :
    allCandidates b = [] ↔ ∀ i < 81, b.get? i ≠ some 0 := by
  unfold allCandidates
  rw [List.filterMap_eq_nil]
  constructor
  · intro h i hi he
    have h2 := h i (List.mem_range.mpr hi)
    rw [if_pos (by rw [he]; rfl)] at h2
    cases h2
  · intro h i hi
    rw [if_neg (by simpa using h i (List.mem_range.mp hi))]

theorem peersWithValue_bound (b : Board) (i v : Nat) :
    ∀ x ∈ peersWithValue b i v, x < 81 := by
  intro x hx
  unfold peersWithValue at hx
  rcases List.mem_append.mp hx with h12 | h3
  · rcases List.mem_append.mp h12 with h1 | h2
    · exact getD_unit rows_bound _ x (List.mem_of_mem_filter h1)
    · exact getD_unit cols_bound _ x (List.mem_of_mem_filter h2)
  · exact getD_unit boxes_bound _ x (List.mem_of_mem_filter h3)

theorem findNakedSingle_post (b : Board) (reveal : Bool) :
    ∀ (cands : CMap), (∀ e ∈ cands, e.1 < 81) →
      ∀ ht, findNakedSingle b cands reveal = some ht →
      ht.technique = .naked_single ∧ ht.cellIndex < 81 ∧ ∀ j ∈ ht.relatedCells, j < 81 := by
  intro cands
  induction cands with
  | nil => intro _ ht h; cases h
  | cons e rest ih =>
    intro hk ht h
    obtain ⟨i, cs⟩ := e
    unfold findNakedSingle at h
    dsimp only at h
    by_cases hl : (cs.length == 1) = true
    · rw [if_pos hl] at h
      have hh := Option.some.inj h
      rw [← hh]
      refine ⟨rfl, hk (i, cs) (List.mem_cons_self _ _), ?hr⟩
      intro j hj
      exact peersWithValue_bound b i (cs.headD 0) j hj
    · rw [if_neg hl] at h
      exact ih (fun e2 he2 => hk e2 (List.mem_cons_of_mem _ he2)) ht h

theorem namedUnits_bound : ∀ u ∈ namedUnits, ∀ x ∈ u.1, x < 81 := by decide

theorem hiddenSingleInUnit_post (cands : CMap) (reveal : Bool)
    (unit : List Nat × String × String) (hu : ∀ x ∈ unit.1, x < 81) :
    ∀ (vs : List Nat) (ht : Hint), hiddenSingleInUnit cands reveal unit vs = some ht →
      ht.technique = .hidden_single ∧ ht.cellIndex < 81 ∧ ∀ j ∈ ht.relatedCells, j < 81 := by
  intro vs
  induction vs with
  | nil => intro ht h; cases h
  | cons v rest ih =>
    intro ht h
    unfold hiddenSingleInUnit at h
    dsimp only at h
    by_cases hl : ((unit.1.filter (fun i => candHas cands i v)).length == 1) = true
    · rw [if_pos hl] at h
      have hh := Option.some.inj h
      rw [← hh]
      have hmem := headD_mem_of_length_one
        (l := unit.1.filter (fun i => candHas cands i v)) (by simpa using hl)
      refine ⟨rfl, hu _ (List.mem_of_mem_filter hmem), ?hr⟩
      intro j hj
      exact hu j (List.mem_of_mem_filter hj)
    · rw [if_neg hl] at h
      exact ih ht h

theorem findHiddenSingle_post (cands : CMap) (reveal : Bool) :
    ∀ (us : List (List Nat × String × String)), (∀ u ∈ us, ∀ x ∈ u.1, x < 81) →
      ∀ ht, findHiddenSingle cands reveal us = some ht →
      ht.technique = .hidden_single ∧ ht.cellIndex < 81 ∧ ∀ j ∈ ht.relatedCells, j < 81 := by
  intro us
  induction us with
  | nil => intro _ ht h; cases h
  | cons u rest ih =>
    intro hus ht h
    unfold findHiddenSingle at h
    cases hin : hiddenSingleInUnit cands reveal u (List.range' 1 9) with
    | some h2 =>
      rw [hin] at h
      have hh := Option.some.inj h
      rw [← hh]
      exact hiddenSingleInUnit_post cands reveal u
        (hus u (List.mem_cons_self _ _)) (List.range' 1 9) h2 hin
    | none =>
      rw [hin] at h
      exact ih (fun u2 hu2 => hus u2 (List.mem_cons_of_mem _ hu2)) ht h

theorem pointingInBox_post (cands : CMap) (bIdx : Nat) :
    ∀ (vs : List Nat) (ht : Hint), pointingInBox cands bIdx vs = some ht →
      ht.technique = .pointing_pair ∧ ht.cellIndex < 81 ∧ ∀ j ∈ ht.relatedCells, j < 81 := by
  intro vs
  induction vs with
  | nil => intro ht h; cases h
  | cons v rest ih =>
    intro ht h
    unfold pointingInBox at h
    dsimp only at h
    split at h
    · exact ih ht h
    · split at h
      · split at h
        · exact ih ht h
        · rename_i i tail heq
          have hh := Option.some.inj h
          rw [← hh]
          have hi : i ∈ (ROWS.getD _ []).filter (fun x => !((BOXES.getD bIdx []).contains x)) :=
            List.mem_of_mem_filter (by rw [heq]; exact List.mem_cons_self i tail)
          refine ⟨rfl, getD_unit rows_bound _ i (List.mem_of_mem_filter hi), ?hr⟩
          intro j hj
          rcases List.mem_append.mp hj with h1 | h2
          · exact getD_unit boxes_bound _ j (List.mem_of_mem_filter h1)
          · exact getD_unit rows_bound _ j
              (List.mem_of_mem_filter (List.mem_of_mem_filter h2))
      · split at h
        · split at h
          · exact ih ht h
          · rename_i i tail heq
            have hh := Option.some.inj h
            rw [← hh]
            have hi : i ∈ (COLS.getD _ []).filter (fun x => !((BOXES.getD bIdx []).contains x)) :=
              List.mem_of_mem_filter (by rw [heq]; exact List.mem_cons_self i tail)
            refine ⟨rfl, getD_unit cols_bound _ i (List.mem_of_mem_filter hi), ?hr2⟩
            intro j hj
            rcases List.mem_append.mp hj with h1 | h2
            · exact getD_unit boxes_bound _ j (List.mem_of_mem_filter h1)
            · exact getD_unit cols_bound _ j
                (List.mem_of_mem_filter (List.mem_of_mem_filter h2))
        · exact ih ht h

theorem findPointingPair_post (cands : CMap) :
    ∀ (bs : List Nat) (ht : Hint), findPointingPair cands bs = some ht →
      ht.technique = .pointing_pair ∧ ht.cellIndex < 81 ∧ ∀ j ∈ ht.relatedCells, j < 81 := by
  intro bs
  induction bs with
  | nil => intro ht h; cases h
  | cons bIdx rest ih =>
    intro ht h
    unfold findPointingPair at h
    cases hin : pointingInBox cands bIdx (List.range' 1 9) with
    | some h2 =>
      rw [hin] at h
      have hh := Option.some.inj h
      rw [← hh]
      exact pointingInBox_post cands bIdx (List.range' 1 9) h2 hin
    | none =>
      rw [hin] at h
      exact ih ht h

theorem nakedPairWith_post (cands : CMap) (unit : List Nat) (hu : ∀ x ∈ unit, x < 81)
    (a : Nat) (ha : a < 81) :
    ∀ (cs : List Nat), (∀ c ∈ cs, c < 81) → ∀ ht, nakedPairWith cands unit a cs = some ht →
      ht.technique = .naked_pair ∧ ht.cellIndex < 81 ∧ ∀ j ∈ ht.relatedCells, j < 81 := by
  intro cs
  induction cs with
  | nil => intro _ ht h; cases h
  | cons c rest ih =>
    intro hcs ht h
    unfold nakedPairWith at h
    dsimp only at h
    split at h
    · exact ih (fun c2 hc2 => hcs c2 (List.mem_cons_of_mem _ hc2)) ht h
    · split at h
      · exact ih (fun c2 hc2 => hcs c2 (List.mem_cons_of_mem _ hc2)) ht h
      · split at h
        · exact ih (fun c2 hc2 => hcs c2 (List.mem_cons_of_mem _ hc2)) ht h
        · rename_i i tail heq
          have hh := Option.some.inj h
          rw [← hh]
          have hi : i ∈ unit :=
            List.mem_of_mem_filter (by rw [heq]; exact List.mem_cons_self i tail)
          refine ⟨rfl, hu i hi, ?hr⟩
          intro j hj
          rcases List.mem_append.mp hj with h1 | h2
          · rcases List.mem_cons.mp h1 with heq1 | h1b
            · rw [heq1]
              exact ha
            · rcases List.mem_cons.mp h1b with heq2 | h1c
              · rw [heq2]
                exact hcs c (List.mem_cons_self _ _)
              · cases h1c
          · exact hu j (List.mem_of_mem_filter h2)

theorem nakedPairPairs_post (cands : CMap) (unit : List Nat) (hu : ∀ x ∈ unit, x < 81) :
    ∀ (es : List Nat), (∀ c ∈ es, c < 81) → ∀ ht, nakedPairPairs cands unit es = some ht →
      ht.technique = .naked_pair ∧ ht.cellIndex < 81 ∧ ∀ j ∈ ht.relatedCells, j < 81 := by
  intro es
  induction es with
  | nil => intro _ ht h; cases h
  | cons a rest ih =>
    intro hes ht h
    unfold nakedPairPairs at h
    cases hin : nakedPairWith cands unit a rest with
    | some h2 =>
      rw [hin] at h
      have hh := Option.some.inj h
      rw [← hh]
      exact nakedPairWith_post cands unit hu a (hes a (List.mem_cons_self _ _)) rest
        (fun c2 hc2 => hes c2 (List.mem_cons_of_mem _ hc2)) h2 hin
    | none =>
      rw [hin] at h
      exact ih (fun c2 hc2 => hes c2 (List.mem_cons_of_mem _ hc2)) ht h

theorem findNakedPair_post (cands : CMap) :
    ∀ (us : List (List Nat)), (∀ u ∈ us, ∀ x ∈ u, x < 81) → ∀ ht,
      findNakedPair cands us = some ht →
      ht.technique = .naked_pair ∧ ht.cellIndex < 81 ∧ ∀ j ∈ ht.relatedCells, j < 81 := by
  intro us
  induction us with
  | nil => intro _ ht h; cases h
  | cons u rest ih =>
    intro hus ht h
    unfold findNakedPair at h
    dsimp only at h
    cases hin : nakedPairPairs cands u (u.filter (fun i => (List.lookup i cands).isSome)) with
    | some h2 =>
      rw [hin] at h
      have hh := Option.some.inj h
      rw [← hh]
      exact nakedPairPairs_post cands u (hus u (List.mem_cons_self _ _)) _
        (fun c2 hc2 => hus u (List.mem_cons_self _ _) c2 (List.mem_of_mem_filter hc2)) h2 hin
    | none =>
      rw [hin] at h
      exact ih (fun u2 hu2 => hus u2 (List.mem_cons_of_mem _ hu2)) ht h

theorem hiddenPairWith_post (cands : CMap) (digitCells : List (Nat × List Nat))
    (hd : ∀ e ∈ digitCells, ∀ x ∈ e.2, x < 81) (a : Nat) :
    ∀ (cs : List Nat) (ht : Hint), hiddenPairWith cands digitCells a cs = some ht →
      ht.technique = .hidden_pair ∧ ht.cellIndex < 81 ∧ ∀ j ∈ ht.relatedCells, j < 81 := by
  intro cs
  induction cs with
  | nil => intro ht h; cases h
  | cons c rest ih =>
    intro ht h
    unfold hiddenPairWith at h
    dsimp only at h
    split at h
    · exact ih ht h
    · split at h
      · exact ih ht h
      · rename_i hne hextra
        have hh := Option.some.inj h
        rw [← hh]
        have hex : ((List.lookup a digitCells).getD []).any (fun i =>
            ((List.lookup i cands).getD []).any (fun w => !([a, c].contains w))) = true := by
          simpa using hextra
        have hpair_ne : (List.lookup a digitCells).getD [] ≠ [] := by
          intro hnil
          rw [hnil] at hex
          cases hex
        cases hlk : List.lookup a digitCells with
        | none =>
          rw [hlk] at hpair_ne
          exact absurd rfl hpair_ne
        | some pr =>
          have hb : ∀ x ∈ pr, x < 81 := hd (a, pr) (lookup_cmap_mem hlk)
          rw [hlk] at hpair_ne
          refine ⟨rfl, ?hc, ?hrr⟩
          · exact hb _ (headD_mem_of_ne_nil hpair_ne)
          · intro j hj
            exact hb j hj

theorem hiddenPairDigits_post (cands : CMap) (digitCells : List (Nat × List Nat))
    (hd : ∀ e ∈ digitCells, ∀ x ∈ e.2, x < 81) :
    ∀ (ds : List Nat) (ht : Hint), hiddenPairDigits cands digitCells ds = some ht →
      ht.technique = .hidden_pair ∧ ht.cellIndex < 81 ∧ ∀ j ∈ ht.relatedCells, j < 81 := by
  intro ds
  induction ds with
  | nil => intro ht h; cases h
  | cons a rest ih =>
    intro ht h
    unfold hiddenPairDigits at h
    cases hin : hiddenPairWith cands digitCells a rest with
    | some h2 =>
      rw [hin] at h
      have hh := Option.some.inj h
      rw [← hh]
      exact hiddenPairWith_post cands digitCells hd a rest h2 hin
    | none =>
      rw [hin] at h
      exact ih ht h

theorem findHiddenPair_post (cands : CMap) :
    ∀ (us : List (List Nat)), (∀ u ∈ us, ∀ x ∈ u, x < 81) → ∀ ht,
      findHiddenPair cands us = some ht →
      ht.technique = .hidden_pair ∧ ht.cellIndex < 81 ∧ ∀ j ∈ ht.relatedCells, j < 81 := by
  intro us
  induction us with
  | nil => intro _ ht h; cases h
  | cons u rest ih =>
    intro hus ht h
    unfold findHiddenPair at h
    dsimp only at h
    have hd : ∀ e ∈ (List.range' 1 9).filterMap (fun v =>
        if ((u.filter (fun i => candHas cands i v)).length == 2) = true then
          some (v, u.filter (fun i => candHas cands i v)) else none),
        ∀ x ∈ e.2, x < 81 := by
      intro e he x hx
      rcases List.mem_filterMap.mp he with ⟨v, _, hf⟩
      split at hf
      · have h1 := Option.some.inj hf
        rw [← h1] at hx
        exact hus u (List.mem_cons_self _ _) x (List.mem_of_mem_filter hx)
      · cases hf
    cases hin : hiddenPairDigits cands
        ((List.range' 1 9).filterMap (fun v =>
          if ((u.filter (fun i => candHas cands i v)).length == 2) = true then
            some (v, u.filter (fun i => candHas cands i v)) else none))
        (((List.range' 1 9).filterMap (fun v =>
          if ((u.filter (fun i => candHas cands i v)).length == 2) = true then
            some (v, u.filter (fun i => candHas cands i v)) else none)).map
          (fun e => e.1)) with
    | some h2 =>
      rw [hin] at h
      have hh := Option.some.inj h
      rw [← hh]
      exact hiddenPairDigits_post cands _ hd _ h2 hin
    | none =>
      rw [hin] at h
      exact ih (fun u2 hu2 => hus u2 (List.mem_cons_of_mem _ hu2)) ht h

theorem xwingWith_post (cands : CMap) (v : Nat) (ra : Nat × List Nat)
    (hra : ra.1 < 9) (hracols : ∀ c ∈ ra.2, c < 9) :
    ∀ (rest : List (Nat × List Nat)), (∀ q ∈ rest, q.1 < 9) → ∀ ht,
      xwingWith cands v ra rest = some ht →
      ht.technique = .x_wing ∧ ht.cellIndex < 81 ∧ ∀ j ∈ ht.relatedCells, j < 81 := by
  intro rest
  induction rest with
  | nil => intro _ ht h; cases h
  | cons rb tail ih =>
    intro hq ht h
    unfold xwingWith at h
    dsimp only at h
    split at h
    · exact ih (fun q hq2 => hq q (List.mem_cons_of_mem _ hq2)) ht h
    · split at h
      · exact ih (fun q hq2 => hq q (List.mem_cons_of_mem _ hq2)) ht h
      · rename_i i itail heq
        have hh := Option.some.inj h
        rw [← hh]
        have hi : i ∈ ra.2.flatMap (fun c => (COLS.getD c []).filter
            (fun x => !([ra.1, rb.1].contains (rowOf x)) && candHas cands x v)) := by
          rw [heq]
          exact List.mem_cons_self i itail
        rcases List.mem_flatMap.mp hi with ⟨c, hc, hic⟩
        refine ⟨rfl, getD_unit cols_bound c i (List.mem_of_mem_filter hic), ?hr⟩
        intro j hj
        rcases List.mem_append.mp hj with h12 | h3
        · rcases List.mem_append.mp h12 with h1 | h2
          · rcases List.mem_map.mp h1 with ⟨c2, hc2, heq2⟩
            have hc9 := hracols c2 hc2
            rw [← heq2]
            unfold idx
            omega
          · rcases List.mem_map.mp h2 with ⟨c2, hc2, heq2⟩
            have hc9 := hracols c2 hc2
            have hrb := hq rb (List.mem_cons_self _ _)
            rw [← heq2]
            unfold idx
            omega
        · rcases List.mem_flatMap.mp h3 with ⟨c2, hc2, hjc⟩
          exact getD_unit cols_bound c2 j (List.mem_of_mem_filter hjc)

theorem xwingRows_post (cands : CMap) (v : Nat) :
    ∀ (qs : List (Nat × List Nat)), (∀ q ∈ qs, q.1 < 9 ∧ ∀ c ∈ q.2, c < 9) → ∀ ht,
      xwingRows cands v qs = some ht →
      ht.technique = .x_wing ∧ ht.cellIndex < 81 ∧ ∀ j ∈ ht.relatedCells, j < 81 := by
  intro qs
  induction qs with
  | nil => intro _ ht h; cases h
  | cons ra rest ih =>
    intro hqs ht h
    unfold xwingRows at h
    cases hin : xwingWith cands v ra rest with
    | some h2 =>
      rw [hin] at h
      have hh := Option.some.inj h
      rw [← hh]
      exact xwingWith_post cands v ra (hqs ra (List.mem_cons_self _ _)).1
        (hqs ra (List.mem_cons_self _ _)).2 rest
        (fun q hq2 => (hqs q (List.mem_cons_of_mem _ hq2)).1) h2 hin
    | none =>
      rw [hin] at h
      exact ih (fun q hq2 => hqs q (List.mem_cons_of_mem _ hq2)) ht h

theorem findXWing_post (cands : CMap) :
    ∀ (vs : List Nat) (ht : Hint), findXWing cands vs = some ht →
      ht.technique = .x_wing ∧ ht.cellIndex < 81 ∧ ∀ j ∈ ht.relatedCells, j < 81 := by
  intro vs
  induction vs with
  | nil => intro ht h; cases h
  | cons v rest ih =>
    intro ht h
    unfold findXWing at h
    dsimp only at h
    have hqs : ∀ q ∈ (List.range 9).filterMap (fun r =>
        if ((((ROWS.getD r []).filter (fun i => candHas cands i v)).map colOf).length == 2) =
            true then
          some (r, ((ROWS.getD r []).filter (fun i => candHas cands i v)).map colOf)
        else none), q.1 < 9 ∧ ∀ c ∈ q.2, c < 9 := by
      intro q hqm
      rcases List.mem_filterMap.mp hqm with ⟨r, hr, hf⟩
      split at hf
      · have h1 := Option.some.inj hf
        rw [← h1]
        refine ⟨List.mem_range.mp hr, ?hc⟩
        intro c hcm
        rcases List.mem_map.mp hcm with ⟨x, _, heqx⟩
        rw [← heqx]
        exact Nat.mod_lt x (by omega)
      · cases hf
    cases hin : xwingRows cands v ((List.range 9).filterMap (fun r =>
        if ((((ROWS.getD r []).filter (fun i => candHas cands i v)).map colOf).length == 2) =
            true then
          some (r, ((ROWS.getD r []).filter (fun i => candHas cands i v)).map colOf)
        else none)) with
    | some h2 =>
      rw [hin] at h
      have hh := Option.some.inj h
      rw [← hh]
      exact xwingRows_post cands v _ hqs h2 hin
    | none =>
      rw [hin] at h
      exact ih ht h

theorem getHint_none_iff (b : Board) (o : HintOptions) :
    getHint b o = none ↔ ∀ i < 81, b.get? i ≠ some 0 := by
  constructor
  · intro h
    rw [← allCandidates_nil_iff]
    by_contra hne
    unfold getHint at h
    dsimp only at h
    rw [if_neg (by simpa [List.isEmpty_iff] using hne)] at h
    have hlens : ∀ e ∈ allCandidates b, e.2.length < 10 := by
      intro e he
      have h2 := (allCandidates_mem he).2
      rw [h2]
      have := candidates_length_le b e.1
      omega
    cases h1 : findNakedSingle b (allCandidates b) o.reveal with
    | some h2 => rw [h1] at h; cases h
    | none =>
    rw [h1] at h
    cases h2 : findHiddenSingle (allCandidates b) o.reveal namedUnits with
    | some h3 => rw [h2] at h; cases h
    | none =>
    rw [h2] at h
    cases h3 : findPointingPair (allCandidates b) (List.range 9) with
    | some h4 => rw [h3] at h; cases h
    | none =>
    rw [h3] at h
    cases h4 : findNakedPair (allCandidates b) unitsAll with
    | some h5 => rw [h4] at h; cases h
    | none =>
    rw [h4] at h
    cases h5 : findHiddenPair (allCandidates b) unitsAll with
    | some h6 => rw [h5] at h; cases h
    | none =>
    rw [h5] at h
    cases h6 : findXWing (allCandidates b) (List.range' 1 9) with
    | some h7 => rw [h6] at h; cases h
    | none =>
    rw [h6] at h
    rcases fallbackHint_some hne hlens with ⟨hh, hfb⟩
    rw [hfb] at h
    cases h
  · intro hall
    unfold getHint
    dsimp only
    rw [if_pos (by rw [List.isEmpty_iff]; exact allCandidates_nil_iff.mpr hall)]

theorem getHint_post (b : Board) (o : HintOptions) (ht : Hint)
    (h : getHint b o = some ht) :
    ht.technique ∈ [SolvingTechnique.naked_single, .hidden_single, .pointing_pair,
      .naked_pair, .hidden_pair, .x_wing, .brute_force] ∧
    ht.cellIndex < 81 ∧ ∀ j ∈ ht.relatedCells, j < 81 := by
  unfold getHint at h
  dsimp only at h
  have hkeys : ∀ e ∈ allCandidates b, e.1 < 81 := fun e he => (allCandidates_mem he).1
  split at h
  · cases h
  · cases h1 : findNakedSingle b (allCandidates b) o.reveal with
    | some h2 =>
      rw [h1] at h
      have hh := Option.some.inj h
      rcases findNakedSingle_post b o.reveal (allCandidates b) hkeys h2 h1 with ⟨t1, t2, t3⟩
      rw [← hh]
      exact ⟨by rw [t1]; decide, t2, t3⟩
    | none =>
    rw [h1] at h
    cases h2 : findHiddenSingle (allCandidates b) o.reveal namedUnits with
    | some h3 =>
      rw [h2] at h
      have hh := Option.some.inj h
      rcases findHiddenSingle_post (allCandidates b) o.reveal namedUnits
        namedUnits_bound h3 h2 with ⟨t1, t2, t3⟩
      rw [← hh]
      exact ⟨by rw [t1]; decide, t2, t3⟩
    | none =>
    rw [h2] at h
    cases h3 : findPointingPair (allCandidates b) (List.range 9) with
    | some h4 =>
      rw [h3] at h
      have hh := Option.some.inj h
      rcases findPointingPair_post (allCandidates b) (List.range 9) h4 h3 with ⟨t1, t2, t3⟩
      rw [← hh]
      exact ⟨by rw [t1]; decide, t2, t3⟩
    | none =>
    rw [h3] at h
    cases h4 : findNakedPair (allCandidates b) unitsAll with
    | some h5 =>
      rw [h4] at h
      have hh := Option.some.inj h
      rcases findNakedPair_post (allCandidates b) unitsAll units_bound h5 h4 with ⟨t1, t2, t3⟩
      rw [← hh]
      exact ⟨by rw [t1]; decide, t2, t3⟩
    | none =>
    rw [h4] at h
    cases h5 : findHiddenPair (allCandidates b) unitsAll with
    | some h6 =>
      rw [h5] at h
      have hh := Option.some.inj h
      rcases findHiddenPair_post (allCandidates b) unitsAll units_bound h6 h5 with ⟨t1, t2, t3⟩
      rw [← hh]
      exact ⟨by rw [t1]; decide, t2, t3⟩
    | none =>
    rw [h5] at h
    cases h6 : findXWing (allCandidates b) (List.range' 1 9) with
    | some h7 =>
      rw [h6] at h
      have hh := Option.some.inj h
      rcases findXWing_post (allCandidates b) (List.range' 1 9) h7 h6 with ⟨t1, t2, t3⟩
      rw [← hh]
      exact ⟨by rw [t1]; decide, t2, t3⟩
    | none =>
    rw [h6] at h
    rcases fallbackHint_post h with ⟨t1, t2, t3⟩
    rcases t3 with ⟨cs, hmem, _⟩
    refine ⟨by rw [t1]; decide, hkeys (ht.cellIndex, cs) hmem, ?hr⟩
    intro j hj
    rw [t2] at hj
    cases hj

/-- C7: `getHint` returns no hint exactly when the board has zero empty
cells; on any board with an empty cell the returned hint carries a technique
tag from the catalog and a `cellIndex` and `relatedCells` all within
`[0, 80]`; and the `brute_force` fallback points at an empty cell with the
fewest remaining candidates. -/
theorem claim_C7 :
    (∀ (b : Board) (o : HintOptions),
       getHint b o = none ↔ ∀ i < 81, b.get? i ≠ some 0) ∧
    (∀ (b : Board) (o : HintOptions) (ht : Hint), getHint b o = some ht →
       ht.technique ∈ [SolvingTechnique.naked_single, .hidden_single, .pointing_pair,
         .naked_pair, .hidden_pair, .x_wing, .brute_force] ∧
       ht.cellIndex < 81 ∧ ∀ j ∈ ht.relatedCells, j < 81) ∧
    (∀ (m : CMap) (ht : Hint), fallbackHint m = some ht →
       ht.technique = .brute_force ∧
       ∃ cs, (ht.cellIndex, cs) ∈ m ∧ ∀ e ∈ m, cs.length ≤ e.2.length) := by
  refine ⟨getHint_none_iff, getHint_post, ?fb⟩
  intro m ht hf
  rcases fallbackHint_post hf with ⟨t1, _, t3⟩
  exact ⟨t1, t3⟩

set_option maxRecDepth 1000000 in
/-- Witness for C7 on the concrete board `C7_BOARD`. -/
theorem claim_C7_witness :
    getHint C7_BOARD { reveal := true } = some C7_HINT ∧
    (C7_HINT.technique ∈ [SolvingTechnique.naked_single, .hidden_single, .pointing_pair,
       .naked_pair, .hidden_pair, .x_wing, .brute_force] ∧
     C7_HINT.cellIndex < 81 ∧ ∀ j ∈ C7_HINT.relatedCells, j < 81) :=
  ⟨by decide, claim_C7.2.1 C7_BOARD { reveal := true } C7_HINT (by decide)⟩

theorem zerosCount_le (b : Board) : zerosCount b ≤ 81 := by
  unfold zerosCount
  calc ((List.range 81).filter (fun i => b.get? i == some 0)).length
      ≤ (List.range 81).length := List.length_filter_le _ _
    _ = 81 := List.length_range 81

theorem mrvGo_someBest {b : Board} :
    ∀ (rem i minC j : Nat), mrvGo b rem i minC (some j) ≠ .allFilled := by
  intro rem
  induction rem with
  | zero => intro i minC j h; cases h
  | succ n ih =>
    intro i minC j h
    unfold mrvGo at h
    split at h
    · exact ih (i + 1) minC j h
    · dsimp only at h
      split at h
      · cases h
      · split at h
        · split at h
          · cases h
          · exact ih (i + 1) _ i h
        · exact ih (i + 1) minC j h

theorem mrvGo_allFilled_inv {b : Board} :
    ∀ (rem i minC : Nat) (best : Option Nat), (best = none → 10 ≤ minC) →
      mrvGo b rem i minC best = .allFilled →
      ∀ j, i ≤ j → j < i + rem → b.get? j ≠ some 0 := by
  intro rem
  induction rem with
  | zero => intro i minC best _ _ j h1 h2; omega
  | succ n ih =>
    intro i minC best hb h j h1 h2
    unfold mrvGo at h
    by_cases hfill : (b.get? i != some 0) = true
    · rw [if_pos hfill] at h
      rcases Nat.eq_or_lt_of_le h1 with heq | hlt
      · subst heq
        simpa using hfill
      · exact ih (i + 1) minC best hb h j hlt (by omega)
    · rw [if_neg hfill] at h
      have hempty : b.get? i = some 0 := by simpa using hfill
      cases best with
      | some j2 =>
        dsimp only at h
        split at h
        · cases h
        · split at h
          · split at h
            · cases h
            · exact absurd h (mrvGo_someBest n (i + 1) _ i)
          · exact absurd h (mrvGo_someBest n (i + 1) minC j2)
      | none =>
        have hmin := hb rfl
        have hcl := candidates_length_le b i
        dsimp only at h
        split at h
        · cases h
        · split at h
          · split at h
            · cases h
            · exact absurd h (mrvGo_someBest n (i + 1) _ i)
          · omega

theorem mrvScan_allFilled_inv {b : Board} (h : mrvScan b = .allFilled) :
    ∀ j < 81, b.get? j ≠ some 0 := fun j hj =>
  mrvGo_allFilled_inv 81 0 10 none (fun _ => Nat.le_refl _) h j (Nat.zero_le j) (by omega)

theorem mrvGo_deadEnd {b : Board} :
    ∀ (rem i minC : Nat) (best : Option Nat), mrvGo b rem i minC best = .deadEnd →
      ∃ j, b.get? j = some 0 ∧ candidates b j = [] := by
  intro rem
  induction rem with
  | zero =>
    intro i minC best h
    unfold mrvGo at h
    cases best with
    | some t => cases h
    | none => cases h
  | succ n ih =>
    intro i minC best h
    unfold mrvGo at h
    by_cases hfill : (b.get? i != some 0) = true
    · rw [if_pos hfill] at h
      exact ih (i + 1) minC best h
    · rw [if_neg hfill] at h
      have hempty : b.get? i = some 0 := by simpa using hfill
      dsimp only at h
      split at h
      · rename_i hlen
        exact ⟨i, hempty, List.length_eq_zero.mp hlen⟩
      · split at h
        · split at h
          · cases h
          · exact ih (i + 1) _ (some i) h
        · exact ih (i + 1) minC best h

theorem mrvScan_deadEnd {b : Board} (h : mrvScan b = .deadEnd) :
    ∃ j, b.get? j = some 0 ∧ candidates b j = [] :=
  mrvGo_deadEnd 81 0 10 none h

theorem firstEmptyGo_none_of {b : Board} :
    ∀ (rem i : Nat), (∀ j, i ≤ j → j < i + rem → b.get? j ≠ some 0) →
      firstEmptyGo b rem i = none := by
  intro rem
  induction rem with
  | zero => intro i _; rfl
  | succ n ih =>
    intro i hall
    unfold firstEmptyGo
    rw [if_pos (by simpa using hall i (Nat.le_refl i) (by omega))]
    exact ih (i + 1) (fun j h1 h2 => hall j (by omega) (by omega))

theorem firstEmpty_none_of {b : Board} (h : ∀ j < 81, b.get? j ≠ some 0) :
    firstEmpty b = none :=
  firstEmptyGo_none_of 81 0 (fun j _ h2 => h j (by omega))

theorem mem_used_iff {b : Board} {t v : Nat} (hv : 1 ≤ v) :
    v ∈ (peersOf t).filterMap (fun p =>
      match b.get? p with
      | some w => if w != 0 then some w else none
      | none => none) ↔ ∃ p ∈ peersOf t, b.get? p = some v := by
  rw [List.mem_filterMap]
  constructor
  · rintro ⟨p, hp, hf⟩
    refine ⟨p, hp, ?he⟩
    cases hg : b.get? p with
    | none => rw [hg] at hf; cases hf
    | some w =>
      rw [hg] at hf
      dsimp only at hf
      by_cases hw : (w != 0) = true
      · rw [if_pos hw] at hf
        exact hf
      · rw [if_neg hw] at hf
        cases hf
  · rintro ⟨p, hp, hg⟩
    refine ⟨p, hp, ?hf⟩
    rw [hg]
    dsimp only
    rw [if_pos (by simp; omega)]

theorem mem_candidates {b : Board} {t v : Nat} :
    v ∈ candidates b t ↔ b.get? t = some 0 ∧ 1 ≤ v ∧ v ≤ 9 ∧
      ∀ p ∈ peersOf t, b.get? p ≠ some v := by
  unfold candidates
  constructor
  · intro hv
    split at hv
    · cases hv
    · rename_i hne
      have ht : b.get? t = some 0 := by simpa using hne
      rcases List.mem_filter.mp hv with ⟨hrange, hused⟩
      have hv19 : 1 ≤ v ∧ v < 1 + 9 := List.mem_range'_1.mp hrange
      refine ⟨ht, hv19.1, by omega, ?hp⟩
      intro p hp he
      have hnot : ¬ v ∈ (peersOf t).filterMap (fun p =>
          match b.get? p with
          | some w => if w != 0 then some w else none
          | none => none) := by simpa using hused
      exact absurd ((mem_used_iff hv19.1).mpr ⟨p, hp, he⟩) hnot
  · rintro ⟨ht, h1, h9, hp⟩
    rw [if_neg (by rw [ht]; decide)]
    refine List.mem_filter.mpr ⟨List.mem_range'_1.mpr ⟨h1, by omega⟩, ?hu⟩
    have hnot : ¬ v ∈ (peersOf t).filterMap (fun p =>
        match b.get? p with
        | some w => if w != 0 then some w else none
        | none => none) := by
      intro hcon
      rcases (mem_used_iff h1).mp hcon with ⟨p, hpp, hg⟩
      exact hp p hpp hg
    simpa using hnot

theorem isValid_iff_mem {b : Board} {t v : Nat} (ht : b.get? t = some 0)
    (h1 : 1 ≤ v) (h9 : v ≤ 9) :
    isValidPlacement b t v = true ↔ v ∈ candidates b t := by
  rw [mem_candidates]
  unfold isValidPlacement
  rw [List.all_eq_true]
  constructor
  · intro h
    refine ⟨ht, h1, h9, ?hp⟩
    intro p hp he
    have := h p hp
    rw [he] at this
    simp at this
  · rintro ⟨_, _, _, hp⟩
    intro p hpp
    have := hp p hpp
    simpa using this

theorem ext_of_getD {b c : Board} (hb : b.length = 81) (hc : c.length = 81)
    (h : ∀ i < 81, c.getD i 0 = b.getD i 0) : c = b := by
  apply List.ext
  intro n
  rcases Nat.lt_or_ge n 81 with hn | hn
  · rw [get?_of_lt (show n < c.length by omega), get?_of_lt (show n < b.length by omega),
      h n hn]
  · rw [List.get?_eq_none.mpr (by omega), List.get?_eq_none.mpr (by omega)]

theorem filled_getD_ne {b : Board} (hb : b.length = 81)
    (hf : ∀ j < 81, b.get? j ≠ some 0) : ∀ j < 81, b.getD j 0 ≠ 0 := by
  intro j hj h0
  exact hf j hj (by rw [get?_of_lt (show j < b.length by omega), h0])

theorem isCompletion_self {b : Board} (hWF : BoardWF b) (hOk : PartialOk b)
    (hf : ∀ j < 81, b.get? j ≠ some 0) : IsCompletion b b := by
  rcases hWF with ⟨hlen, hvals⟩
  have hne := filled_getD_ne hlen hf
  refine ⟨hlen, fun i _ _ => rfl, ?hfill, ?hconf⟩
  · intro i hi
    constructor
    · have := hne i hi
      omega
    · exact hvals _ (getD_mem (show i < b.length by omega))
  · intro i hi p hp
    exact hOk i hi (hne i hi) p hp

theorem completion_filled_eq {b c : Board} (hb : b.length = 81)
    (hf : ∀ j < 81, b.get? j ≠ some 0) (hc : IsCompletion b c) : c = b := by
  rcases hc with ⟨hclen, hext, _, _⟩
  exact ext_of_getD hb hclen (fun i hi => hext i hi (filled_getD_ne hb hf i hi))

theorem noConflictsB_of {b : Board} (hb : b.length = 81) (hOk : PartialOk b)
    (hf : ∀ j < 81, b.get? j ≠ some 0) : noConflictsB b = true := by
  unfold noConflictsB
  rw [List.all_eq_true]
  intro i hi
  rw [List.all_eq_true]
  intro p hp
  have hi81 := List.mem_range.mp hi
  have := hOk i hi81 (filled_getD_ne hb hf i hi81) p hp
  simpa using this

theorem noConflicts_of_B {b : Board} (h : noConflictsB b = true) :
    ∀ i < 81, ∀ p ∈ peersOf i, b.getD p 0 ≠ b.getD i 0 := by
  intro i hi p hp
  have h1 := List.all_eq_true.mp h i (List.mem_range.mpr hi)
  have h2 := List.all_eq_true.mp h1 p hp
  simpa using h2

theorem completion_value_mem {b c : Board} {t : Nat} (hbl : b.length = 81)
    (ht : b.get? t = some 0) (ht81 : t < 81) (hc : IsCompletion b c) :
    c.getD t 0 ∈ candidates b t := by
  rcases hc with ⟨hclen, hext, hfill, hconf⟩
  rw [mem_candidates]
  refine ⟨ht, (hfill t ht81).1, (hfill t ht81).2, ?hp⟩
  intro p hp he
  have hp81 : p < 81 := peers_bound t ht81 p hp
  have hbp : b.getD p 0 = c.getD t 0 := getD_of_get? he
  have hbne : b.getD p 0 ≠ 0 := by
    have := (hfill t ht81).1
    omega
  have hcp := hext p hp81 hbne
  exact hconf t ht81 p hp (by rw [hcp, hbp])

theorem completion_set_iff {b c : Board} {t v : Nat} (ht : b.get? t = some 0)
    (ht81 : t < 81) (hv1 : 1 ≤ v) :
    IsCompletion (b.set t v) c ↔ IsCompletion b c ∧ c.getD t 0 = v := by
  have htlen : t < b.length := (List.get?_eq_some.mp ht).1
  constructor
  · rintro ⟨hclen, hext, hfill, hconf⟩
    have hctv : c.getD t 0 = v := by
      have := hext t ht81 (by rw [getD_set_self v htlen]; omega)
      rw [getD_set_self v htlen] at this
      exact this
    refine ⟨⟨hclen, ?hext2, hfill, hconf⟩, hctv⟩
    intro i hi hbne
    have hit : i ≠ t := fun h => hbne (h ▸ getD_of_get? ht)
    have h2 := hext i hi (by
      rw [getD_set_ne v (fun h => hit h.symm)]
      exact hbne)
    rw [getD_set_ne v (fun h => hit h.symm)] at h2
    exact h2
  · rintro ⟨⟨hclen, hext, hfill, hconf⟩, hctv⟩
    refine ⟨hclen, ?hext3, hfill, hconf⟩
    intro i hi hbne
    by_cases hit : i = t
    · subst hit
      rw [getD_set_self v htlen]
      exact hctv
    · rw [getD_set_ne v (fun h => hit h.symm)] at hbne ⊢
      exact hext i hi hbne

theorem boardWF_set {b : Board} {t v : Nat} (hWF : BoardWF b) (h9 : v ≤ 9) :
    BoardWF (b.set t v) := by
  refine ⟨by rw [List.length_set]; exact hWF.1, ?hv⟩
  intro x hx
  rcases List.mem_or_eq_of_mem_set hx with h1 | rfl
  · exact hWF.2 x h1
  · exact h9

theorem candidates_nodup (b : Board) (t : Nat) : (candidates b t).Nodup := by
  unfold candidates
  split
  · exact List.nodup_nil
  · exact List.Nodup.filter _ (by decide)

theorem allSols_mem : ∀ (fuel : Nat) (b : Board), BoardWF b → PartialOk b →
    zerosCount b < fuel → ∀ c, (c ∈ allSols fuel b ↔ IsCompletion b c) := by
  intro fuel
  induction fuel with
  | zero => intro b _ _ hz; omega
  | succ n ih =>
    intro b hWF hOk hz c
    rw [allSols]
    cases hfe : firstEmpty b with
    | none =>
      have hfall := firstEmpty_none hfe
      have hnc := noConflictsB_of hWF.1 hOk hfall
      show c ∈ (if noConflictsB b = true then [b] else []) ↔ IsCompletion b c
      rw [if_pos hnc]
      constructor
      · intro hc
        rw [List.mem_singleton.mp hc]
        exact isCompletion_self hWF hOk hfall
      · intro hc
        rw [completion_filled_eq hWF.1 hfall hc]
        exact List.mem_singleton.mpr rfl
    | some i =>
      show c ∈ (List.range' 1 9).flatMap (fun v =>
          if isValidPlacement b i v = true then allSols n (b.set i v) else []) ↔
        IsCompletion b c
      rcases firstEmpty_some hfe with ⟨hi0, hi81⟩
      rw [List.mem_flatMap]
      constructor
      · rintro ⟨v, hv, hcv⟩
        have hv19 := List.mem_range'_1.mp hv
        by_cases hval : isValidPlacement b i v = true
        · rw [if_pos hval] at hcv
          have hWF2 := boardWF_set (t := i) hWF (show v ≤ 9 by omega)
          have hOk2 := partialOk_set hWF.1 hOk hi0 hv19.1 hval
          have hz2 : zerosCount (b.set i v) < n := by
            have := zeros_set_lt hi0 hi81 hv19.1
            omega
          have hcomp := (ih (b.set i v) hWF2 hOk2 hz2 c).mp hcv
          exact ((completion_set_iff hi0 hi81 hv19.1).mp hcomp).1
        · rw [if_neg hval] at hcv
          cases hcv
      · intro hc
        have hvmem := completion_value_mem hWF.1 hi0 hi81 hc
        rcases mem_candidates.mp hvmem with ⟨_, h1, h9, _⟩
        refine ⟨c.getD i 0, List.mem_range'_1.mpr ⟨h1, by omega⟩, ?hin⟩
        have hval : isValidPlacement b i (c.getD i 0) = true :=
          (isValid_iff_mem hi0 h1 h9).mpr hvmem
        rw [if_pos hval]
        have hWF2 := boardWF_set (t := i) hWF h9
        have hOk2 := partialOk_set hWF.1 hOk hi0 h1 hval
        have hz2 : zerosCount (b.set i (c.getD i 0)) < n := by
          have := zeros_set_lt hi0 hi81 h1
          omega
        rw [ih (b.set i (c.getD i 0)) hWF2 hOk2 hz2 c]
        exact (completion_set_iff hi0 hi81 h1).mpr ⟨hc, rfl⟩

theorem nodup_flatMap_of {f : Nat → List Board} :
    ∀ (vs : List Nat), vs.Nodup → (∀ v ∈ vs, (f v).Nodup) →
      (∀ v1 ∈ vs, ∀ v2 ∈ vs, v1 ≠ v2 → ∀ c ∈ f v1, c ∉ f v2) →
      (vs.flatMap f).Nodup := by
  intro vs
  induction vs with
  | nil => intro _ _ _; exact List.nodup_nil
  | cons v rest ih =>
    intro hnd hn hdisj
    rw [List.flatMap_cons]
    have hvrest : v ∉ rest := (List.nodup_cons.mp hnd).1
    refine List.Nodup.append (hn v (List.mem_cons_self _ _))
      (ih (List.nodup_cons.mp hnd).2
        (fun v2 hv2 => hn v2 (List.mem_cons_of_mem _ hv2))
        (fun v1 h1 v2 h2 hne c =>
          hdisj v1 (List.mem_cons_of_mem _ h1) v2 (List.mem_cons_of_mem _ h2) hne c)) ?hd
    intro c hc1 hc2
    rcases List.mem_flatMap.mp hc2 with ⟨v2, hv2, hcv2⟩
    have hne : v ≠ v2 := fun h => hvrest (h ▸ hv2)
    exact hdisj v (List.mem_cons_self _ _) v2 (List.mem_cons_of_mem _ hv2) hne c hc1 hcv2

theorem allSols_nodup : ∀ (fuel : Nat) (b : Board), BoardWF b → PartialOk b →
    zerosCount b < fuel → (allSols fuel b).Nodup := by
  intro fuel
  induction fuel with
  | zero => intro b _ _ hz; omega
  | succ n ih =>
    intro b hWF hOk hz
    rw [allSols]
    cases hfe : firstEmpty b with
    | none =>
      show (if noConflictsB b = true then [b] else []).Nodup
      split
      · exact List.nodup_singleton b
      · exact List.nodup_nil
    | some i =>
      show ((List.range' 1 9).flatMap (fun v =>
        if isValidPlacement b i v = true then allSols n (b.set i v) else [])).Nodup
      rcases firstEmpty_some hfe with ⟨hi0, hi81⟩
      refine nodup_flatMap_of (List.range' 1 9) (by decide) ?hn ?hdisj
      · intro v hv
        have hv19 := List.mem_range'_1.mp hv
        by_cases hval : isValidPlacement b i v = true
        · rw [if_pos hval]
          have hWF2 := boardWF_set (t := i) hWF (show v ≤ 9 by omega)
          have hOk2 := partialOk_set hWF.1 hOk hi0 hv19.1 hval
          have hz2 : zerosCount (b.set i v) < n := by
            have := zeros_set_lt hi0 hi81 hv19.1
            omega
          exact ih (b.set i v) hWF2 hOk2 hz2
        · rw [if_neg hval]
          exact List.nodup_nil
      · intro v1 h1 v2 h2 hne c hc1 hc2
        have hv19a := List.mem_range'_1.mp h1
        have hv19b := List.mem_range'_1.mp h2
        by_cases hval1 : isValidPlacement b i v1 = true
        · rw [if_pos hval1] at hc1
          by_cases hval2 : isValidPlacement b i v2 = true
          · rw [if_pos hval2] at hc2
            have hWF1 := boardWF_set hWF (b := b) (t := i) (v := v1) (show v1 ≤ 9 by omega)
            have hOk1 := partialOk_set hWF.1 hOk hi0 hv19a.1 hval1
            have hz1 : zerosCount (b.set i v1) < 82 := by
              have := zerosCount_le (b.set i v1)
              omega
            have hWF2 := boardWF_set hWF (b := b) (t := i) (v := v2) (show v2 ≤ 9 by omega)
            have hOk2 := partialOk_set hWF.1 hOk hi0 hv19b.1 hval2
            have hz2 : zerosCount (b.set i v2) < 82 := by
              have := zerosCount_le (b.set i v2)
              omega
            have hzn1 : zerosCount (b.set i v1) < n := by
              have := zeros_set_lt (v := v1) hi0 hi81 hv19a.1
              omega
            have hzn2 : zerosCount (b.set i v2) < n := by
              have := zeros_set_lt (v := v2) hi0 hi81 hv19b.1
              omega
            have e1 := (allSols_mem n _ hWF1 hOk1 hzn1 c).mp hc1
            have e2 := (allSols_mem n _ hWF2 hOk2 hzn2 c).mp hc2
            have q1 := ((completion_set_iff hi0 hi81 hv19a.1).mp e1).2
            have q2 := ((completion_set_iff hi0 hi81 hv19b.1).mp e2).2
            exact hne (by rw [← q1, q2])
          · rw [if_neg hval2] at hc2
            cases hc2
        · rw [if_neg hval1] at hc1
          cases hc1

theorem length_eq_of_nodup_mem {l1 l2 : List Board} (h1 : l1.Nodup) (h2 : l2.Nodup)
    (hm : ∀ c, c ∈ l1 ↔ c ∈ l2) : l1.length = l2.length := by
  rw [← List.toFinset_card_of_nodup h1, ← List.toFinset_card_of_nodup h2]
  congr 1
  ext c
  rw [List.mem_toFinset, List.mem_toFinset]
  exact hm c

theorem completions_partition {b : Board} {t : Nat} (hWF : BoardWF b) (hOk : PartialOk b)
    (ht : b.get? t = some 0) (ht81 : t < 81) :
    completionsCount b = ((candidates b t).map (fun v => completionsCount (b.set t v))).sum := by
  have hALL : ∀ v ∈ candidates b t, BoardWF (b.set t v) ∧ PartialOk (b.set t v) ∧
      zerosCount (b.set t v) < 82 := by
    intro v hv
    rcases mem_candidates.mp hv with ⟨_, h1, h9, _⟩
    have hval := (isValid_iff_mem ht h1 h9).mpr hv
    refine ⟨boardWF_set (t := t) hWF h9, partialOk_set hWF.1 hOk ht h1 hval, ?hz⟩
    have := zerosCount_le (b.set t v)
    omega
  have hLnodup : ((candidates b t).flatMap (fun v => allSols 82 (b.set t v))).Nodup := by
    refine nodup_flatMap_of _ (candidates_nodup b t) ?hn ?hdisj
    · intro v hv
      rcases hALL v hv with ⟨hW, hO, hz⟩
      exact allSols_nodup 82 _ hW hO hz
    · intro v1 h1 v2 h2 hne c hc1 hc2
      rcases hALL v1 h1 with ⟨hW1, hO1, hz1⟩
      rcases hALL v2 h2 with ⟨hW2, hO2, hz2⟩
      have e1 := (allSols_mem 82 _ hW1 hO1 hz1 c).mp hc1
      have e2 := (allSols_mem 82 _ hW2 hO2 hz2 c).mp hc2
      rcases mem_candidates.mp h1 with ⟨_, hv1a, _, _⟩
      rcases mem_candidates.mp h2 with ⟨_, hv2a, _, _⟩
      have q1 := ((completion_set_iff ht ht81 hv1a).mp e1).2
      have q2 := ((completion_set_iff ht ht81 hv2a).mp e2).2
      exact hne (by rw [← q1, q2])
  have hLmem : ∀ c, c ∈ (candidates b t).flatMap (fun v => allSols 82 (b.set t v)) ↔
      IsCompletion b c := by
    intro c
    rw [List.mem_flatMap]
    constructor
    · rintro ⟨v, hv, hcv⟩
      rcases hALL v hv with ⟨hW, hO, hz⟩
      rcases mem_candidates.mp hv with ⟨_, h1, _, _⟩
      exact ((completion_set_iff ht ht81 h1).mp ((allSols_mem 82 _ hW hO hz c).mp hcv)).1
    · intro hc
      have hvm := completion_value_mem hWF.1 ht ht81 hc
      rcases hALL _ hvm with ⟨hW, hO, hz⟩
      rcases mem_candidates.mp hvm with ⟨_, h1, _, _⟩
      exact ⟨c.getD t 0, hvm, (allSols_mem 82 _ hW hO hz c).mpr
        ((completion_set_iff ht ht81 h1).mpr ⟨hc, rfl⟩)⟩
  have hz81 : zerosCount b < 82 := by
    have := zerosCount_le b
    omega
  have hlen := length_eq_of_nodup_mem (allSols_nodup 82 b hWF hOk hz81) hLnodup
    (fun c => (allSols_mem 82 b hWF hOk hz81 c).trans (hLmem c).symm)
  unfold completionsCount
  rw [hlen, List.length_flatMap]
  rfl

theorem completions_allFilled {b : Board} (hWF : BoardWF b) (hOk : PartialOk b)
    (hf : ∀ j < 81, b.get? j ≠ some 0) : completionsCount b = 1 := by
  unfold completionsCount
  show (allSols (81 + 1) b).length = 1
  rw [allSols, firstEmpty_none_of hf]
  show (if noConflictsB b = true then [b] else []).length = 1
  rw [if_pos (noConflictsB_of hWF.1 hOk hf)]
  rfl

theorem completions_deadEnd {b : Board} (hWF : BoardWF b) (hOk : PartialOk b)
    {j : Nat} (hj0 : b.get? j = some 0) (hjc : candidates b j = []) :
    completionsCount b = 0 := by
  have hz81 : zerosCount b < 82 := by
    have := zerosCount_le b
    omega
  have hj81 : j < 81 := by
    have := (List.get?_eq_some.mp hj0).1
    have := hWF.1
    omega
  have : allSols 82 b = [] := by
    rw [List.eq_nil_iff_forall_not_mem]
    intro c hc
    have hcomp := (allSols_mem 82 b hWF hOk hz81 c).mp hc
    have := completion_value_mem hWF.1 hj0 hj81 hcomp
    rw [hjc] at this
    cases this
  unfold completionsCount
  rw [this]
  rfl

theorem countGoVals_spec (f : Board → Nat → Nat) (b : Board) (limit t : Nat) (N : Nat → Nat) :
    ∀ (vs : List Nat) (k : Nat), k ≤ limit →
      (∀ v ∈ vs, ∀ k2, k2 ≤ limit → f (b.set t v) k2 = min limit (k2 + N v)) →
      countGoVals f b limit t vs k = min limit (k + (vs.map N).sum) := by
  intro vs
  induction vs with
  | nil =>
    intro k hk _
    show k = min limit (k + ([] : List Nat).sum)
    simp
    omega
  | cons v rest ih =>
    intro k hk hf
    unfold countGoVals
    by_cases hlim : limit ≤ k
    · rw [if_pos hlim]
      have hkl : k = limit := by omega
      rw [List.map_cons, List.sum_cons]
      omega
    · rw [if_neg hlim]
      rw [hf v (List.mem_cons_self _ _) k hk]
      rw [ih (min limit (k + N v)) (Nat.min_le_left _ _)
        (fun v2 hv2 => hf v2 (List.mem_cons_of_mem _ hv2))]
      rw [List.map_cons, List.sum_cons]
      omega

theorem countBacktrack_spec : ∀ (n : Nat) (b : Board), zerosCount b ≤ n →
    BoardWF b → PartialOk b → ∀ (fuel limit k : Nat), zerosCount b < fuel → k ≤ limit →
    countBacktrack fuel b limit k = min limit (k + completionsCount b) := by
  intro n
  induction n with
  | zero =>
    intro b hzn hWF hOk fuel limit k hzf hk
    cases fuel with
    | zero => omega
    | succ m =>
      have hfill : ∀ j < 81, b.get? j ≠ some 0 := by
        intro j hj he
        have : 1 ≤ zerosCount b := by
          unfold zerosCount
          have : j ∈ (List.range 81).filter (fun i => b.get? i == some 0) :=
            List.mem_filter.mpr ⟨List.mem_range.mpr hj, by rw [he]; rfl⟩
          exact List.length_pos.mpr (List.ne_nil_of_mem this)
        omega
      have hscan := mrvScan_allFilled hfill
      show (if limit ≤ k then k
            else match mrvScan b with
              | .deadEnd => k
              | .allFilled => k + 1
              | .target t => countGoVals (countBacktrack m · limit ·) b limit t
                  (candidates b t) k) = min limit (k + completionsCount b)
      rw [hscan, completions_allFilled hWF hOk hfill]
      dsimp only
      by_cases hlim : limit ≤ k
      · rw [if_pos hlim]
        omega
      · rw [if_neg hlim]
        omega
  | succ n ih =>
    intro b hzn hWF hOk fuel limit k hzf hk
    cases fuel with
    | zero => omega
    | succ m =>
      show (if limit ≤ k then k
            else match mrvScan b with
              | .deadEnd => k
              | .allFilled => k + 1
              | .target t => countGoVals (countBacktrack m · limit ·) b limit t
                  (candidates b t) k) = min limit (k + completionsCount b)
      by_cases hlim : limit ≤ k
      · rw [if_pos hlim]
        omega
      · rw [if_neg hlim]
        cases hscan : mrvScan b with
        | deadEnd =>
          dsimp only
          rcases mrvScan_deadEnd hscan with ⟨j, hj0, hjc⟩
          rw [completions_deadEnd hWF hOk hj0 hjc]
          omega
        | allFilled =>
          dsimp only
          have hfill := mrvScan_allFilled_inv hscan
          rw [completions_allFilled hWF hOk hfill]
          omega
        | target t =>
          dsimp only
          rcases mrvScan_target hscan with ⟨ht0, ht81⟩
          rw [completions_partition hWF hOk ht0 ht81]
          refine countGoVals_spec (countBacktrack m · limit ·) b limit t
            (fun v => completionsCount (b.set t v)) (candidates b t) k hk ?hstep
          intro v hv k2 hk2
          rcases mem_candidates.mp hv with ⟨_, h1, h9, _⟩
          have hval := (isValid_iff_mem ht0 h1 h9).mpr hv
          have hWF2 := boardWF_set (t := t) hWF h9
          have hOk2 := partialOk_set hWF.1 hOk ht0 h1 hval
          have hzlt := zeros_set_lt ht0 ht81 h1
          exact ih (b.set t v) (by omega) hWF2 hOk2 m limit k2 (by omega) hk2

theorem two_le_length {l : List Board} {a b : Board} (ha : a ∈ l) (hb : b ∈ l)
    (hab : a ≠ b) : 2 ≤ l.length := by
  have h1 : ({a, b} : Finset Board) ⊆ l.toFinset := by
    intro x hx
    rcases Finset.mem_insert.mp hx with rfl | hx2
    · exact List.mem_toFinset.mpr ha
    · rw [Finset.mem_singleton.mp hx2]
      exact List.mem_toFinset.mpr hb
  calc 2 = ({a, b} : Finset Board).card := (Finset.card_pair hab).symm
    _ ≤ l.toFinset.card := Finset.card_le_card h1
    _ ≤ l.length := l.toFinset_card_le

set_option maxRecDepth 1000000 in
/-- C5 counterexample: the fully filled all-ones board has no completion at
all (it is riddled with conflicts), yet `countSolutions` reports 1, so
`countSolutions` does not return min(limit, number of completions) on
arbitrary boards. -/
theorem claim_C5_counterexample :
    countSolutions (List.replicate 81 1) 2 = 1 ∧
    completionsCount (List.replicate 81 1) = 0 ∧
    countSolutions (List.replicate 81 1) 2 ≠
      min 2 (completionsCount (List.replicate 81 1)) := by
  refine ⟨by decide, by decide, by decide⟩

set_option maxRecDepth 1000000 in
/-- C5 (amended): on a well-formed board whose givens are mutually
conflict-free, `countSolutions(board, limit)` continues past the first
completion and stops at the cap, returning min(limit, number of completions);
on the all-zero 81-cell board `countSolutions(board, 2) = 2`. -/
theorem claim_C5 :
    (∀ (b : Board) (limit : Nat), BoardWF b → PartialOk b → 0 < limit →
       countSolutions b limit = min limit (completionsCount b)) ∧
    countSolutions emptyBoard 2 = 2 := by
  have hmain : ∀ (b : Board) (limit : Nat), BoardWF b → PartialOk b → 0 < limit →
      countSolutions b limit = min limit (completionsCount b) := by
    intro b limit hWF hOk hpos
    unfold countSolutions
    have h := countBacktrack_spec (zerosCount b) b (Nat.le_refl _) hWF hOk 82 limit 0
      (by have := zerosCount_le b; omega) (by omega)
    rw [h, Nat.zero_add]
  refine ⟨hmain, ?hzero⟩
  have h0 := hmain emptyBoard 2 (by decide) (by decide) (by decide)
  rw [h0]
  have hz81 : zerosCount emptyBoard < 82 := by decide
  have hm1 : EASY_SOLUTION ∈ allSols 82 emptyBoard :=
    (allSols_mem 82 emptyBoard (by decide) (by decide) hz81 EASY_SOLUTION).mpr (by decide)
  have hm2 : EASY_SOLUTION_SWAP ∈ allSols 82 emptyBoard :=
    (allSols_mem 82 emptyBoard (by decide) (by decide) hz81 EASY_SOLUTION_SWAP).mpr (by decide)
  have hne : EASY_SOLUTION ≠ EASY_SOLUTION_SWAP := by decide
  have h2 : 2 ≤ completionsCount emptyBoard := two_le_length hm1 hm2 hne
  omega

set_option maxRecDepth 1000000 in
/-- Witness for the amended C5 at the concrete filled board `EASY_SOLUTION`. -/
theorem claim_C5_witness :
    (BoardWF EASY_SOLUTION ∧ PartialOk EASY_SOLUTION ∧ 0 < 2) ∧
    countSolutions EASY_SOLUTION 2 = min 2 (completionsCount EASY_SOLUTION) :=
  ⟨⟨by decide, by decide, by decide⟩,
   claim_C5.1 EASY_SOLUTION 2 (by decide) (by decide) (by decide)⟩

end Codoku
